import Mathlib

/-!
# Ising model engine (`ising/ising.go`): shallow embedding and properties

The file has four parts: the embedding of `ising.go`, function by function; the observables
and the flip once more in rounded `float64` arithmetic; auxiliary
definitions used to state properties (well-formed and reachable lattices, the sites and
bonds of the torus, the instrumented run `snapshots`, the sweep `attempts` in the spec's
words, the staggered and negated lattices); lemmas and the properties themselves.

Modelling conventions.

* Go `int` is `Int`. A lattice whose side squared leaves the 64-bit range cannot be
  allocated, so no wrap-around is modelled.
* Go `float64` is `ℚ`, in two readings. The functions of the first part compute exactly:
  this is the arithmetic of the properties stated "in exact arithmetic". Division by zero
  there follows Lean (`x / 0 = 0`); the source yields `±Inf` or `NaN`. The functions of the
  second part (`calcParametersF`, `flipDeltaF`, `mcStepF`) round every operation to
  `float64`; they show where an exact equality does not survive the rounding.
* `math.Exp` is a parameter `exp : ℚ → ℚ` of every function that reaches it.
* A run-time panic (index out of range, integer division by zero, `rand.Intn` with a
  non-positive bound) is the result `none`.
* The process-wide generator of `math/rand` is an explicit value `Rng`, threaded through
  every function that draws from it; `rand.Seed` fixes its stream, which is arbitrary here.
* A lattice is a value: a write returns the new lattice, which the caller stores back where
  the source mutates in place.
* The bodies of the loops are named (`calcSite`, `attempt`, `measureStep`, `copyStep`,
  `scheduleStep`); the loops over the copies and the schedule take the accumulator and its
  update as arguments, `RunIsing` passing the four running sums and `addSample`.
-/

namespace Ising

/-- Simulation parameters (`type Params struct`). -/
structure Params where
  L : Int
  T1 : ℚ
  T2 : ℚ
  Tcount : Int
  ASteps : Int
  MSteps : Int
  Copies : Int

/-- One output record (`type ResultRow struct`). -/
structure ResultRow where
  T : ℚ
  U : ℚ
  M : ℚ
  C : ℚ
  X : ℚ
deriving DecidableEq

/-- The lattice type `[][]int`. -/
abbrev array2d := List (List Int)

/-- The generator state after seeding: the values the successive calls of `rand.Intn`
and `rand.Float64` will produce, and how many of each have been consumed. -/
structure Rng where
  ints : Nat → Nat
  floats : Nat → ℚ
  ni : Nat
  nf : Nat

/-- The call `rand.Intn(n)`: panics for `n ≤ 0`, otherwise a value in `[0, n)`. -/
def Rng.Intn (g : Rng) (n : Int) : Option (Int × Rng) :=
  if n ≤ 0 then none
  else some ((g.ints g.ni : Int) % n, { g with ni := g.ni + 1 })

/-- The call `rand.Float64()`. -/
def Rng.Float64 (g : Rng) : ℚ × Rng :=
  (g.floats g.nf, { g with nf := g.nf + 1 })

/-- Slice read `l[i]` with a Go `int` index: out of range panics. -/
def idx {α : Type} (l : List α) (i : Int) : Option α :=
  if i < 0 then none else l.get? i.toNat

/-- Slice write `l[i] = v` with a Go `int` index: out of range panics. -/
def upd {α : Type} (l : List α) (i : Int) (v : α) : Option (List α) :=
  if i < 0 then none
  else if i.toNat < l.length then some (l.set i.toNat v) else none

/-- The read `lattice[i][j]`. -/
def at2 (lattice : array2d) (i j : Int) : Option Int :=
  match idx lattice i with
  | none => none
  | some row => idx row j

/-- The write `lattice[i][j] = v`. -/
def set2 (lattice : array2d) (i j : Int) (v : Int) : Option array2d :=
  match idx lattice i with
  | none => none
  | some row =>
    match upd row j v with
    | none => none
    | some row' => upd lattice i row'

/-- The loop `for i := start; i < start + k; i++ { body }` over a state `σ`; a panic in
the body ends the loop. -/
def loopFrom {σ : Type} (body : Int → σ → Option σ) : Nat → Int → σ → Option σ
  | 0, _, s => some s
  | k + 1, i, s =>
    match body i s with
    | none => none
    | some s' => loopFrom body k (i + 1) s'

/-- The loop `for i := 0; i < n; i++ { body }`. -/
def forLoop {σ : Type} (n : Int) (body : Int → σ → Option σ) (s : σ) : Option σ :=
  loopFrom body n.toNat 0 s

/-- Periodic boundary (`func pbc`). Go's `%` truncates and panics on a zero divisor. -/
def pbc (x L : Int) : Option Int :=
  if x < 0 then some (x + L)
  else if L = 0 then none
  else some (Int.tmod x L)

/-- Body of the inner loop of `calcParameters` at site `(x, y)`; the state is
`(*energy, *moment)`. -/
def calcSite (lattice : array2d) (L : Int) (J h : ℚ) (x y : Int) (acc : ℚ × ℚ) :
    Option (ℚ × ℚ) :=
  match at2 lattice x y with
  | none => none
  | some S =>
    match pbc (x + 1) L with
    | none => none
    | some xr =>
      match at2 lattice xr y with
      | none => none
      | some Sr =>
        match pbc (y + 1) L with
        | none => none
        | some yb =>
          match at2 lattice x yb with
          | none => none
          | some Sb =>
            let e1 := acc.1 + -J * (S : ℚ) * (Sr : ℚ)
            let e2 := e1 + -J * (S : ℚ) * (Sb : ℚ)
            let e3 := e2 + -h * (S : ℚ)
            some (e3, acc.2 + (S : ℚ))

/-- Total energy and magnetisation of a lattice (`func calcParameters`); the result is the
pair of values left in `*energy` and `*moment`. -/
def calcParameters (lattice : array2d) (L : Int) (J h : ℚ) : Option (ℚ × ℚ) :=
  forLoop L (fun x acc => forLoop L (fun y acc' => calcSite lattice L J h x y acc') acc)
    (0, 0)

/-- Lines 61 to 67 of `mcStep`: the candidate spin `S1` and the energy change `dE`. -/
def flipDelta (lattice : array2d) (L : Int) (J h : ℚ) (x y : Int) : Option (Int × ℚ) :=
  match at2 lattice x y with
  | none => none
  | some S0 =>
    let S1 := -S0
    match pbc (x + 1) L with
    | none => none
    | some xr =>
      match at2 lattice xr y with
      | none => none
      | some Sr =>
        match pbc (y + 1) L with
        | none => none
        | some yb =>
          match at2 lattice x yb with
          | none => none
          | some Sb =>
            match pbc (x - 1) L with
            | none => none
            | some xl =>
              match at2 lattice xl y with
              | none => none
              | some Sl =>
                match pbc (y - 1) L with
                | none => none
                | some yt =>
                  match at2 lattice x yt with
                  | none => none
                  | some St =>
                    some (S1, ((S1 - S0 : Int) : ℚ) * (-h - J * ((Sl + Sr + St + Sb : Int) : ℚ)))

/-- One Metropolis step at site `(x, y)` (`func mcStep`). -/
def mcStep (exp : ℚ → ℚ) (lattice : array2d) (L : Int) (J h T : ℚ) (x y : Int) (g : Rng) :
    Option (array2d × Rng) :=
  match flipDelta lattice L J h x y with
  | none => none
  | some (S1, dE) =>
    let (u, g') := g.Float64
    if u < exp (-dE / T) then
      match set2 lattice x y S1 with
      | none => none
      | some lattice' => some (lattice', g')
    else some (lattice, g')

/-- Body of the loop of `nextStep`: two coordinate draws, then `mcStep`. -/
def attempt (exp : ℚ → ℚ) (L : Int) (J h T : ℚ) (s : array2d × Rng) :
    Option (array2d × Rng) :=
  match s.2.Intn L with
  | none => none
  | some (x, g1) =>
    match g1.Intn L with
    | none => none
    | some (y, g2) => mcStep exp s.1 L J h T x y g2

/-- One sweep of `N = L * L` random attempts (`func nextStep`). -/
def nextStep (exp : ℚ → ℚ) (L : Int) (J h T : ℚ) (st : array2d × Rng) :
    Option (array2d × Rng) :=
  forLoop (L * L) (fun _ s => attempt exp L J h T s) st

/-- The four running sums `E`, `E2`, `M`, `M2` of `RunIsing`. -/
structure Sums where
  E : ℚ
  E2 : ℚ
  M : ℚ
  M2 : ℚ
deriving DecidableEq

/-- Lines 154 to 157 of `RunIsing`: folding one measurement into the running sums. -/
def addSample (mSteps copies : Int) (a : Sums) (energy moment : ℚ) : Sums :=
  { E := a.E + energy / (mSteps : ℚ) / (copies : ℚ)
    E2 := a.E2 + energy * energy / (mSteps : ℚ) / (copies : ℚ)
    M := a.M + |moment| / (mSteps : ℚ) / (copies : ℚ)
    M2 := a.M2 + moment * moment / (mSteps : ℚ) / (copies : ℚ) }

/-- The thermalisation loop (lines 141 to 143). -/
def thermalize (exp : ℚ → ℚ) (L : Int) (J h T : ℚ) (aSteps : Int) (st : array2d × Rng) :
    Option (array2d × Rng) :=
  forLoop aSteps (fun _ s => nextStep exp L J h T s) st

/-- Body of the measurement loop (lines 147 to 157), for an accumulator `α` updated by
`rec` with the measured `(energy, moment)`. -/
def measureStep {α : Type} (rec : α → ℚ → ℚ → α) (exp : ℚ → ℚ) (L : Int) (J h T : ℚ)
    (s : (array2d × Rng) × α) : Option ((array2d × Rng) × α) :=
  match nextStep exp L J h T s.1 with
  | none => none
  | some s1 =>
    match calcParameters s1.1 L J h with
    | none => none
    | some em => some (s1, rec s.2 em.1 em.2)

/-- The measurement loop (lines 146 to 158); `RunIsing` uses `α = Sums` and
`rec = addSample`. -/
def measure {α : Type} (rec : α → ℚ → ℚ → α) (exp : ℚ → ℚ) (L : Int) (J h T : ℚ)
    (mSteps : Int) (st : (array2d × Rng) × α) : Option ((array2d × Rng) × α) :=
  forLoop mSteps (fun _ s => measureStep rec exp L J h T s) st

/-- Body of the loop over the copies (lines 138 to 158) for copy `copyIdx`; the lattice is
updated in place, so the slice of lattices holds the new state afterwards. -/
def copyStep {α : Type} (rec : α → ℚ → ℚ → α) (exp : ℚ → ℚ) (L : Int) (J h T : ℚ)
    (aSteps mSteps : Int) (copyIdx : Int) (s : (List array2d × Rng) × α) :
    Option ((List array2d × Rng) × α) :=
  match idx s.1.1 copyIdx with
  | none => none
  | some lattice =>
    match thermalize exp L J h T aSteps (lattice, s.1.2) with
    | none => none
    | some s1 =>
      match measure rec exp L J h T mSteps (s1, s.2) with
      | none => none
      | some s2 =>
        match upd s.1.1 copyIdx s2.1.1 with
        | none => none
        | some lattices' => some ((lattices', s2.1.2), s2.2)

/-- The loop over the copies (lines 137 to 159); the state is the slice of lattices, the
generator and the accumulator. -/
def copyLoop {α : Type} (rec : α → ℚ → ℚ → α) (exp : ℚ → ℚ) (L : Int) (J h T : ℚ)
    (aSteps mSteps copies : Int) (st : (List array2d × Rng) × α) :
    Option ((List array2d × Rng) × α) :=
  forLoop copies (fun copyIdx s => copyStep rec exp L J h T aSteps mSteps copyIdx s) st

/-- The temperature of schedule point `tIdx` (line 129). -/
def tempAt (T1 T2 : ℚ) (Tcount tIdx : Int) : ℚ :=
  T1 + (tIdx : ℚ) * (T2 - T1) / ((Tcount - 1 : Int) : ℚ)

/-- Lines 161 to 172: the row derived from the running sums. -/
def finishRow (T : ℚ) (N : Int) (a : Sums) : ResultRow :=
  { T := T
    U := a.E / (N : ℚ)
    M := a.M / (N : ℚ)
    C := (a.E2 - a.E * a.E) / (T * T * (N : ℚ))
    X := (a.M2 - a.M * a.M) / (T * (N : ℚ)) }

/-- One initial lattice (lines 115 to 122): `L` rows of `L` spins `+1`. -/
def initLattice (L : Int) : array2d :=
  List.replicate L.toNat (List.replicate L.toNat 1)

/-- The initial slice of lattices (lines 113 to 124): `copies` initial lattices. -/
def initLattices (L copies : Int) : List array2d :=
  List.replicate copies.toNat (initLattice L)

/-- Body of the loop over the temperature schedule (lines 129 to 172) at point `tIdx`,
for an accumulator `α` that starts each temperature at `init`, is updated by `rec`, and is
turned into the appended record by `fin`. -/
def scheduleStep {α ρ : Type} (init : α) (rec : α → ℚ → ℚ → α) (fin : ℚ → α → ρ)
    (exp : ℚ → ℚ) (J h : ℚ) (params : Params) (tIdx : Int)
    (s : (List array2d × Rng) × List ρ) : Option ((List array2d × Rng) × List ρ) :=
  let T := tempAt params.T1 params.T2 params.Tcount tIdx
  match copyLoop rec exp params.L J h T params.ASteps params.MSteps params.Copies
      (s.1, init) with
  | none => none
  | some s1 => some (s1.1, s.2 ++ [fin T s1.2])

/-- The loop over the temperature schedule (lines 128 to 173); the state is the slice of
lattices, the generator and the records appended so far. -/
def scheduleLoop {α ρ : Type} (init : α) (rec : α → ℚ → ℚ → α) (fin : ℚ → α → ρ)
    (exp : ℚ → ℚ) (J h : ℚ) (params : Params) (st : (List array2d × Rng) × List ρ) :
    Option ((List array2d × Rng) × List ρ) :=
  forLoop params.Tcount (fun tIdx s => scheduleStep init rec fin exp J h params tIdx s) st

/-- The temperature loop of `RunIsing`: the running sums start at zero, are updated by
`addSample` and finished by `finishRow` with `N = L * L`. -/
def tempLoop (exp : ℚ → ℚ) (J h : ℚ) (params : Params)
    (st : (List array2d × Rng) × List ResultRow) :
    Option ((List array2d × Rng) × List ResultRow) :=
  scheduleLoop (⟨0, 0, 0, 0⟩ : Sums) (addSample params.MSteps params.Copies)
    (fun T a => finishRow T (params.L * params.L) a) exp J h params st

/-- The entry point (`func RunIsing`), run on the generator `g` that `rand.Seed` leaves.
The result is the returned pair: the rows (`nil` is `[]`) and the error, if any. -/
def RunIsing (exp : ℚ → ℚ) (g : Rng) (J h : ℚ) (params : Params) :
    Option (List ResultRow × Option String) :=
  if params.L ≤ 0 then some ([], some "L must be > 0")
  else if params.Tcount ≤ 1 then some ([], some "Tcount must be > 1")
  else if params.MSteps ≤ 0 then some ([], some "MSteps must be > 0")
  else if params.Copies ≤ 0 then some ([], some "Copies must be > 0")
  else
    match tempLoop exp J h params ((initLattices params.L params.Copies, g), []) with
    | none => none
    | some s => some (s.2, none)

/-! ## The observables and the flip in `float64` arithmetic

The functions below repeat `calcParameters` and `mcStep` with every `float64` operation
rounded to nearest, ties to even, one operation at a time (no fused multiply-add; on a
lattice of spins `+1`/`-1` every product is exact, so fusing would not change a result).
A value outside the finite `float64` range (`±Inf`, `NaN`) is not followed: the result is
`none`, as for a panic. -/

/-- Number of binary digits of `n` (`0` for `0`), by halving at most `fuel` times. -/
def bitLengthAux : Nat → Nat → Nat
  | 0, _ => 0
  | fuel + 1, n => if n = 0 then 0 else 1 + bitLengthAux fuel (n / 2)

/-- Number of binary digits of `n`: `n` halvings always suffice. -/
def bitLength (n : Nat) : Nat := bitLengthAux n n

/-- The quotient `a / b` of two naturals (`b > 0`) rounded to the nearest natural, ties to
the even one. -/
def roundHalfEven (a b : Nat) : Nat :=
  let t := a / b
  let r := a % b
  if 2 * r < b then t
  else if b < 2 * r then t + 1
  else if t % 2 = 0 then t else t + 1

/-- Rounding of a rational to the nearest `float64`, ties to even: 53 significant bits,
least exponent `-1074`. With `e` the binary exponent of `|q|` and `u = max (e - 52) (-1074)`
the exponent of the unit in the last place, the result is `± m * 2 ^ u` for the integer `m`
nearest to `|q| / 2 ^ u`. The result is `none` when the rounded value reaches `2 ^ 1024`
(the source then has `±Inf`). -/
def round64 (q : ℚ) : Option ℚ :=
  if q = 0 then some 0
  else
    let n := q.num.natAbs
    let d := q.den
    let e0 : Int := (bitLength n : Int) - (bitLength d : Int)
    let e : Int :=
      if 0 ≤ e0 then (if d * 2 ^ e0.toNat ≤ n then e0 else e0 - 1)
      else (if d ≤ n * 2 ^ (-e0).toNat then e0 else e0 - 1)
    let u : Int := max (e - 52) (-1074)
    if 0 ≤ u then
      let r : Nat := roundHalfEven n (d * 2 ^ u.toNat) * 2 ^ u.toNat
      if 2 ^ 1024 ≤ r then none
      else some (if q.num < 0 then -(r : ℚ) else (r : ℚ))
    else
      let m : Nat := roundHalfEven (n * 2 ^ (-u).toNat) d
      let k : Nat := 2 ^ (-u).toNat
      if 2 ^ 1024 * k ≤ m then none
      else some (if q.num < 0 then -((m : ℚ) / (k : ℚ)) else (m : ℚ) / (k : ℚ))

/-- The `float64` sum `a + b`. -/
def fadd (a b : ℚ) : Option ℚ := round64 (a + b)

/-- The `float64` difference `a - b`. -/
def fsub (a b : ℚ) : Option ℚ := round64 (a - b)

/-- The `float64` product `a * b`. -/
def fmul (a b : ℚ) : Option ℚ := round64 (a * b)

/-- The `float64` quotient `a / b`; a zero divisor gives `±Inf` or `NaN` in the source,
`none` here. -/
def fdiv (a b : ℚ) : Option ℚ := if b = 0 then none else round64 (a / b)

/-- The conversion `float64(i)` of a Go `int`. -/
def ofInt (i : Int) : Option ℚ := round64 (i : ℚ)

/-- The statement `acc += c * a * b` in `float64` arithmetic: two rounded products, then a
rounded sum. -/
def addProduct (acc c a b : ℚ) : Option ℚ :=
  match fmul c a with
  | none => none
  | some p =>
    match fmul p b with
    | none => none
    | some t => fadd acc t

/-- The statement `acc += c * a` in `float64` arithmetic. -/
def addScaled (acc c a : ℚ) : Option ℚ :=
  match fmul c a with
  | none => none
  | some t => fadd acc t

/-- The four `+=` of lines 51 to 54 in `float64` arithmetic, on the converted spins. -/
def addSiteF (J h : ℚ) (fS fSr fSb : ℚ) (acc : ℚ × ℚ) : Option (ℚ × ℚ) :=
  match addProduct acc.1 (-J) fS fSr with
  | none => none
  | some e1 =>
    match addProduct e1 (-J) fS fSb with
    | none => none
    | some e2 =>
      match addScaled e2 (-h) fS with
      | none => none
      | some e3 =>
        match fadd acc.2 fS with
        | none => none
        | some m => some (e3, m)

/-- Body of the inner loop of `calcParameters` in `float64` arithmetic: the reads of
`calcSite`, the conversions `float64(S)`, then the rounded updates. -/
def calcSiteF (lattice : array2d) (L : Int) (J h : ℚ) (x y : Int) (acc : ℚ × ℚ) :
    Option (ℚ × ℚ) :=
  match at2 lattice x y with
  | none => none
  | some S =>
    match pbc (x + 1) L with
    | none => none
    | some xr =>
      match at2 lattice xr y with
      | none => none
      | some Sr =>
        match pbc (y + 1) L with
        | none => none
        | some yb =>
          match at2 lattice x yb with
          | none => none
          | some Sb =>
            match ofInt S, ofInt Sr, ofInt Sb with
            | some fS, some fSr, some fSb => addSiteF J h fS fSr fSb acc
            | _, _, _ => none

/-- The function `calcParameters` in `float64` arithmetic. -/
def calcParametersF (lattice : array2d) (L : Int) (J h : ℚ) : Option (ℚ × ℚ) :=
  forLoop L (fun x acc => forLoop L (fun y acc' => calcSiteF lattice L J h x y acc') acc)
    (0, 0)

/-- The expression `float64(d) * (-h - J * float64(s))` of line 67 in `float64`
arithmetic. -/
def deltaF (J h : ℚ) (d s : Int) : Option ℚ :=
  match ofInt d, ofInt s with
  | some fd, some fs =>
    match fmul J fs with
    | none => none
    | some js =>
      match fsub (-h) js with
      | none => none
      | some q => fmul fd q
  | _, _ => none

/-- Lines 61 to 67 of `mcStep` in `float64` arithmetic. -/
def flipDeltaF (lattice : array2d) (L : Int) (J h : ℚ) (x y : Int) : Option (Int × ℚ) :=
  match at2 lattice x y with
  | none => none
  | some S0 =>
    let S1 := -S0
    match pbc (x + 1) L with
    | none => none
    | some xr =>
      match at2 lattice xr y with
      | none => none
      | some Sr =>
        match pbc (y + 1) L with
        | none => none
        | some yb =>
          match at2 lattice x yb with
          | none => none
          | some Sb =>
            match pbc (x - 1) L with
            | none => none
            | some xl =>
              match at2 lattice xl y with
              | none => none
              | some Sl =>
                match pbc (y - 1) L with
                | none => none
                | some yt =>
                  match at2 lattice x yt with
                  | none => none
                  | some St =>
                    match deltaF J h (S1 - S0) (Sl + Sr + St + Sb) with
                    | none => none
                    | some dE => some (S1, dE)

/-- The function `mcStep` in `float64` arithmetic. -/
def mcStepF (exp : ℚ → ℚ) (lattice : array2d) (L : Int) (J h T : ℚ) (x y : Int) (g : Rng) :
    Option (array2d × Rng) :=
  match flipDeltaF lattice L J h x y with
  | none => none
  | some (S1, dE) =>
    let (u, g') := g.Float64
    match fdiv (-dE) T with
    | none => none
    | some z =>
      if u < exp z then
        match set2 lattice x y S1 with
        | none => none
        | some lattice' => some (lattice', g')
      else some (lattice, g')

/-- The `float64` nearest to `0.1`. -/
def tenth64 : ℚ := 3602879701896397 / 36028797018963968

/-- The `float64` nearest to `0.2`. -/
def fifth64 : ℚ := 3602879701896397 / 18014398509481984

/-! ## Auxiliary definitions for the statements -/

/-- A lattice with `L` rows of `L` entries. -/
def Square (L : Int) (lattice : array2d) : Prop :=
  lattice.length = L.toNat ∧ ∀ r ∈ lattice, r.length = L.toNat

/-- The spin stored at `(x, y)`, or `0` where the read would panic. -/
def spin (lattice : array2d) (x y : Int) : Int := (at2 lattice x y).getD 0

/-- What site `(x, y)` adds to `(*energy, *moment)` in `calcParameters`. -/
def siteTerm (lattice : array2d) (L : Int) (J h : ℚ) (x y : Int) : ℚ × ℚ :=
  (-J * (spin lattice x y : ℚ) * (spin lattice ((x + 1) % L) y : ℚ)
      + -J * (spin lattice x y : ℚ) * (spin lattice x ((y + 1) % L) : ℚ)
      + -h * (spin lattice x y : ℚ),
    (spin lattice x y : ℚ))

/-- Every stored value is a spin, `+1` or `-1`. -/
def Spins (lattice : array2d) : Prop := ∀ r ∈ lattice, ∀ v ∈ r, v = 1 ∨ v = -1

/-- An `L × L` lattice of spins. -/
def Valid (L : Int) (lattice : array2d) : Prop := Square L lattice ∧ Spins lattice

/-- Decision procedure for `Square`. -/
instance decidableSquare (L : Int) (lattice : array2d) : Decidable (Square L lattice) := by
  unfold Square; infer_instance

/-- Decision procedure for `Spins`. -/
instance decidableSpins (lattice : array2d) : Decidable (Spins lattice) := by
  unfold Spins; infer_instance

/-- Decision procedure for `Valid`. -/
instance decidableValid (L : Int) (lattice : array2d) : Decidable (Valid L lattice) := by
  unfold Valid; infer_instance

/-- An accumulator type with its update, as `measure` and `copyLoop` take them. -/
abbrev Recorder : Type 1 := (α : Type) × (α → ℚ → ℚ → α)

/-- Folding a list of measurements into an accumulator. -/
def foldSamples {α : Type} (rec : α → ℚ → ℚ → α) (a : α) (ms : List (ℚ × ℚ)) : α :=
  ms.foldl (fun b v => rec b v.1 v.2) a

/-- The slice of lattices of a run: `copies` lattices, each an `L × L` lattice of spins. -/
def ValidAll (L copies : Int) (lattices : List array2d) : Prop :=
  lattices.length = copies.toNat ∧ ∀ l ∈ lattices, Valid L l

/-- An accumulator type with its start value, update and final record, as `scheduleLoop`
takes them. -/
structure Scheme : Type 1 where
  acc : Type
  out : Type
  init : acc
  add : acc → ℚ → ℚ → acc
  fin : ℚ → acc → out

/-- The instrumented run: the same schedule loop as `RunIsing`, from the same initial
lattices and generator, recording for each temperature the temperature itself and the list
of `(energy, moment)` pairs that `calcParameters` returned, in measurement order. -/
def snapshots (exp : ℚ → ℚ) (g : Rng) (J h : ℚ) (params : Params) :
    Option (List (ℚ × List (ℚ × ℚ))) :=
  match scheduleLoop ([] : List (ℚ × ℚ)) (fun l energy moment => l ++ [(energy, moment)])
      (fun T l => (T, l)) exp J h params
      ((initLattices params.L params.Copies, g), []) with
  | none => none
  | some s => some s.2

/-- The row `RunIsing` derives from the measurements `v.2` taken at temperature `v.1`. -/
def rowOf (params : Params) (v : ℚ × List (ℚ × ℚ)) : ResultRow :=
  finishRow v.1 (params.L * params.L)
    (foldSamples (addSample params.MSteps params.Copies) ⟨0, 0, 0, 0⟩ v.2)

/-- A stand-in for `math.Exp` in concrete runs: at least `1` on non-negative arguments,
below `1` and positive on negative ones. -/
def expStub (z : ℚ) : ℚ := if 0 ≤ z then 1 + z else 1 / (1 - z)

/-- A concrete generator: `rand.Intn` draws `3, 10, 17, …` (reduced to the bound) and
`rand.Float64` draws `0, 1/10, …, 9/10` in rotation. -/
def rngStub : Rng := ⟨fun n => n * 7 + 3, fun n => ((n % 10 : Nat) : ℚ) / 10, 0, 0⟩

/-- Concrete valid parameters: a `2 × 2` lattice, three temperatures from 5 down to 1. -/
def paramsStub : Params := ⟨2, 5, 1, 3, 1, 2, 2⟩

/-- Arithmetic mean of a list. -/
def mean (l : List ℚ) : ℚ := l.sum / (l.length : ℚ)

/-- Lexicographic order on sites; it picks one of the two orderings of an unordered pair of
distinct sites. -/
def lexLt (a b : Nat × Nat) : Prop := a.1 < b.1 ∨ (a.1 = b.1 ∧ a.2 < b.2)

/-- Periodic nearest neighbours on the `n × n` torus: equal in one coordinate, one step
apart modulo `n` in the other. -/
def adjacent (n : Nat) (a b : Nat × Nat) : Prop :=
  (a.2 = b.2 ∧ ((a.1 + 1) % n = b.1 ∨ (b.1 + 1) % n = a.1)) ∨
  (a.1 = b.1 ∧ ((a.2 + 1) % n = b.2 ∨ (b.2 + 1) % n = a.2))

/-- Decision procedure for `lexLt`. -/
instance decidableLexLt (a b : Nat × Nat) : Decidable (lexLt a b) := by
  unfold lexLt; infer_instance

/-- Decision procedure for `adjacent`. -/
instance decidableAdjacent (n : Nat) (a b : Nat × Nat) : Decidable (adjacent n a b) := by
  unfold adjacent; infer_instance

/-- The sites of the `n × n` lattice. -/
def sites (n : Nat) : Finset (Nat × Nat) := Finset.range n ×ˢ Finset.range n

/-- The bonds of the `n × n` torus: every unordered pair of distinct nearest-neighbour
sites, listed once (ordered lexicographically). -/
def bonds (n : Nat) : Finset ((Nat × Nat) × (Nat × Nat)) :=
  (sites n ×ˢ sites n).filter (fun p => lexLt p.1 p.2 ∧ p.1 ≠ p.2 ∧ adjacent n p.1 p.2)

/-- The spin at a site given by natural-number coordinates, as a rational. -/
def spinAt (lattice : array2d) (a : Nat × Nat) : ℚ :=
  (spin lattice (a.1 : Int) (a.2 : Int) : ℚ)

/-- The lattices a copy can hold during a run with coupling `J` and field `h`: the initial
lattice, and whatever any number of successful `mcStep` and `nextStep` calls (at any site,
any temperature, any generator state) make of it. -/
inductive Reachable (exp : ℚ → ℚ) (L : Int) (J h : ℚ) : array2d → Prop
  | start : Reachable exp L J h (initLattice L)
  | flip (lattice lattice' : array2d) (T : ℚ) (x y : Int) (g g' : Rng) :
      Reachable exp L J h lattice →
      mcStep exp lattice L J h T x y g = some (lattice', g') →
      Reachable exp L J h lattice'
  | sweep (lattice : array2d) (T : ℚ) (g : Rng) (st' : array2d × Rng) :
      Reachable exp L J h lattice →
      nextStep exp L J h T (lattice, g) = some st' →
      Reachable exp L J h st'.1

/-- The slice of lattices of a run holds `copies` reachable lattices. -/
def ReachableAll (exp : ℚ → ℚ) (L : Int) (J h : ℚ) (copies : Int)
    (lattices : List array2d) : Prop :=
  lattices.length = copies.toNat ∧ ∀ l ∈ lattices, Reachable exp L J h l

/-- A sweep in the spec's words: `k` update attempts in a row, each at the site `(x, y)`
given by the next two coordinate draws, followed by the `mcStep` there (which takes the
next acceptance draw). -/
def attempts (exp : ℚ → ℚ) (L : Int) (J h T : ℚ) : Nat → array2d × Rng → Option (array2d × Rng)
  | 0, s => some s
  | k + 1, s =>
    match mcStep exp s.1 L J h T ((s.2.ints s.2.ni : Int) % L)
        ((s.2.ints (s.2.ni + 1) : Int) % L) { s.2 with ni := s.2.ni + 2 } with
    | none => none
    | some s' => attempts exp L J h T k s'

/-- The generator `g'` is `g` after `di` more coordinate draws and `df` more acceptance
draws. -/
def Advanced (g g' : Rng) (di df : Nat) : Prop :=
  g'.ints = g.ints ∧ g'.floats = g.floats ∧ g'.ni = g.ni + di ∧ g'.nf = g.nf + df

/-- The staggered lattice: the spin at `(x, y)` multiplied by `(-1) ^ (x + y)`. -/
def stagger (lattice : array2d) : array2d :=
  lattice.mapIdx (fun x row => row.mapIdx (fun y v => (-1 : Int) ^ (x + y) * v))

/-- The lattice with every spin negated. -/
def negate (lattice : array2d) : array2d :=
  lattice.map (fun row => row.map (fun v => -v))

/-! ## Indexing and loops -/

theorem idx_of_lt {α : Type} (l : List α) (i : Int) (h0 : 0 ≤ i) (h1 : i.toNat < l.length) :
    idx l i = some (l.get ⟨i.toNat, h1⟩) := by
  unfold idx
  rw [if_neg (not_lt.mpr h0)]
  exact List.get?_eq_get h1

theorem idx_eq_some {α : Type} {l : List α} {i : Int} {v : α} (h : idx l i = some v) :
    0 ≤ i ∧ ∃ h1 : i.toNat < l.length, l.get ⟨i.toNat, h1⟩ = v := by
  unfold idx at h
  by_cases hi : i < 0
  · rw [if_pos hi] at h; exact absurd h (by simp)
  · rw [if_neg hi] at h
    refine ⟨not_lt.mp hi, ?_⟩
    rcases List.get?_eq_some.mp h with ⟨h1, h2⟩
    exact ⟨h1, h2⟩

theorem idx_mem {α : Type} {l : List α} {i : Int} {v : α} (h : idx l i = some v) : v ∈ l := by
  rcases idx_eq_some h with ⟨_, h1, h2⟩
  rw [← h2]
  exact List.get_mem l _ h1

theorem upd_of_lt {α : Type} (l : List α) (i : Int) (v : α) (h0 : 0 ≤ i)
    (h1 : i.toNat < l.length) : upd l i v = some (l.set i.toNat v) := by
  unfold upd
  rw [if_neg (not_lt.mpr h0), if_pos h1]

theorem upd_eq_some {α : Type} {l l' : List α} {i : Int} {v : α} (h : upd l i v = some l') :
    0 ≤ i ∧ i.toNat < l.length ∧ l' = l.set i.toNat v := by
  unfold upd at h
  by_cases hi : i < 0
  · rw [if_pos hi] at h; exact absurd h (by simp)
  · rw [if_neg hi] at h
    by_cases h1 : i.toNat < l.length
    · rw [if_pos h1] at h
      exact ⟨not_lt.mp hi, h1, (Option.some.inj h).symm⟩
    · rw [if_neg h1] at h; exact absurd h (by simp)

theorem loopFrom_inv {σ : Type} (P : Int → σ → Prop) (body : Int → σ → Option σ) :
    ∀ (k : Nat) (i : Int) (s : σ), P i s →
      (∀ j t, i ≤ j → j < i + k → P j t → ∃ t', body j t = some t' ∧ P (j + 1) t') →
      ∃ s', loopFrom body k i s = some s' ∧ P (i + k) s' := by
  intro k
  induction k with
  | zero => intro i s hP _; exact ⟨s, rfl, by simpa using hP⟩
  | succ k ih =>
    intro i s hP hstep
    rcases hstep i s le_rfl (by push_cast; omega) hP with ⟨t, ht, hPt⟩
    rcases ih (i + 1) t hPt (fun j u h1 h2 hu => hstep j u (by omega) (by push_cast; omega) hu)
      with ⟨s', hs', hP'⟩
    refine ⟨s', ?_, ?_⟩
    · simp only [loopFrom, ht]; exact hs'
    · have : i + ((k + 1 : Nat) : Int) = i + 1 + (k : Int) := by push_cast; ring
      rw [this]; exact hP'

theorem forLoop_inv {σ : Type} (P : Int → σ → Prop) (body : Int → σ → Option σ) (n : Int)
    (s : σ) (hn : 0 ≤ n) (h0 : P 0 s)
    (hstep : ∀ j t, 0 ≤ j → j < n → P j t → ∃ t', body j t = some t' ∧ P (j + 1) t') :
    ∃ s', forLoop n body s = some s' ∧ P n s' := by
  have key := loopFrom_inv P body n.toNat 0 s h0
    (fun j t h1 h2 hP => hstep j t h1 (by rw [Int.toNat_of_nonneg hn] at h2; omega) hP)
  rw [Int.toNat_of_nonneg hn, zero_add] at key
  exact key

theorem forLoop_nonpos {σ : Type} (body : Int → σ → Option σ) (n : Int) (s : σ) (hn : n ≤ 0) :
    forLoop n body s = some s := by
  unfold forLoop
  rw [Int.toNat_eq_zero.mpr hn]
  rfl

theorem pbc_of_pos (x L : Int) (hL : 0 < L) :
    pbc x L = some (if x < 0 then x + L else x % L) := by
  unfold pbc
  by_cases hx : x < 0
  · simp [hx]
  · rw [if_neg hx, if_neg hx, if_neg (ne_of_gt hL), Int.tmod_eq_emod (not_lt.mp hx) hL.le]

theorem pbc_near (x L : Int) (hL : 0 < L) (h1 : -1 ≤ x) (h2 : x ≤ L) :
    pbc x L = some (x % L) := by
  rw [pbc_of_pos x L hL]
  by_cases hx : x < 0
  · have hx1 : x = -1 := by omega
    subst hx1
    rw [if_pos hx]
    have h3 : (-1 + L) % L = -1 % L := Int.add_emod_self
    rw [← h3, Int.emod_eq_of_lt (by omega) (by omega)]
  · rw [if_neg hx]

theorem at2_of_square {L : Int} {lattice : array2d} (hsq : Square L lattice) {x y : Int}
    (hx0 : 0 ≤ x) (hx : x < L) (hy0 : 0 ≤ y) (hy : y < L) :
    ∃ v, at2 lattice x y = some v := by
  have h1 : x.toNat < lattice.length := by rw [hsq.1]; omega
  unfold at2
  rw [idx_of_lt lattice x hx0 h1]
  have h2 : y.toNat < (lattice.get ⟨x.toNat, h1⟩).length := by
    rw [hsq.2 _ (List.get_mem lattice _ h1)]; omega
  exact ⟨_, idx_of_lt _ y hy0 h2⟩

theorem set2_of_at2 {lattice : array2d} {x y v0 : Int} (h : at2 lattice x y = some v0)
    (v : Int) : ∃ lattice', set2 lattice x y v = some lattice' := by
  unfold at2 at h
  unfold set2
  cases hr : idx lattice x with
  | none => rw [hr] at h; exact absurd h (by simp)
  | some row =>
    rw [hr] at h
    rcases idx_eq_some hr with ⟨hx0, hx1, _⟩
    rcases idx_eq_some h with ⟨hy0, hy1, _⟩
    simp only [upd_of_lt row y v hy0 hy1, upd_of_lt lattice x _ hx0 hx1]
    exact ⟨_, rfl⟩

theorem set2_square {L : Int} {lattice lattice' : array2d} {x y v : Int}
    (h : set2 lattice x y v = some lattice') (hsq : Square L lattice) : Square L lattice' := by
  unfold set2 at h
  cases hr : idx lattice x with
  | none => rw [hr] at h; exact absurd h (by simp)
  | some row =>
    rw [hr] at h
    dsimp only at h
    cases hu : upd row y v with
    | none => rw [hu] at h; exact absurd h (by simp)
    | some row' =>
      rw [hu] at h
      dsimp only at h
      rcases upd_eq_some hu with ⟨_, _, hrow'⟩
      rcases upd_eq_some h with ⟨_, _, hlat'⟩
      subst hrow' hlat'
      refine ⟨by rw [List.length_set]; exact hsq.1, ?_⟩
      intro r hr'
      rcases List.mem_or_eq_of_mem_set hr' with h1 | h1
      · exact hsq.2 r h1
      · rw [h1, List.length_set]; exact hsq.2 row (idx_mem hr)

theorem at2_spin {L : Int} {lattice : array2d} (hsq : Square L lattice) {x y : Int}
    (hx0 : 0 ≤ x) (hx : x < L) (hy0 : 0 ≤ y) (hy : y < L) :
    at2 lattice x y = some (spin lattice x y) := by
  rcases at2_of_square hsq hx0 hx hy0 hy with ⟨v, hv⟩
  rw [spin, hv]; rfl

theorem emod_range (x L : Int) (hL : 0 < L) : 0 ≤ x % L ∧ x % L < L :=
  ⟨Int.emod_nonneg x (ne_of_gt hL), Int.emod_lt_of_pos x hL⟩

theorem calcSite_eq {L : Int} {lattice : array2d} (hsq : Square L lattice) (hL : 0 < L)
    (J h : ℚ) {x y : Int} (hx0 : 0 ≤ x) (hx : x < L) (hy0 : 0 ≤ y) (hy : y < L)
    (acc : ℚ × ℚ) :
    calcSite lattice L J h x y acc =
      some (acc.1 + -J * (spin lattice x y : ℚ) * (spin lattice ((x + 1) % L) y : ℚ)
          + -J * (spin lattice x y : ℚ) * (spin lattice x ((y + 1) % L) : ℚ)
          + -h * (spin lattice x y : ℚ),
        acc.2 + (spin lattice x y : ℚ)) := by
  have hxr := emod_range (x + 1) L hL
  have hyb := emod_range (y + 1) L hL
  unfold calcSite
  simp only [at2_spin hsq hx0 hx hy0 hy, pbc_near (x + 1) L hL (by omega) (by omega),
    pbc_near (y + 1) L hL (by omega) (by omega), at2_spin hsq hxr.1 hxr.2 hy0 hy,
    at2_spin hsq hx0 hx hyb.1 hyb.2]

theorem flipDelta_eq {L : Int} {lattice : array2d} (hsq : Square L lattice) (hL : 0 < L)
    (J h : ℚ) {x y : Int} (hx0 : 0 ≤ x) (hx : x < L) (hy0 : 0 ≤ y) (hy : y < L) :
    flipDelta lattice L J h x y =
      some (-spin lattice x y,
        ((-spin lattice x y - spin lattice x y : Int) : ℚ) *
          (-h - J * ((spin lattice ((x - 1) % L) y + spin lattice ((x + 1) % L) y
            + spin lattice x ((y - 1) % L) + spin lattice x ((y + 1) % L) : Int) : ℚ))) := by
  have hxr := emod_range (x + 1) L hL
  have hyb := emod_range (y + 1) L hL
  have hxl := emod_range (x - 1) L hL
  have hyt := emod_range (y - 1) L hL
  unfold flipDelta
  simp only [at2_spin hsq hx0 hx hy0 hy, pbc_near (x + 1) L hL (by omega) (by omega),
    pbc_near (y + 1) L hL (by omega) (by omega), at2_spin hsq hxr.1 hxr.2 hy0 hy,
    at2_spin hsq hx0 hx hyb.1 hyb.2, pbc_near (x - 1) L hL (by omega) (by omega),
    pbc_near (y - 1) L hL (by omega) (by omega), at2_spin hsq hxl.1 hxl.2 hy0 hy,
    at2_spin hsq hx0 hx hyt.1 hyt.2]

theorem flipDelta_at2 {lattice : array2d} {L : Int} {J h : ℚ} {x y S1 : Int} {dE : ℚ}
    (hd : flipDelta lattice L J h x y = some (S1, dE)) : at2 lattice x y = some (-S1) := by
  unfold flipDelta at hd
  cases h0 : at2 lattice x y with
  | none => rw [h0] at hd; exact absurd hd (by simp)
  | some S0 =>
    rw [h0] at hd
    dsimp only at hd
    split at hd <;> first | contradiction | skip
    split at hd <;> first | contradiction | skip
    split at hd <;> first | contradiction | skip
    split at hd <;> first | contradiction | skip
    split at hd <;> first | contradiction | skip
    split at hd <;> first | contradiction | skip
    split at hd <;> first | contradiction | skip
    split at hd <;> first | contradiction | skip
    have := (Prod.mk.inj (Option.some.inj hd)).1
    rw [← this, neg_neg]

theorem Intn_of_pos (g : Rng) (L : Int) (hL : 0 < L) :
    g.Intn L = some ((g.ints g.ni : Int) % L, { g with ni := g.ni + 1 }) := by
  unfold Rng.Intn
  rw [if_neg (not_le.mpr hL)]

theorem loopFrom_sum {M : Type} [AddCommMonoid M] (body : Int → M → Option M) (f : Int → M) :
    ∀ (k : Nat) (i : Int) (s : M),
      (∀ j t, i ≤ j → j < i + k → body j t = some (t + f j)) →
      loopFrom body k i s = some (s + ∑ j in Finset.range k, f (i + j)) := by
  intro k
  induction k with
  | zero => intro i s _; simp [loopFrom]
  | succ k ih =>
    intro i s hb
    have h1 := hb i s le_rfl (by push_cast; omega)
    have h2 := ih (i + 1) (s + f i)
      (fun j t hj1 hj2 => hb j t (by omega) (by push_cast; omega))
    simp only [loopFrom, h1, h2]
    congr 1
    rw [Finset.sum_range_succ', add_assoc]
    congr 1
    rw [add_comm]
    congr 1
    · apply Finset.sum_congr rfl
      intro j _
      congr 1
      push_cast
      ring
    · simp

theorem forLoop_sum {M : Type} [AddCommMonoid M] (body : Int → M → Option M) (f : Int → M)
    (n : Int) (s : M) (hb : ∀ j t, 0 ≤ j → j < n → body j t = some (t + f j)) :
    forLoop n body s = some (s + ∑ j in Finset.range n.toNat, f (j : Int)) := by
  unfold forLoop
  rw [loopFrom_sum body f n.toNat 0 s (fun j t h1 h2 => hb j t h1 (by omega))]
  simp

theorem calcParameters_eq {L : Int} {lattice : array2d} (hsq : Square L lattice) (hL : 0 < L)
    (J h : ℚ) :
    calcParameters lattice L J h =
      some (∑ x in Finset.range L.toNat, ∑ y in Finset.range L.toNat,
        siteTerm lattice L J h (x : Int) (y : Int)) := by
  unfold calcParameters
  rw [forLoop_sum _ (fun x => ∑ y in Finset.range L.toNat, siteTerm lattice L J h x (y : Int))]
  · simp
  · intro x acc hx0 hx
    apply forLoop_sum
    intro y acc' hy0 hy
    rw [calcSite_eq hsq hL J h hx0 hx hy0 hy]
    congr 1
    ext
    · simp only [siteTerm, Prod.fst_add]; ring
    · simp only [siteTerm, Prod.snd_add]

theorem loopFrom_trace {β V : Type} {Θ : Type 1} (Inv : β → Prop) (P : Int → V → Prop)
    (A : Θ → Type) (step : (θ : Θ) → A θ → V → A θ)
    (body : (θ : Θ) → Int → β × A θ → Option (β × A θ)) :
    ∀ (k : Nat) (i : Int),
      (∀ j s, i ≤ j → j < i + k → Inv s →
        ∃ s' v, Inv s' ∧ P j v ∧ ∀ θ a, body θ j (s, a) = some (s', step θ a v)) →
      ∀ s, Inv s → ∃ (s' : β) (vs : List V), Inv s' ∧ vs.length = k ∧
        (∀ (n : Nat) (v : V), vs.get? n = some v → P (i + n) v) ∧
        ∀ θ a, loopFrom (body θ) k i (s, a) = some (s', vs.foldl (step θ) a) := by
  intro k
  induction k with
  | zero =>
    intro i _ s hs
    exact ⟨s, [], hs, rfl, by simp, fun θ a => rfl⟩
  | succ k ih =>
    intro i hstep s hs
    rcases hstep i s le_rfl (by push_cast; omega) hs with ⟨s1, v, hs1, hv, hb⟩
    rcases ih (i + 1) (fun j t h1 h2 ht => hstep j t (by omega) (by push_cast; omega) ht)
      s1 hs1 with ⟨s', vs, hs', hlen, hP, hloop⟩
    refine ⟨s', v :: vs, hs', by simp [hlen], ?_, ?_⟩
    · intro n w hn
      cases n with
      | zero =>
        simp at hn
        subst hn
        simpa using hv
      | succ n =>
        have := hP n w (by simpa using hn)
        have e : i + ((n + 1 : Nat) : Int) = i + 1 + (n : Int) := by push_cast; ring
        rw [e]; exact this
    · intro θ a
      simp only [loopFrom, hb θ a, hloop θ (step θ a v), List.foldl_cons]

theorem forLoop_trace {β V : Type} {Θ : Type 1} (Inv : β → Prop) (P : Int → V → Prop)
    (A : Θ → Type) (step : (θ : Θ) → A θ → V → A θ)
    (body : (θ : Θ) → Int → β × A θ → Option (β × A θ)) (n : Int)
    (hstep : ∀ j s, 0 ≤ j → j < n → Inv s →
        ∃ s' v, Inv s' ∧ P j v ∧ ∀ θ a, body θ j (s, a) = some (s', step θ a v))
    (s : β) (hs : Inv s) :
    ∃ (s' : β) (vs : List V), Inv s' ∧ vs.length = n.toNat ∧
        (∀ (m : Nat) (v : V), vs.get? m = some v → P (m : Int) v) ∧
        ∀ θ a, forLoop n (body θ) (s, a) = some (s', vs.foldl (step θ) a) := by
  rcases loopFrom_trace Inv P A step body n.toNat 0
    (fun j t h1 h2 ht => hstep j t h1 (by omega) ht) s hs with ⟨s', vs, h1, h2, h3, h4⟩
  refine ⟨s', vs, h1, h2, ?_, h4⟩
  intro m v hm
  simpa using h3 m v hm

theorem at2_mem {lattice : array2d} {x y v : Int} (h : at2 lattice x y = some v) :
    ∃ r ∈ lattice, v ∈ r := by
  unfold at2 at h
  cases hr : idx lattice x with
  | none => rw [hr] at h; exact absurd h (by simp)
  | some row =>
    rw [hr] at h
    exact ⟨row, idx_mem hr, idx_mem h⟩

theorem set2_spins {lattice lattice' : array2d} {x y v : Int}
    (h : set2 lattice x y v = some lattice') (hsp : Spins lattice) (hv : v = 1 ∨ v = -1) :
    Spins lattice' := by
  unfold set2 at h
  cases hr : idx lattice x with
  | none => rw [hr] at h; exact absurd h (by simp)
  | some row =>
    rw [hr] at h
    dsimp only at h
    cases hu : upd row y v with
    | none => rw [hu] at h; exact absurd h (by simp)
    | some row' =>
      rw [hu] at h
      dsimp only at h
      rcases upd_eq_some hu with ⟨_, _, hrow'⟩
      rcases upd_eq_some h with ⟨_, _, hlat'⟩
      subst hrow' hlat'
      intro r hr' w hw
      rcases List.mem_or_eq_of_mem_set hr' with h1 | h1
      · exact hsp r h1 w hw
      · rw [h1] at hw
        rcases List.mem_or_eq_of_mem_set hw with h2 | h2
        · exact hsp row (idx_mem hr) w h2
        · rw [h2]; exact hv

theorem spin_of_valid {L : Int} {lattice : array2d} (hv : Valid L lattice) {x y : Int}
    (hx0 : 0 ≤ x) (hx : x < L) (hy0 : 0 ≤ y) (hy : y < L) :
    spin lattice x y = 1 ∨ spin lattice x y = -1 := by
  rcases at2_mem (at2_spin hv.1 hx0 hx hy0 hy) with ⟨r, hr, hm⟩
  exact hv.2 r hr _ hm

theorem mcStep_valid (exp : ℚ → ℚ) {L : Int} {lattice : array2d} (hv : Valid L lattice)
    (hL : 0 < L) (J h T : ℚ) {x y : Int} (hx0 : 0 ≤ x) (hx : x < L) (hy0 : 0 ≤ y) (hy : y < L)
    (g : Rng) :
    ∃ lattice', mcStep exp lattice L J h T x y g = some (lattice', g.Float64.2) ∧
      Valid L lattice' := by
  unfold mcStep
  rw [flipDelta_eq hv.1 hL J h hx0 hx hy0 hy]
  dsimp only
  split
  · rcases set2_of_at2 (at2_spin hv.1 hx0 hx hy0 hy) (-spin lattice x y) with ⟨l', hl'⟩
    rw [hl']
    refine ⟨l', rfl, set2_square hl' hv.1, set2_spins hl' hv.2 ?_⟩
    rcases spin_of_valid hv hx0 hx hy0 hy with h1 | h1 <;> rw [h1] <;> simp
  · exact ⟨lattice, rfl, hv⟩

theorem nextStep_valid (exp : ℚ → ℚ) {L : Int} (hL : 0 < L) (J h T : ℚ)
    (st : array2d × Rng) (hv : Valid L st.1) :
    ∃ st', nextStep exp L J h T st = some st' ∧ Valid L st'.1 := by
  unfold nextStep
  apply forLoop_inv (fun _ s => Valid L s.1) _ (L * L) st (by positivity) hv
  intro j t _ _ ht
  unfold attempt
  rw [Intn_of_pos _ L hL]
  dsimp only
  rw [Intn_of_pos _ L hL]
  dsimp only
  have h1 := emod_range (t.2.ints t.2.ni : Int) L hL
  have h2 := emod_range (t.2.ints (t.2.ni + 1) : Int) L hL
  rcases mcStep_valid exp ht hL J h T h1.1 h1.2 h2.1 h2.2
    { t.2 with ni := t.2.ni + 1 + 1 } with ⟨l', hl', hv'⟩
  exact ⟨_, hl', hv'⟩

theorem thermalize_valid (exp : ℚ → ℚ) {L : Int} (hL : 0 < L) (J h T : ℚ) (aSteps : Int)
    (st : array2d × Rng) (hv : Valid L st.1) :
    ∃ st', thermalize exp L J h T aSteps st = some st' ∧ Valid L st'.1 := by
  unfold thermalize
  by_cases ha : 0 ≤ aSteps
  · exact forLoop_inv (fun _ s => Valid L s.1) _ aSteps st ha hv
      (fun j t _ _ ht => nextStep_valid exp hL J h T t ht)
  · rw [forLoop_nonpos _ _ _ (by omega)]
    exact ⟨st, rfl, hv⟩

theorem measure_trace (exp : ℚ → ℚ) {L : Int} (hL : 0 < L) (J h T : ℚ) (mSteps : Int)
    (st : array2d × Rng) (hv : Valid L st.1) :
    ∃ (st' : array2d × Rng) (ms : List (ℚ × ℚ)), Valid L st'.1 ∧ ms.length = mSteps.toNat ∧
      (∀ v ∈ ms, ∃ lattice, Valid L lattice ∧ calcParameters lattice L J h = some v) ∧
      ∀ (α : Type) (rec : α → ℚ → ℚ → α) (a : α),
        measure rec exp L J h T mSteps (st, a) = some (st', foldSamples rec a ms) := by
  rcases forLoop_trace (fun s : array2d × Rng => Valid L s.1)
    (fun _ v => ∃ lattice, Valid L lattice ∧ calcParameters lattice L J h = some v)
    (fun θ : Recorder => θ.1) (fun θ b v => θ.2 b v.1 v.2)
    (fun θ _ s => measureStep θ.2 exp L J h T s) mSteps
    (by
      intro j s _ _ hs
      rcases nextStep_valid exp hL J h T s hs with ⟨s1, h1, hv1⟩
      refine ⟨s1, _, hv1, ⟨s1.1, hv1, calcParameters_eq hv1.1 hL J h⟩, ?_⟩
      intro θ a
      simp only [measureStep, h1, calcParameters_eq hv1.1 hL J h])
    st hv with ⟨st', ms, h1, h2, h3, h4⟩
  refine ⟨st', ms, h1, h2, ?_, ?_⟩
  · intro v hv'
    rcases List.get?_of_mem hv' with ⟨n, hn⟩
    exact h3 n v hn
  · intro α rec a
    exact h4 ⟨α, rec⟩ a

theorem foldl_foldSamples {α : Type} (rec : α → ℚ → ℚ → α) (mss : List (List (ℚ × ℚ))) :
    ∀ a : α, mss.foldl (foldSamples rec) a = foldSamples rec a mss.flatten := by
  induction mss with
  | nil => intro a; rfl
  | cons ms mss ih =>
    intro a
    rw [List.foldl_cons, ih, List.flatten_cons]
    unfold foldSamples
    rw [List.foldl_append]

theorem length_flatten_const {β : Type} (c : Nat) (mss : List (List β))
    (h : ∀ ms ∈ mss, ms.length = c) : mss.flatten.length = mss.length * c := by
  induction mss with
  | nil => simp
  | cons ms mss ih =>
    rw [List.flatten_cons, List.length_append, h ms (List.mem_cons_self _ _),
      ih (fun m hm => h m (List.mem_cons_of_mem _ hm)), List.length_cons]
    ring

theorem copyLoop_trace (exp : ℚ → ℚ) {L : Int} (hL : 0 < L) (J h T : ℚ)
    (aSteps mSteps copies : Int) (st : List array2d × Rng) (hv : ValidAll L copies st.1) :
    ∃ (st' : List array2d × Rng) (ms : List (ℚ × ℚ)), ValidAll L copies st'.1 ∧
      ms.length = copies.toNat * mSteps.toNat ∧
      (∀ v ∈ ms, ∃ lattice, Valid L lattice ∧ calcParameters lattice L J h = some v) ∧
      ∀ (α : Type) (rec : α → ℚ → ℚ → α) (a : α),
        copyLoop rec exp L J h T aSteps mSteps copies (st, a) =
          some (st', foldSamples rec a ms) := by
  rcases forLoop_trace (fun s : List array2d × Rng => ValidAll L copies s.1)
    (fun _ (ms : List (ℚ × ℚ)) => ms.length = mSteps.toNat ∧
      ∀ v ∈ ms, ∃ lattice, Valid L lattice ∧ calcParameters lattice L J h = some v)
    (fun θ : Recorder => θ.1) (fun θ b ms => foldSamples θ.2 b ms)
    (fun θ copyIdx s => copyStep θ.2 exp L J h T aSteps mSteps copyIdx s) copies
    (by
      intro j s hj0 hj hs
      have hlt : j.toNat < s.1.length := by rw [hs.1]; omega
      have hidx := idx_of_lt s.1 j hj0 hlt
      have hval : Valid L (s.1.get ⟨j.toNat, hlt⟩) := hs.2 _ (List.get_mem s.1 _ hlt)
      rcases thermalize_valid exp hL J h T aSteps (s.1.get ⟨j.toNat, hlt⟩, s.2) hval
        with ⟨s1, hs1, hv1⟩
      rcases measure_trace exp hL J h T mSteps s1 hv1 with ⟨s2, ms, hv2, hlen, hms, hmeas⟩
      refine ⟨(s.1.set j.toNat s2.1, s2.2), ms, ⟨?_, ?_⟩, ⟨hlen, hms⟩, ?_⟩
      · rw [List.length_set]; exact hs.1
      · intro l hl
        rcases List.mem_or_eq_of_mem_set hl with h1 | h1
        · exact hs.2 l h1
        · rw [h1]; exact hv2
      · intro θ a
        simp only [copyStep, hidx, hs1, hmeas θ.1 θ.2 a, upd_of_lt s.1 j s2.1 hj0 hlt])
    st hv with ⟨st', mss, h1, h2, h3, h4⟩
  have hall : ∀ ms ∈ mss, ms.length = mSteps.toNat ∧
      ∀ v ∈ ms, ∃ lattice, Valid L lattice ∧ calcParameters lattice L J h = some v := by
    intro ms hms
    rcases List.get?_of_mem hms with ⟨n, hn⟩
    exact h3 n ms hn
  refine ⟨st', mss.flatten, h1, ?_, ?_, ?_⟩
  · rw [length_flatten_const mSteps.toNat mss (fun ms hms => (hall ms hms).1), h2]
  · intro v hv'
    rcases List.mem_flatten.mp hv' with ⟨ms, hms, hvm⟩
    exact (hall ms hms).2 v hvm
  · intro α rec a
    rw [← foldl_foldSamples]
    exact h4 ⟨α, rec⟩ a

theorem foldl_snoc_map {V ρ : Type} (F : V → ρ) (tr : List V) :
    ∀ out : List ρ, tr.foldl (fun o v => o ++ [F v]) out = out ++ tr.map F := by
  induction tr with
  | nil => intro out; simp
  | cons v tr ih => intro out; rw [List.foldl_cons, ih]; simp

theorem scheduleLoop_trace (exp : ℚ → ℚ) (J h : ℚ) (params : Params) (hL : 0 < params.L)
    (st : List array2d × Rng) (hv : ValidAll params.L params.Copies st.1) :
    ∃ (st' : List array2d × Rng) (tr : List (ℚ × List (ℚ × ℚ))),
      ValidAll params.L params.Copies st'.1 ∧ tr.length = params.Tcount.toNat ∧
      (∀ (n : Nat) (v : ℚ × List (ℚ × ℚ)), tr.get? n = some v →
        v.1 = tempAt params.T1 params.T2 params.Tcount n ∧
        v.2.length = params.Copies.toNat * params.MSteps.toNat ∧
        ∀ w ∈ v.2, ∃ lattice, Valid params.L lattice ∧
          calcParameters lattice params.L J h = some w) ∧
      ∀ (α ρ : Type) (init : α) (rec : α → ℚ → ℚ → α) (fin : ℚ → α → ρ) (out : List ρ),
        scheduleLoop init rec fin exp J h params (st, out) =
          some (st', out ++ tr.map (fun v => fin v.1 (foldSamples rec init v.2))) := by
  rcases forLoop_trace (fun s : List array2d × Rng => ValidAll params.L params.Copies s.1)
    (fun j (v : ℚ × List (ℚ × ℚ)) =>
      v.1 = tempAt params.T1 params.T2 params.Tcount j ∧
      v.2.length = params.Copies.toNat * params.MSteps.toNat ∧
      ∀ w ∈ v.2, ∃ lattice, Valid params.L lattice ∧
        calcParameters lattice params.L J h = some w)
    (fun θ : Scheme => List θ.out)
    (fun θ o v => o ++ [θ.fin v.1 (foldSamples θ.add θ.init v.2)])
    (fun θ tIdx s => scheduleStep θ.init θ.add θ.fin exp J h params tIdx s) params.Tcount
    (by
      intro j s _ _ hs
      rcases copyLoop_trace exp hL J h (tempAt params.T1 params.T2 params.Tcount j)
        params.ASteps params.MSteps params.Copies s hs with ⟨s1, ms, hv1, hlen, hms, hcl⟩
      refine ⟨s1, (tempAt params.T1 params.T2 params.Tcount j, ms), hv1, ⟨rfl, hlen, hms⟩, ?_⟩
      intro θ a
      simp only [scheduleStep, hcl θ.acc θ.add θ.init])
    st hv with ⟨st', tr, h1, h2, h3, h4⟩
  refine ⟨st', tr, h1, h2, h3, ?_⟩
  intro α ρ init rec fin out
  rw [← foldl_snoc_map]
  exact h4 ⟨α, ρ, init, rec, fin⟩ out

theorem initLattice_valid (L : Int) : Valid L (initLattice L) := by
  refine ⟨⟨by simp [initLattice], ?_⟩, ?_⟩
  · intro r hr
    rw [List.eq_of_mem_replicate hr]; simp
  · intro r hr v hv
    rw [List.eq_of_mem_replicate hr] at hv
    exact Or.inl (List.eq_of_mem_replicate hv)

theorem initLattices_valid (L copies : Int) : ValidAll L copies (initLattices L copies) := by
  refine ⟨by simp [initLattices], ?_⟩
  intro l hl
  rw [List.eq_of_mem_replicate hl]
  exact initLattice_valid L

theorem foldSamples_snoc (ms : List (ℚ × ℚ)) :
    ∀ l : List (ℚ × ℚ),
      foldSamples (fun l energy moment => l ++ [(energy, moment)]) l ms = l ++ ms := by
  induction ms with
  | nil => intro l; simp [foldSamples]
  | cons v ms ih =>
    intro l
    have := ih (l ++ [v])
    unfold foldSamples at this ⊢
    rw [List.foldl_cons, this]
    simp

theorem run_trace (exp : ℚ → ℚ) (g : Rng) (J h : ℚ) (params : Params) (hL : 0 < params.L)
    (hT : 1 < params.Tcount) (hM : 0 < params.MSteps) (hC : 0 < params.Copies) :
    ∃ tr : List (ℚ × List (ℚ × ℚ)),
      tr.length = params.Tcount.toNat ∧
      (∀ (n : Nat) (v : ℚ × List (ℚ × ℚ)), tr.get? n = some v →
        v.1 = tempAt params.T1 params.T2 params.Tcount n ∧
        v.2.length = params.Copies.toNat * params.MSteps.toNat ∧
        ∀ w ∈ v.2, ∃ lattice, Valid params.L lattice ∧
          calcParameters lattice params.L J h = some w) ∧
      snapshots exp g J h params = some tr ∧
      RunIsing exp g J h params = some (tr.map (rowOf params), none) := by
  rcases scheduleLoop_trace exp J h params hL (initLattices params.L params.Copies, g)
    (initLattices_valid _ _) with ⟨st', tr, _, h2, h3, h4⟩
  refine ⟨tr, h2, h3, ?_, ?_⟩
  · unfold snapshots
    rw [h4]
    simp only [List.nil_append]
    congr 1
    conv_rhs => rw [← List.map_id tr]
    apply List.map_congr_left
    intro v _
    rw [foldSamples_snoc]
    rfl
  · unfold RunIsing tempLoop
    rw [if_neg (not_le.mpr hL), if_neg (not_le.mpr hT), if_neg (not_le.mpr hM),
      if_neg (not_le.mpr hC), h4]
    rfl

/-! ## Writes, sums over the sites and bonds, and facts about whole runs -/

theorem at2_set2 {lattice lattice' : array2d} {x y v : Int}
    (h : set2 lattice x y v = some lattice') : at2 lattice' x y = some v := by
  unfold set2 at h
  cases hr : idx lattice x with
  | none => rw [hr] at h; exact absurd h (by simp)
  | some row =>
    rw [hr] at h
    dsimp only at h
    cases hu : upd row y v with
    | none => rw [hu] at h; exact absurd h (by simp)
    | some row' =>
      rw [hu] at h
      dsimp only at h
      rcases upd_eq_some hu with ⟨hy0, hy1, hrow'⟩
      rcases upd_eq_some h with ⟨hx0, hx1, hlat'⟩
      subst hrow' hlat'
      unfold at2 idx
      simp only [if_neg (not_lt.mpr hx0), if_neg (not_lt.mpr hy0), List.get?_eq_getElem?,
        List.getElem?_set_self hx1, List.getElem?_set_self hy1]

theorem idx_upd_ne {α : Type} {l l' : List α} {i : Int} {v : α} (h : upd l i v = some l')
    (j : Int) (hne : j ≠ i) : idx l' j = idx l j := by
  rcases upd_eq_some h with ⟨hi0, _, hl'⟩
  subst hl'
  unfold idx
  by_cases hj : j < 0
  · rw [if_pos hj, if_pos hj]
  · rw [if_neg hj, if_neg hj, List.get?_eq_getElem?, List.get?_eq_getElem?,
      List.getElem?_set_ne (by omega)]

theorem idx_upd_self {α : Type} {l l' : List α} {i : Int} {v : α} (h : upd l i v = some l') :
    idx l' i = some v := by
  rcases upd_eq_some h with ⟨hi0, hi1, hl'⟩
  subst hl'
  unfold idx
  rw [if_neg (not_lt.mpr hi0), List.get?_eq_getElem?, List.getElem?_set_self hi1]

theorem at2_set2_ne {lattice lattice' : array2d} {x y v : Int}
    (h : set2 lattice x y v = some lattice') (x' y' : Int) (hne : ¬ (x' = x ∧ y' = y)) :
    at2 lattice' x' y' = at2 lattice x' y' := by
  unfold set2 at h
  cases hr : idx lattice x with
  | none => rw [hr] at h; exact absurd h (by simp)
  | some row =>
    rw [hr] at h
    dsimp only at h
    cases hu : upd row y v with
    | none => rw [hu] at h; exact absurd h (by simp)
    | some row' =>
      rw [hu] at h
      dsimp only at h
      unfold at2
      by_cases hx : x' = x
      · subst hx
        have hy : y' ≠ y := fun hy => hne ⟨rfl, hy⟩
        rw [idx_upd_self h, hr]
        exact idx_upd_ne hu y' hy
      · rw [idx_upd_ne h x' hx]

theorem spinAt_set2 {lattice lattice' : array2d} {x y v : Int}
    (h : set2 lattice x y v = some lattice') (hx0 : 0 ≤ x) (hy0 : 0 ≤ y) (a : Nat × Nat) :
    spinAt lattice' a = if a = (x.toNat, y.toNat) then (v : ℚ) else spinAt lattice a := by
  unfold spinAt spin
  by_cases ha : a = (x.toNat, y.toNat)
  · rw [if_pos ha, ha]
    simp only [Int.toNat_of_nonneg hx0, Int.toNat_of_nonneg hy0, at2_set2 h, Option.getD_some]
  · rw [if_neg ha, at2_set2_ne h]
    intro hxy
    apply ha
    have h1 := hxy.1
    have h2 := hxy.2
    ext
    · show a.1 = x.toNat
      omega
    · show a.2 = y.toNat
      omega

theorem succ_mod_eq (n x : Nat) (hx : x < n) :
    (x + 1) % n = if x + 1 < n then x + 1 else 0 := by
  split_ifs with h
  · exact Nat.mod_eq_of_lt h
  · have : x + 1 = n := by omega
    rw [this, Nat.mod_self]

theorem pred_mod_eq (n x : Nat) (hx : x < n) :
    (x + n - 1) % n = if x = 0 then n - 1 else x - 1 := by
  split_ifs with h
  · subst h
    rw [Nat.zero_add]
    exact Nat.mod_eq_of_lt (by omega)
  · have h1 : x + n - 1 = (x - 1) + n := by omega
    rw [h1, Nat.add_mod_right]
    exact Nat.mod_eq_of_lt (by omega)

theorem emod_succ_cast (L : Int) (hL : 0 < L) (x : Int) (hx0 : 0 ≤ x) :
    (x + 1) % L = (((x.toNat + 1) % L.toNat : Nat) : Int) := by
  have h2 : x + 1 = ((x.toNat + 1 : Nat) : Int) := by omega
  rw [h2, Int.natCast_mod, Int.toNat_of_nonneg hL.le]

theorem emod_pred_cast (L : Int) (hL : 0 < L) (x : Int) (hx0 : 0 ≤ x) :
    (x - 1) % L = (((x.toNat + L.toNat - 1) % L.toNat : Nat) : Int) := by
  have h1 : (x - 1) % L = (x - 1 + L) % L := (Int.add_emod_self).symm
  have h2 : x - 1 + L = ((x.toNat + L.toNat - 1 : Nat) : Int) := by omega
  rw [h1, h2, Int.natCast_mod, Int.toNat_of_nonneg hL.le]

theorem sum_ring (n : Nat) (hn : 3 ≤ n) (g : Nat → Nat → ℚ) (hsym : ∀ x x', g x x' = g x' x) :
    ∑ x ∈ Finset.range n, ∑ x' ∈ Finset.range n,
      (if x + 1 = x' ∨ (x = 0 ∧ x' + 1 = n) then g x x' else 0) =
    ∑ x ∈ Finset.range n, g x ((x + 1) % n) := by
  have hl : ∀ x ∈ Finset.range n, ∑ x' ∈ Finset.range n,
      (if x + 1 = x' ∨ (x = 0 ∧ x' + 1 = n) then g x x' else 0) =
      (if x + 1 < n then g x (x + 1) else 0) + (if x = 0 then g 0 (n - 1) else 0) := by
    intro x hx
    have hx' := Finset.mem_range.mp hx
    have hsplit : ∀ x' ∈ Finset.range n,
        (if x + 1 = x' ∨ (x = 0 ∧ x' + 1 = n) then g x x' else 0) =
        (if x + 1 = x' then g x (x + 1) else 0) +
          (if n - 1 = x' then (if x = 0 then g 0 (n - 1) else 0) else 0) := by
      intro x' _
      by_cases h1 : x + 1 = x'
      · have h2 : ¬ (n - 1 = x' ∧ x = 0) := by omega
        by_cases h3 : n - 1 = x'
        · have h4 : ¬ x = 0 := fun h => h2 ⟨h3, h⟩
          simp [h1, h3, h4]
        · simp [h1, h3]
      · by_cases h3 : n - 1 = x'
        · by_cases h4 : x = 0
          · have h5 : x' + 1 = n := by omega
            subst h4
            simp [h1, h3, h5]
          · simp [h1, h3, h4]
        · have h5 : ¬ (x' + 1 = n) := by omega
          simp [h1, h3, h5]
    rw [Finset.sum_congr rfl hsplit, Finset.sum_add_distrib, Finset.sum_ite_eq,
      Finset.sum_ite_eq]
    have hm : n - 1 ∈ Finset.range n := Finset.mem_range.mpr (by omega)
    simp only [Finset.mem_range, hm, if_true]
  have hr : ∀ x ∈ Finset.range n, g x ((x + 1) % n) =
      (if x + 1 < n then g x (x + 1) else 0) + (if n - 1 = x then g 0 (n - 1) else 0) := by
    intro x hx
    have hx' := Finset.mem_range.mp hx
    rw [succ_mod_eq n x hx']
    by_cases h1 : x + 1 < n
    · have h2 : ¬ (n - 1 = x) := by omega
      simp [h1, h2]
    · have h2 : n - 1 = x := by omega
      simp only [h1, h2, if_false, if_true, zero_add]
      rw [hsym]
  rw [Finset.sum_congr rfl hl, Finset.sum_congr rfl hr, Finset.sum_add_distrib,
    Finset.sum_add_distrib]
  congr 1
  rw [Finset.sum_ite_eq, Finset.sum_ite_eq' ]
  have hm : n - 1 ∈ Finset.range n := Finset.mem_range.mpr (by omega)
  have h0 : 0 ∈ Finset.range n := Finset.mem_range.mpr (by omega)
  simp only [hm, h0, if_true]

theorem bond_iff (n : Nat) (hn : 3 ≤ n) (x y x' y' : Nat) (hx : x < n) (hy : y < n)
    (hx' : x' < n) (hy' : y' < n) :
    (lexLt (x, y) (x', y') ∧ (x, y) ≠ (x', y') ∧ adjacent n (x, y) (x', y')) ↔
      ((y = y' ∧ (x + 1 = x' ∨ (x = 0 ∧ x' + 1 = n))) ∨
        (x = x' ∧ (y + 1 = y' ∨ (y = 0 ∧ y' + 1 = n)))) := by
  unfold lexLt adjacent
  simp only [ne_eq, Prod.mk.injEq]
  rw [succ_mod_eq n x hx, succ_mod_eq n y hy, succ_mod_eq n x' hx', succ_mod_eq n y' hy']
  split_ifs <;> omega

theorem sum_bonds (n : Nat) (hn : 3 ≤ n) (f : Nat × Nat → Nat × Nat → ℚ)
    (hsym : ∀ a b, f a b = f b a) :
    ∑ p ∈ bonds n, f p.1 p.2 =
      ∑ a ∈ sites n, (f a ((a.1 + 1) % n, a.2) + f a (a.1, (a.2 + 1) % n)) := by
  unfold bonds sites
  rw [Finset.sum_filter, Finset.sum_product, Finset.sum_product]
  simp only [Finset.sum_product]
  have hcell : ∀ x ∈ Finset.range n, ∀ y ∈ Finset.range n, ∀ x' ∈ Finset.range n,
      ∀ y' ∈ Finset.range n,
      (if lexLt (x, y) (x', y') ∧ (x, y) ≠ (x', y') ∧ adjacent n (x, y) (x', y')
        then f (x, y) (x', y') else 0) =
      (if y = y' then (if x + 1 = x' ∨ (x = 0 ∧ x' + 1 = n) then f (x, y) (x', y) else 0)
        else 0) +
      (if x = x' then (if y + 1 = y' ∨ (y = 0 ∧ y' + 1 = n) then f (x, y) (x, y') else 0)
        else 0) := by
    intro x hx y hy x' hx' y' hy'
    have hx1 := Finset.mem_range.mp hx
    have hy1 := Finset.mem_range.mp hy
    have hx1' := Finset.mem_range.mp hx'
    have hy1' := Finset.mem_range.mp hy'
    rw [if_congr (bond_iff n hn x y x' y' hx1 hy1 hx1' hy1') rfl rfl]
    by_cases h1 : y = y'
    · by_cases h2 : x = x'
      · subst h1 h2
        have h3 : ¬ (x = 0 ∧ x + 1 = n) := by omega
        have h4 : ¬ (y = 0 ∧ y + 1 = n) := by omega
        simp [h3, h4]
      · subst h1
        simp [h2]
    · by_cases h2 : x = x'
      · subst h2
        simp [h1]
      · simp [h1, h2]
  rw [Finset.sum_congr rfl (fun x hx => Finset.sum_congr rfl (fun y hy =>
    Finset.sum_congr rfl (fun x' hx' => Finset.sum_congr rfl (fun y' hy' =>
      hcell x hx y hy x' hx' y' hy'))))]
  simp only [Finset.sum_add_distrib]
  congr 1
  · -- horizontal bonds
    simp only [Finset.sum_ite_eq, Finset.mem_range]
    rw [Finset.sum_comm]
    rw [Finset.sum_comm (f := fun x y => f (x, y) ((x + 1) % n, y))]
    apply Finset.sum_congr rfl
    intro y hy
    have hy1 := Finset.mem_range.mp hy
    simp only [hy1, if_true]
    exact sum_ring n hn (fun x x' => f (x, y) (x', y)) (fun x x' => hsym _ _)
  · -- vertical bonds
    apply Finset.sum_congr rfl
    intro x hx
    have hx1 := Finset.mem_range.mp hx
    have hswap : ∀ y ∈ Finset.range n,
        ∑ x' ∈ Finset.range n, ∑ y' ∈ Finset.range n,
          (if x = x' then (if y + 1 = y' ∨ (y = 0 ∧ y' + 1 = n) then f (x, y) (x, y') else 0)
            else 0) =
        ∑ y' ∈ Finset.range n,
          (if y + 1 = y' ∨ (y = 0 ∧ y' + 1 = n) then f (x, y) (x, y') else 0) := by
      intro y _
      rw [Finset.sum_comm]
      apply Finset.sum_congr rfl
      intro y' _
      rw [Finset.sum_ite_eq]
      simp only [Finset.mem_range, hx1, if_true]
    rw [Finset.sum_congr rfl hswap]
    exact sum_ring n hn (fun y y' => f (x, y) (x, y')) (fun y y' => hsym _ _)

theorem siteTerm_nat (lattice : array2d) (n : Nat) (J h : ℚ) (x y : Nat) :
    siteTerm lattice (n : Int) J h (x : Int) (y : Int) =
      (-J * (spinAt lattice (x, y) * spinAt lattice ((x + 1) % n, y)
          + spinAt lattice (x, y) * spinAt lattice (x, (y + 1) % n))
        - h * spinAt lattice (x, y),
       spinAt lattice (x, y)) := by
  unfold siteTerm spinAt
  have h1 : ((x : Int) + 1) % (n : Int) = (((x + 1) % n : Nat) : Int) := by push_cast; rfl
  have h2 : ((y : Int) + 1) % (n : Int) = (((y + 1) % n : Nat) : Int) := by push_cast; rfl
  rw [h1, h2]
  ext
  · simp only; ring
  · rfl

theorem calcParameters_sites (L : Int) (hL : 0 < L) (lattice : array2d)
    (hsq : Square L lattice) (J h : ℚ) :
    calcParameters lattice L J h =
      some (-J * (∑ a ∈ sites L.toNat, spinAt lattice a * spinAt lattice ((a.1 + 1) % L.toNat, a.2)
            + ∑ a ∈ sites L.toNat, spinAt lattice a * spinAt lattice (a.1, (a.2 + 1) % L.toNat))
          - h * (∑ a ∈ sites L.toNat, spinAt lattice a),
        ∑ a ∈ sites L.toNat, spinAt lattice a) := by
  have hLn : ((L.toNat : Nat) : Int) = L := Int.toNat_of_nonneg hL.le
  rw [calcParameters_eq hsq hL]
  congr 1
  unfold sites
  rw [← Finset.sum_add_distrib, Finset.mul_sum, Finset.mul_sum, ← Finset.sum_sub_distrib]
  simp only [Finset.sum_product]
  have hterm : ∀ x ∈ Finset.range L.toNat, ∀ y ∈ Finset.range L.toNat,
      siteTerm lattice L J h (x : Int) (y : Int) =
      (-J * (spinAt lattice (x, y) * spinAt lattice ((x + 1) % L.toNat, y)
          + spinAt lattice (x, y) * spinAt lattice (x, (y + 1) % L.toNat))
        - h * spinAt lattice (x, y),
       spinAt lattice (x, y)) := by
    intro x _ y _
    have := siteTerm_nat lattice L.toNat J h x y
    rw [hLn] at this
    exact this
  rw [Finset.sum_congr rfl (fun x hx => Finset.sum_congr rfl (hterm x hx))]
  ext
  · simp only [Prod.fst_sum]
  · simp only [Prod.snd_sum]

theorem sum_flip_bonds {ι : Type} [DecidableEq ι] (S : Finset ι) (r l : ι → ι)
    (hl : ∀ a ∈ S, l a ∈ S) (hr : ∀ a ∈ S, r a ∈ S)
    (hrl : ∀ a ∈ S, ∀ b ∈ S, r a = b ↔ a = l b)
    (hne : ∀ a ∈ S, r a ≠ a) (s s' : ι → ℚ) (a0 : ι) (ha0 : a0 ∈ S) (v : ℚ)
    (hs' : ∀ a ∈ S, s' a = if a = a0 then v else s a) :
    ∑ a ∈ S, s' a * s' (r a) - ∑ a ∈ S, s a * s (r a) =
      (v - s a0) * (s (r a0) + s (l a0)) := by
  have hterm : ∀ a ∈ S, s' a * s' (r a) - s a * s (r a) =
      (if a = a0 then (v - s a0) * s (r a0) else 0) +
        (if a = l a0 then (v - s a0) * s (l a0) else 0) := by
    intro a ha
    rw [hs' a ha, hs' (r a) (hr a ha)]
    by_cases h1 : a = a0
    · subst h1
      have h2 : r a ≠ a := hne a ha
      have h3 : a ≠ l a := fun h => h2 ((hrl a ha a ha).mpr h)
      simp only [h2, h3, if_true, if_false, add_zero]
      ring
    · by_cases h2 : r a = a0
      · have h3 : a = l a0 := (hrl a ha a0 ha0).mp h2
        simp only [h1, h2, if_true, if_false, zero_add]
        rw [← h3, if_pos rfl]
        ring
      · have h3 : ¬ a = l a0 := fun h => h2 ((hrl a ha a0 ha0).mpr h)
        simp only [h1, h2, h3, if_false, add_zero]
        ring
  rw [← Finset.sum_sub_distrib, Finset.sum_congr rfl hterm, Finset.sum_add_distrib,
    Finset.sum_ite_eq', Finset.sum_ite_eq', if_pos ha0, if_pos (hl a0 ha0)]
  ring

theorem sum_flip_field {ι : Type} [DecidableEq ι] (S : Finset ι) (s s' : ι → ℚ) (a0 : ι)
    (ha0 : a0 ∈ S) (v : ℚ) (hs' : ∀ a ∈ S, s' a = if a = a0 then v else s a) :
    ∑ a ∈ S, s' a - ∑ a ∈ S, s a = v - s a0 := by
  have hterm : ∀ a ∈ S, s' a - s a = if a = a0 then v - s a0 else 0 := by
    intro a ha
    rw [hs' a ha]
    by_cases h1 : a = a0
    · subst h1; simp
    · simp [h1]
  rw [← Finset.sum_sub_distrib, Finset.sum_congr rfl hterm, Finset.sum_ite_eq', if_pos ha0]

theorem spin_initLattice (L : Int) {x y : Int} (hx0 : 0 ≤ x) (hx : x < L) (hy0 : 0 ≤ y)
    (hy : y < L) : spin (initLattice L) x y = 1 := by
  rcases at2_mem (at2_spin (initLattice_valid L).1 hx0 hx hy0 hy) with ⟨r, hr, hm⟩
  unfold initLattice at hr
  rw [List.eq_of_mem_replicate hr] at hm
  exact List.eq_of_mem_replicate hm

/-- C5: on the `L × L` lattice with every spin `+1` (`L > 0`), `calcParameters` yields
energy `-(2 * J + h) * L ^ 2` and magnetisation `L ^ 2`; with `h = 0` the energy per site is
`-2 * J`; for `L = 2`, `J = 1`, `h = 0` the result is energy `-8`, magnetisation `4`. -/
theorem calcParameters_initLattice (L : Int) (hL : 0 < L) (J h : ℚ) :
    calcParameters (initLattice L) L J h = some (-(2 * J + h) * (L : ℚ) ^ 2, (L : ℚ) ^ 2) := by
  have hcast : ((L.toNat : Nat) : ℚ) = (L : ℚ) := by
    have : ((L.toNat : Nat) : Int) = L := Int.toNat_of_nonneg hL.le
    exact_mod_cast this
  rw [calcParameters_eq (initLattice_valid L).1 hL]
  have hterm : ∀ x ∈ Finset.range L.toNat, ∀ y ∈ Finset.range L.toNat,
      siteTerm (initLattice L) L J h (x : Int) (y : Int) = (-(2 * J + h), 1) := by
    intro x hx y hy
    have hx' : (x : Int) < L := by have := Finset.mem_range.mp hx; omega
    have hy' : (y : Int) < L := by have := Finset.mem_range.mp hy; omega
    have hxr := emod_range ((x : Int) + 1) L hL
    have hyb := emod_range ((y : Int) + 1) L hL
    unfold siteTerm
    rw [spin_initLattice L (Int.natCast_nonneg x) hx' (Int.natCast_nonneg y) hy',
      spin_initLattice L hxr.1 hxr.2 (Int.natCast_nonneg y) hy',
      spin_initLattice L (Int.natCast_nonneg x) hx' hyb.1 hyb.2]
    ext
    · simp only [Int.cast_one]; ring
    · simp only [Int.cast_one]
  rw [Finset.sum_congr rfl (fun x hx => Finset.sum_congr rfl (hterm x hx))]
  simp only [Finset.sum_const, Finset.card_range, smul_smul]
  congr 1
  ext
  · simp only [Prod.smul_mk, nsmul_eq_mul, Nat.cast_mul, hcast]; ring
  · simp only [Prod.smul_mk, nsmul_eq_mul, Nat.cast_mul, hcast]; ring

theorem rowOf_T (params : Params) (v : ℚ × List (ℚ × ℚ)) : (rowOf params v).T = v.1 := rfl

theorem tempAt_cast (T1 T2 : ℚ) (Tcount : Int) (i : Nat) :
    tempAt T1 T2 Tcount (i : Int) = T1 + (i : ℚ) * (T2 - T1) / ((Tcount : ℚ) - 1) := by
  unfold tempAt
  push_cast
  rfl

theorem RunIsing_rows_of_valid (exp : ℚ → ℚ) (g : Rng) (J h : ℚ) (params : Params)
    (hL : 0 < params.L) (hT : 1 < params.Tcount) (hM : 0 < params.MSteps)
    (hC : 0 < params.Copies) :
    ∃ rows : List ResultRow, RunIsing exp g J h params = some (rows, none) ∧
      rows.length = params.Tcount.toNat := by
  rcases run_trace exp g J h params hL hT hM hC with ⟨tr, hlen, _, _, hrun⟩
  exact ⟨_, hrun, by rw [List.length_map, hlen]⟩

theorem RunIsing_of_invalid (exp : ℚ → ℚ) (g : Rng) (J h : ℚ) (params : Params)
    (hbad : params.L ≤ 0 ∨ params.Tcount ≤ 1 ∨ params.MSteps ≤ 0 ∨ params.Copies ≤ 0) :
    ∃ msg : String, RunIsing exp g J h params = some ([], some msg) := by
  unfold RunIsing
  split
  · exact ⟨_, rfl⟩
  · split
    · exact ⟨_, rfl⟩
    · split
      · exact ⟨_, rfl⟩
      · split
        · exact ⟨_, rfl⟩
        · omega

theorem thermalize_nonpos (exp : ℚ → ℚ) (L : Int) (J h T : ℚ) (aSteps : Int)
    (ha : aSteps ≤ 0) (st : array2d × Rng) : thermalize exp L J h T aSteps st = some st := by
  unfold thermalize
  exact forLoop_nonpos _ _ _ ha

theorem RunIsing_ASteps_nonpos (exp : ℚ → ℚ) (g : Rng) (J h : ℚ) (params : Params)
    (ha : params.ASteps ≤ 0) :
    RunIsing exp g J h params = RunIsing exp g J h { params with ASteps := 0 } := by
  have hstep : ∀ (T : ℚ) (copyIdx : Int) (s : (List array2d × Rng) × Sums),
      copyStep (addSample params.MSteps params.Copies) exp params.L J h T params.ASteps
        params.MSteps copyIdx s =
      copyStep (addSample params.MSteps params.Copies) exp params.L J h T 0
        params.MSteps copyIdx s := by
    intro T copyIdx s
    unfold copyStep
    cases idx s.1.1 copyIdx with
    | none => rfl
    | some lattice =>
      simp only [thermalize_nonpos exp params.L J h T params.ASteps ha,
        thermalize_nonpos exp params.L J h T 0 le_rfl]
  unfold RunIsing tempLoop scheduleLoop scheduleStep copyLoop
  simp only [hstep]

theorem foldSamples_addSample (mSteps copies : Int) (ms : List (ℚ × ℚ)) :
    ∀ a : Sums, foldSamples (addSample mSteps copies) a ms =
      { E := a.E + (ms.map (fun w => w.1)).sum / (mSteps : ℚ) / (copies : ℚ)
        E2 := a.E2 + (ms.map (fun w => w.1 * w.1)).sum / (mSteps : ℚ) / (copies : ℚ)
        M := a.M + (ms.map (fun w => |w.2|)).sum / (mSteps : ℚ) / (copies : ℚ)
        M2 := a.M2 + (ms.map (fun w => w.2 * w.2)).sum / (mSteps : ℚ) / (copies : ℚ) } := by
  induction ms with
  | nil => intro a; simp [foldSamples]
  | cons w ms ih =>
    intro a
    have h := ih (addSample mSteps copies a w.1 w.2)
    unfold foldSamples at h ⊢
    rw [List.foldl_cons, h]
    simp only [addSample, List.map_cons, List.sum_cons]
    congr 1 <;> ring

theorem div_div_eq_mean (mSteps copies : Int) (hM : 0 < mSteps) (hC : 0 < copies)
    (l : List ℚ) (hlen : l.length = copies.toNat * mSteps.toNat) :
    l.sum / (mSteps : ℚ) / (copies : ℚ) = mean l := by
  have hm : ((mSteps.toNat : Nat) : ℚ) = (mSteps : ℚ) := by
    have : ((mSteps.toNat : Nat) : Int) = mSteps := Int.toNat_of_nonneg hM.le
    exact_mod_cast this
  have hc : ((copies.toNat : Nat) : ℚ) = (copies : ℚ) := by
    have : ((copies.toNat : Nat) : Int) = copies := Int.toNat_of_nonneg hC.le
    exact_mod_cast this
  unfold mean
  rw [hlen, Nat.cast_mul, hm, hc, div_div, mul_comm]

/-! ## The run as a whole: validation, row count and temperature schedule -/

/-- C1: for valid parameters `RunIsing` returns no error and exactly `Tcount` rows; row `i`
has `T = T1 + i * (T2 - T1) / (Tcount - 1)`, so the first row has `T = T1` and the last row
`T = T2`. The formula mentions neither `J`, `h`, `math.Exp` nor the generator, so the `T`
column is the same for all of them. -/
theorem RunIsing_schedule (exp : ℚ → ℚ) (g : Rng) (J h : ℚ) (params : Params)
    (hL : 0 < params.L) (hT : 1 < params.Tcount) (hM : 0 < params.MSteps)
    (hC : 0 < params.Copies) :
    ∃ rows : List ResultRow,
      RunIsing exp g J h params = some (rows, none) ∧
      rows.length = params.Tcount.toNat ∧
      (∀ i : Nat, i < params.Tcount.toNat →
        (rows.get? i).map ResultRow.T =
          some (params.T1 + (i : ℚ) * (params.T2 - params.T1) / ((params.Tcount : ℚ) - 1))) ∧
      rows.head?.map ResultRow.T = some params.T1 ∧
      rows.getLast?.map ResultRow.T = some params.T2 := by
  rcases run_trace exp g J h params hL hT hM hC with ⟨tr, hlen, hP, _, hrun⟩
  have hrow : ∀ i : Nat, i < params.Tcount.toNat →
      ((tr.map (rowOf params)).get? i).map ResultRow.T =
        some (params.T1 + (i : ℚ) * (params.T2 - params.T1) / ((params.Tcount : ℚ) - 1)) := by
    intro i hi
    have hi' : i < tr.length := by rw [hlen]; exact hi
    have hget : tr.get? i = some (tr.get ⟨i, hi'⟩) := List.get?_eq_get hi'
    rw [List.get?_eq_getElem?, List.getElem?_map, ← List.get?_eq_getElem?, hget]
    simp only [Option.map_some', rowOf_T]
    rw [(hP i _ hget).1, tempAt_cast]
  have hlen' : (tr.map (rowOf params)).length = params.Tcount.toNat := by
    rw [List.length_map, hlen]
  refine ⟨tr.map (rowOf params), hrun, hlen', hrow, ?_, ?_⟩
  · have h0 := hrow 0 (by omega)
    rw [List.get?_zero] at h0
    rw [h0]
    simp
  · have h1 := hrow (params.Tcount.toNat - 1) (by omega)
    rw [List.getLast?_eq_getElem?, hlen', ← List.get?_eq_getElem?, h1]
    congr 1
    have hc : ((params.Tcount.toNat - 1 : Nat) : ℚ) = (params.Tcount : ℚ) - 1 := by
      have h2 : ((params.Tcount.toNat - 1 : Nat) : Int) = params.Tcount - 1 := by omega
      have h3 : (((params.Tcount.toNat - 1 : Nat) : Int) : ℚ) =
          ((params.Tcount - 1 : Int) : ℚ) := by rw [h2]
      push_cast at h3
      rw [← h3]
    have hne : (params.Tcount : ℚ) - 1 ≠ 0 := by
      have : (1 : ℚ) < (params.Tcount : ℚ) := by exact_mod_cast hT
      linarith
    rw [hc]
    field_simp

/-- C1 on a concrete run: a `2 × 2` lattice, three temperatures from 5 down to 1. -/
theorem RunIsing_schedule_witness :
    ∃ rows : List ResultRow,
      RunIsing expStub rngStub 1 0 paramsStub = some (rows, none) ∧
      rows.length = paramsStub.Tcount.toNat ∧
      (∀ i : Nat, i < paramsStub.Tcount.toNat →
        (rows.get? i).map ResultRow.T =
          some (paramsStub.T1 + (i : ℚ) * (paramsStub.T2 - paramsStub.T1) /
            ((paramsStub.Tcount : ℚ) - 1))) ∧
      rows.head?.map ResultRow.T = some paramsStub.T1 ∧
      rows.getLast?.map ResultRow.T = some paramsStub.T2 :=
  RunIsing_schedule expStub rngStub 1 0 paramsStub (by decide) (by decide) (by decide)
    (by decide)

/-- C2: `RunIsing` returns an error exactly when `L ≤ 0`, `Tcount ≤ 1`, `MSteps ≤ 0` or
`Copies ≤ 0`; with an error it returns no rows, without one it returns all `Tcount` rows;
it never panics. -/
theorem RunIsing_error_iff (exp : ℚ → ℚ) (g : Rng) (J h : ℚ) (params : Params) :
    ((∃ rows msg, RunIsing exp g J h params = some (rows, some msg)) ↔
      (params.L ≤ 0 ∨ params.Tcount ≤ 1 ∨ params.MSteps ≤ 0 ∨ params.Copies ≤ 0)) ∧
    (∀ rows msg, RunIsing exp g J h params = some (rows, some msg) → rows = []) ∧
    (∀ rows, RunIsing exp g J h params = some (rows, none) →
      rows.length = params.Tcount.toNat) ∧
    RunIsing exp g J h params ≠ none := by
  by_cases hbad : params.L ≤ 0 ∨ params.Tcount ≤ 1 ∨ params.MSteps ≤ 0 ∨ params.Copies ≤ 0
  · rcases RunIsing_of_invalid exp g J h params hbad with ⟨msg, hmsg⟩
    rw [hmsg]
    refine ⟨⟨fun _ => hbad, fun _ => ⟨[], msg, rfl⟩⟩, ?_, ?_, by simp⟩
    · intro rows m hm
      exact ((Prod.mk.inj (Option.some.inj hm)).1).symm
    · intro rows hm
      exact absurd (Prod.mk.inj (Option.some.inj hm)).2 (by simp)
  · rcases RunIsing_rows_of_valid exp g J h params (by omega) (by omega) (by omega)
      (by omega) with ⟨rows, hrun, hlen⟩
    rw [hrun]
    refine ⟨⟨?_, fun hb => absurd hb hbad⟩, ?_, ?_, by simp⟩
    · rintro ⟨r, m, hm⟩
      exact absurd (Prod.mk.inj (Option.some.inj hm)).2 (by simp)
    · intro r m hm
      exact absurd (Prod.mk.inj (Option.some.inj hm)).2 (by simp)
    · intro r hm
      rw [← (Prod.mk.inj (Option.some.inj hm)).1]
      exact hlen

/-- C3: the validation error names the offending field. With `Tcount ≤ 1` and `L > 0` the
message is `Tcount must be > 1`; with `L ≤ 0` it is `L must be > 0`; with `Copies ≤ 0` and
valid `L`, `Tcount`, `MSteps` it is `Copies must be > 0`. No rows are returned. -/
theorem RunIsing_error_field (exp : ℚ → ℚ) (g : Rng) (J h : ℚ) (params : Params) :
    (params.Tcount ≤ 1 → 0 < params.L →
      RunIsing exp g J h params = some ([], some "Tcount must be > 1")) ∧
    (params.L ≤ 0 → RunIsing exp g J h params = some ([], some "L must be > 0")) ∧
    (params.Copies ≤ 0 → 0 < params.L → 1 < params.Tcount → 0 < params.MSteps →
      RunIsing exp g J h params = some ([], some "Copies must be > 0")) := by
  refine ⟨?_, ?_, ?_⟩
  · intro hT hL
    unfold RunIsing
    rw [if_neg (not_le.mpr hL), if_pos hT]
  · intro hL
    unfold RunIsing
    rw [if_pos hL]
  · intro hC hL hT hM
    unfold RunIsing
    rw [if_neg (not_le.mpr hL), if_neg (not_le.mpr hT), if_neg (not_le.mpr hM), if_pos hC]

/-- C3 on the three concrete parameter sets `Tcount = 1`, `L = 0` and `Copies = 0`. -/
theorem RunIsing_error_field_witness :
    RunIsing expStub rngStub 1 0 ⟨2, 5, 1, 1, 1, 2, 2⟩ = some ([], some "Tcount must be > 1") ∧
    RunIsing expStub rngStub 1 0 ⟨0, 5, 1, 3, 1, 2, 2⟩ = some ([], some "L must be > 0") ∧
    RunIsing expStub rngStub 1 0 ⟨2, 5, 1, 3, 1, 2, 0⟩ = some ([], some "Copies must be > 0") :=
  ⟨(RunIsing_error_field expStub rngStub 1 0 ⟨2, 5, 1, 1, 1, 2, 2⟩).1 (by decide) (by decide),
   (RunIsing_error_field expStub rngStub 1 0 ⟨0, 5, 1, 3, 1, 2, 2⟩).2.1 (by decide),
   (RunIsing_error_field expStub rngStub 1 0 ⟨2, 5, 1, 3, 1, 2, 0⟩).2.2 (by decide)
     (by decide) (by decide) (by decide)⟩

/-- C4 (as the code has it): `ASteps` is not validated. For every `Params` with
`ASteps < 0` whose `L`, `Tcount`, `MSteps` and `Copies` are valid, `RunIsing` returns no
error and all `Tcount` rows; the thermalisation loop runs no sweep, so the result is that of
the same run with `ASteps = 0`. -/
theorem RunIsing_negative_ASteps (exp : ℚ → ℚ) (g : Rng) (J h : ℚ) (params : Params)
    (hA : params.ASteps < 0) (hL : 0 < params.L) (hT : 1 < params.Tcount)
    (hM : 0 < params.MSteps) (hC : 0 < params.Copies) :
    ∃ rows : List ResultRow,
      RunIsing exp g J h params = some (rows, none) ∧
      rows.length = params.Tcount.toNat ∧
      RunIsing exp g J h { params with ASteps := 0 } = some (rows, none) := by
  rcases RunIsing_rows_of_valid exp g J h params hL hT hM hC with ⟨rows, hrun, hlen⟩
  exact ⟨rows, hrun, hlen, by rw [← RunIsing_ASteps_nonpos exp g J h params hA.le]; exact hrun⟩

/-- C4 as amended, on a concrete run with `ASteps = -1`. -/
theorem RunIsing_negative_ASteps_witness :
    ∃ rows : List ResultRow,
      RunIsing expStub rngStub 1 0 ⟨2, 5, 1, 3, -1, 2, 2⟩ = some (rows, none) ∧
      rows.length = 3 ∧
      RunIsing expStub rngStub 1 0 ⟨2, 5, 1, 3, 0, 2, 2⟩ = some (rows, none) :=
  RunIsing_negative_ASteps expStub rngStub 1 0 ⟨2, 5, 1, 3, -1, 2, 2⟩ (by decide) (by decide)
    (by decide) (by decide) (by decide)

/-- C4 fails as stated: with `ASteps = -1` and the other fields valid, `RunIsing` returns no
validation error. -/
theorem RunIsing_negative_ASteps_not_rejected :
    (⟨2, 5, 1, 3, -1, 2, 2⟩ : Params).ASteps < 0 ∧
    ¬ ∃ rows msg, RunIsing expStub rngStub 1 0 ⟨2, 5, 1, 3, -1, 2, 2⟩ = some (rows, some msg) := by
  refine ⟨by decide, ?_⟩
  rcases RunIsing_rows_of_valid expStub rngStub 1 0 ⟨2, 5, 1, 3, -1, 2, 2⟩ (by decide)
    (by decide) (by decide) (by decide) with ⟨rows, hrun, _⟩
  rw [hrun]
  rintro ⟨r, m, hm⟩
  exact absurd (Prod.mk.inj (Option.some.inj hm)).2 (by simp)

/-! ## Observables and periodic addressing -/

/-- C5 (in exact arithmetic): on the `L × L` lattice with every spin `+1` (`L > 0`),
`calcParameters` yields energy `-(2 * J + h) * L ^ 2` and magnetisation `L ^ 2`; with `h = 0`
the energy per site is `-2 * J`; for `L = 2`, `J = 1`, `h = 0` the result is energy `-8`,
magnetisation `4`, and this instance holds in `float64` arithmetic as well. -/
theorem calcParameters_all_up (L : Int) (hL : 0 < L) (J h : ℚ) :
    calcParameters (initLattice L) L J h = some (-(2 * J + h) * (L : ℚ) ^ 2, (L : ℚ) ^ 2) ∧
    (∃ energy moment, calcParameters (initLattice L) L J 0 = some (energy, moment) ∧
      energy / (L : ℚ) ^ 2 = -2 * J) ∧
    calcParameters [[1, 1], [1, 1]] 2 1 0 = some (-8, 4) ∧
    calcParametersF [[1, 1], [1, 1]] 2 1 0 = some (-8, 4) := by
  refine ⟨calcParameters_initLattice L hL J h,
    ⟨_, _, calcParameters_initLattice L hL J 0, ?_⟩, ?_, by decide!⟩
  · have hne : (L : ℚ) ^ 2 ≠ 0 := by
      have : (0 : ℚ) < (L : ℚ) := by exact_mod_cast hL
      positivity
    field_simp
  · have h2 := calcParameters_initLattice 2 (by decide) 1 0
    have h3 : initLattice 2 = [[1, 1], [1, 1]] := rfl
    rw [h3] at h2
    rw [h2]
    norm_num

/-- C5 on the `3 × 3` lattice with `J = 1` and `h = 1/2`. -/
theorem calcParameters_all_up_witness :
    calcParameters (initLattice 3) 3 1 (1 / 2) =
      some (-(2 * 1 + 1 / 2) * ((3 : Int) : ℚ) ^ 2, ((3 : Int) : ℚ) ^ 2) ∧
    (∃ energy moment, calcParameters (initLattice 3) 3 1 0 = some (energy, moment) ∧
      energy / ((3 : Int) : ℚ) ^ 2 = -2 * 1) ∧
    calcParameters [[1, 1], [1, 1]] 2 1 0 = some (-8, 4) ∧
    calcParametersF [[1, 1], [1, 1]] 2 1 0 = some (-8, 4) :=
  calcParameters_all_up 3 (by decide) 1 (1 / 2)

/-- C5 fails as stated in `float64` arithmetic. On the `3 × 3` lattice of spins `+1`, with
`J` and `h` the `float64` values of `0.1` and `0.2`, the rounded running sum ends at
`-8106479329266897 / 2 ^ 51` (`-3.600000000000002`), which is not `-(2 * J + h) * L ^ 2`;
with `h = 0` the energy per site, exact or as the `float64` quotient, is not `-2 * J`. -/
theorem calcParametersF_all_up_inexact :
    round64 (1 / 10) = some tenth64 ∧ round64 (2 / 10) = some fifth64 ∧
    calcParametersF (initLattice 3) 3 tenth64 fifth64 =
      some (-8106479329266897 / 2251799813685248, 9) ∧
    (-8106479329266897 / 2251799813685248 : ℚ) ≠ -(2 * tenth64 + fifth64) * ((3 : Int) : ℚ) ^ 2 ∧
    calcParametersF (initLattice 3) 3 tenth64 0 =
      some (-8106479329266895 / 4503599627370496, 9) ∧
    (-8106479329266895 / 4503599627370496 : ℚ) / ((3 : Int) : ℚ) ^ 2 ≠ -2 * tenth64 ∧
    fdiv (-8106479329266895 / 4503599627370496) 9 ≠ some (-2 * tenth64) := by
  refine ⟨?_, ?_, ?_, ?_, ?_, ?_, ?_⟩ <;> decide!

/-- C6: for `L > 0` and `-1 ≤ x ≤ L`, `pbc x L` is the unique value in `[0, L)` congruent
to `x` modulo `L`; `pbc (-1) 5 = 4` and `pbc 5 5 = 0`; for an in-range `x` the neighbours
`pbc (x + 1) L` and `pbc (x - 1) L` are `(x + 1) mod L` and `(x - 1) mod L`. -/
theorem pbc_wraps (L x : Int) (hL : 0 < L) (hlo : -1 ≤ x) (hhi : x ≤ L) :
    (∃ r, pbc x L = some r ∧ 0 ≤ r ∧ r < L ∧ r % L = x % L ∧
      ∀ r', 0 ≤ r' → r' < L → r' % L = x % L → r' = r) ∧
    pbc (-1) 5 = some 4 ∧ pbc 5 5 = some 0 ∧
    (0 ≤ x → x < L →
      pbc (x + 1) L = some ((x + 1) % L) ∧ pbc (x - 1) L = some ((x - 1) % L)) := by
  have hr := emod_range x L hL
  refine ⟨⟨x % L, pbc_near x L hL hlo hhi, hr.1, hr.2, Int.emod_emod_of_dvd x dvd_rfl, ?_⟩,
    by decide, by decide, ?_⟩
  · intro r' h0 h1 h2
    rw [← h2, Int.emod_eq_of_lt h0 h1]
  · intro h0 h1
    exact ⟨pbc_near (x + 1) L hL (by omega) (by omega),
      pbc_near (x - 1) L hL (by omega) (by omega)⟩

/-- C6 at `L = 5`, `x = 4`, where the right neighbour wraps to `0`. -/
theorem pbc_wraps_witness :
    (∃ r, pbc 4 5 = some r ∧ 0 ≤ r ∧ r < 5 ∧ r % 5 = 4 % 5 ∧
      ∀ r', 0 ≤ r' → r' < 5 → r' % 5 = 4 % 5 → r' = r) ∧
    pbc (-1) 5 = some 4 ∧ pbc 5 5 = some 0 ∧
    ((0 : Int) ≤ 4 → (4 : Int) < 5 →
      pbc (4 + 1) 5 = some ((4 + 1) % 5) ∧ pbc (4 - 1) 5 = some ((4 - 1) % 5)) :=
  pbc_wraps 5 4 (by decide) (by decide) (by decide)

/-! ## The energy change of a flip -/

/-- C7 at a `1 × 1` lattice: with `J = 1`, `h = 0` and the single spin `+1`, `mcStep`
computes `dE = 8`, while `calcParameters` reports energy `-2` both for the lattice and for
the lattice with the spin flipped, an energy change of `0`. -/
theorem flipDelta_single_site :
    flipDelta [[1]] 1 1 0 0 0 = some (-1, 8) ∧
    calcParameters [[1]] 1 1 0 = some (-2, 1) ∧
    set2 [[1]] 0 0 (-1) = some [[-1]] ∧
    calcParameters [[-1]] 1 1 0 = some (-2, -1) := by
  refine ⟨?_, ?_, ?_, ?_⟩
  · simp [flipDelta, at2, idx, pbc]
    norm_num
  · simp [calcParameters, forLoop, loopFrom, calcSite, at2, idx, pbc]
    norm_num
  · decide
  · simp [calcParameters, forLoop, loopFrom, calcSite, at2, idx, pbc]
    norm_num

/-- For `L ≥ 2` the `dE` of `mcStep` is the change of the energy that `calcParameters`
reports when the spin at `(x, y)` is replaced by `S1`, and the magnetisation changes by
`S1 - S0 = 2 * S1`. -/
theorem flipDelta_energy_change (L : Int) (hL : 2 ≤ L) (lattice : array2d)
    (hsq : Square L lattice) (J h : ℚ) (x y : Int) (hx0 : 0 ≤ x) (hx : x < L) (hy0 : 0 ≤ y)
    (hy : y < L) :
    ∃ (S1 : Int) (dE : ℚ) (lattice' : array2d) (em em' : ℚ × ℚ),
      flipDelta lattice L J h x y = some (S1, dE) ∧
      set2 lattice x y S1 = some lattice' ∧
      calcParameters lattice L J h = some em ∧
      calcParameters lattice' L J h = some em' ∧
      em'.1 - em.1 = dE ∧ em'.2 - em.2 = 2 * (S1 : ℚ) := by
  have hL0 : 0 < L := by omega
  have hn : 2 ≤ L.toNat := by omega
  rcases set2_of_at2 (at2_spin hsq hx0 hx hy0 hy) (-spin lattice x y) with ⟨lattice', hset⟩
  have hsq' := set2_square hset hsq
  refine ⟨_, _, lattice', _, _, flipDelta_eq hsq hL0 J h hx0 hx hy0 hy, hset,
    calcParameters_sites L hL0 lattice hsq J h, calcParameters_sites L hL0 lattice' hsq' J h,
    ?_, ?_⟩
  all_goals
    have ha0 : (x.toNat, y.toNat) ∈ sites L.toNat := by
      unfold sites
      rw [Finset.mem_product, Finset.mem_range, Finset.mem_range]
      constructor <;> omega
    have hs' : ∀ a ∈ sites L.toNat, spinAt lattice' a =
        if a = (x.toNat, y.toNat) then ((-spin lattice x y : Int) : ℚ) else spinAt lattice a :=
      fun a _ => spinAt_set2 hset hx0 hy0 a
    have hs0 : spinAt lattice (x.toNat, y.toNat) = (spin lattice x y : ℚ) := by
      unfold spinAt
      simp only [Int.toNat_of_nonneg hx0, Int.toNat_of_nonneg hy0]
  · have hmem : ∀ a ∈ sites L.toNat, a.1 < L.toNat ∧ a.2 < L.toNat := by
      intro a ha
      unfold sites at ha
      rw [Finset.mem_product, Finset.mem_range, Finset.mem_range] at ha
      exact ha
    have hH := sum_flip_bonds (sites L.toNat)
      (fun a => ((a.1 + 1) % L.toNat, a.2)) (fun a => ((a.1 + L.toNat - 1) % L.toNat, a.2))
      (by
        intro a ha
        have := hmem a ha
        unfold sites
        rw [Finset.mem_product, Finset.mem_range, Finset.mem_range]
        exact ⟨Nat.mod_lt _ (by omega), this.2⟩)
      (by
        intro a ha
        have := hmem a ha
        unfold sites
        rw [Finset.mem_product, Finset.mem_range, Finset.mem_range]
        exact ⟨Nat.mod_lt _ (by omega), this.2⟩)
      (by
        intro a ha b hb
        have h1 := hmem a ha
        have h2 := hmem b hb
        rw [Prod.ext_iff, Prod.ext_iff]
        simp only
        rw [succ_mod_eq _ _ h1.1, pred_mod_eq _ _ h2.1]
        split_ifs <;> omega)
      (by
        intro a ha
        have h1 := hmem a ha
        rw [Ne, Prod.ext_iff]
        simp only
        rw [succ_mod_eq _ _ h1.1]
        split_ifs <;> omega)
      (spinAt lattice) (spinAt lattice') _ ha0 _ hs'
    have hV := sum_flip_bonds (sites L.toNat)
      (fun a => (a.1, (a.2 + 1) % L.toNat)) (fun a => (a.1, (a.2 + L.toNat - 1) % L.toNat))
      (by
        intro a ha
        have := hmem a ha
        unfold sites
        rw [Finset.mem_product, Finset.mem_range, Finset.mem_range]
        exact ⟨this.1, Nat.mod_lt _ (by omega)⟩)
      (by
        intro a ha
        have := hmem a ha
        unfold sites
        rw [Finset.mem_product, Finset.mem_range, Finset.mem_range]
        exact ⟨this.1, Nat.mod_lt _ (by omega)⟩)
      (by
        intro a ha b hb
        have h1 := hmem a ha
        have h2 := hmem b hb
        rw [Prod.ext_iff, Prod.ext_iff]
        simp only
        rw [succ_mod_eq _ _ h1.2, pred_mod_eq _ _ h2.2]
        split_ifs <;> omega)
      (by
        intro a ha
        have h1 := hmem a ha
        rw [Ne, Prod.ext_iff]
        simp only
        rw [succ_mod_eq _ _ h1.2]
        split_ifs <;> omega)
      (spinAt lattice) (spinAt lattice') _ ha0 _ hs'
    have hF := sum_flip_field (sites L.toNat) (spinAt lattice) (spinAt lattice') _ ha0 _ hs'
    simp only at hH hV
    rw [hs0] at hH hV hF
    have e1 : spinAt lattice ((x.toNat + 1) % L.toNat, y.toNat) =
        (spin lattice ((x + 1) % L) y : ℚ) := by
      unfold spinAt
      simp only [← emod_succ_cast L hL0 x hx0, Int.toNat_of_nonneg hy0]
    have e2 : spinAt lattice ((x.toNat + L.toNat - 1) % L.toNat, y.toNat) =
        (spin lattice ((x - 1) % L) y : ℚ) := by
      unfold spinAt
      simp only [← emod_pred_cast L hL0 x hx0, Int.toNat_of_nonneg hy0]
    have e3 : spinAt lattice (x.toNat, (y.toNat + 1) % L.toNat) =
        (spin lattice x ((y + 1) % L) : ℚ) := by
      unfold spinAt
      simp only [← emod_succ_cast L hL0 y hy0, Int.toNat_of_nonneg hx0]
    have e4 : spinAt lattice (x.toNat, (y.toNat + L.toNat - 1) % L.toNat) =
        (spin lattice x ((y - 1) % L) : ℚ) := by
      unfold spinAt
      simp only [← emod_pred_cast L hL0 y hy0, Int.toNat_of_nonneg hx0]
    rw [e1, e2] at hH
    rw [e3, e4] at hV
    simp only
    push_cast
    push_cast at hH hV hF
    linear_combination (-J) * hH + (-J) * hV + (-h) * hF
  · have hF := sum_flip_field (sites L.toNat) (spinAt lattice) (spinAt lattice') _ ha0 _ hs'
    rw [hs0] at hF
    simp only
    rw [hF]
    push_cast
    ring

/-! ## The rows as statistics of the measured snapshots -/

/-- C8: for valid parameters, row `i` of `RunIsing` is built from the `MSteps * Copies`
snapshots `(energy, moment)` that `calcParameters` returned at temperature `T_i` (the list
`snapshots` records for that temperature alone, the sums starting from zero): with
`N = L ^ 2` and `E`, `E2`, `M`, `M2` the means of `energy`, `energy ^ 2`, `|moment|` and
`moment ^ 2`, the row has `U = E / N`, `C = (E2 - E ^ 2) / (T_i ^ 2 * N)`, `M = M / N` and
`X = (M2 - M ^ 2) / (T_i * N)`. -/
theorem RunIsing_rows_are_means (exp : ℚ → ℚ) (g : Rng) (J h : ℚ) (params : Params)
    (hL : 0 < params.L) (hT : 1 < params.Tcount) (hM : 0 < params.MSteps)
    (hC : 0 < params.Copies) :
    ∃ (rows : List ResultRow) (tr : List (ℚ × List (ℚ × ℚ))),
      RunIsing exp g J h params = some (rows, none) ∧
      snapshots exp g J h params = some tr ∧
      rows.length = params.Tcount.toNat ∧ tr.length = params.Tcount.toNat ∧
      ∀ (i : Nat) (row : ResultRow) (v : ℚ × List (ℚ × ℚ)),
        rows.get? i = some row → tr.get? i = some v →
        v.1 = tempAt params.T1 params.T2 params.Tcount i ∧
        v.2.length = (params.MSteps * params.Copies).toNat ∧
        row.T = v.1 ∧
        row.U = mean (v.2.map (fun w => w.1)) / (params.L : ℚ) ^ 2 ∧
        row.C = (mean (v.2.map (fun w => w.1 * w.1)) - mean (v.2.map (fun w => w.1)) ^ 2) /
          (v.1 ^ 2 * (params.L : ℚ) ^ 2) ∧
        row.M = mean (v.2.map (fun w => |w.2|)) / (params.L : ℚ) ^ 2 ∧
        row.X = (mean (v.2.map (fun w => w.2 * w.2)) - mean (v.2.map (fun w => |w.2|)) ^ 2) /
          (v.1 * (params.L : ℚ) ^ 2) := by
  rcases run_trace exp g J h params hL hT hM hC with ⟨tr, hlen, hP, hsnap, hrun⟩
  refine ⟨tr.map (rowOf params), tr, hrun, hsnap, by rw [List.length_map, hlen], hlen, ?_⟩
  intro i row v hrow hv
  rw [List.get?_eq_getElem?, List.getElem?_map, ← List.get?_eq_getElem?, hv] at hrow
  have hrow' : row = rowOf params v := (Option.some.inj hrow).symm
  rcases hP i v hv with ⟨hTi, hlen2, _⟩
  have hl : ∀ f : ℚ × ℚ → ℚ, (v.2.map f).length =
      params.Copies.toNat * params.MSteps.toNat := by
    intro f; rw [List.length_map, hlen2]
  have hN : (((params.L * params.L : Int)) : ℚ) = (params.L : ℚ) ^ 2 := by push_cast; ring
  have hfold := foldSamples_addSample params.MSteps params.Copies v.2 ⟨0, 0, 0, 0⟩
  simp only [zero_add, div_div_eq_mean params.MSteps params.Copies hM hC _ (hl _)] at hfold
  refine ⟨hTi, ?_, ?_, ?_, ?_, ?_, ?_⟩
  · rw [hlen2]
    apply Int.ofNat_inj.mp
    push_cast
    rw [Int.toNat_of_nonneg hC.le, Int.toNat_of_nonneg hM.le,
      Int.toNat_of_nonneg (mul_nonneg hM.le hC.le)]
    ring
  · rw [hrow']; rfl
  · rw [hrow']; simp only [rowOf, finishRow, hfold, hN]
  · rw [hrow']; simp only [rowOf, finishRow, hfold, hN]; ring
  · rw [hrow']; simp only [rowOf, finishRow, hfold, hN]
  · rw [hrow']; simp only [rowOf, finishRow, hfold, hN]; ring

/-- C8 on a concrete run: a `2 × 2` lattice, two copies, two measurement sweeps. -/
theorem RunIsing_rows_are_means_witness :
    ∃ (rows : List ResultRow) (tr : List (ℚ × List (ℚ × ℚ))),
      RunIsing expStub rngStub 1 0 paramsStub = some (rows, none) ∧
      snapshots expStub rngStub 1 0 paramsStub = some tr ∧
      rows.length = paramsStub.Tcount.toNat ∧ tr.length = paramsStub.Tcount.toNat ∧
      ∀ (i : Nat) (row : ResultRow) (v : ℚ × List (ℚ × ℚ)),
        rows.get? i = some row → tr.get? i = some v →
        v.1 = tempAt paramsStub.T1 paramsStub.T2 paramsStub.Tcount i ∧
        v.2.length = (paramsStub.MSteps * paramsStub.Copies).toNat ∧
        row.T = v.1 ∧
        row.U = mean (v.2.map (fun w => w.1)) / (paramsStub.L : ℚ) ^ 2 ∧
        row.C = (mean (v.2.map (fun w => w.1 * w.1)) - mean (v.2.map (fun w => w.1)) ^ 2) /
          (v.1 ^ 2 * (paramsStub.L : ℚ) ^ 2) ∧
        row.M = mean (v.2.map (fun w => |w.2|)) / (paramsStub.L : ℚ) ^ 2 ∧
        row.X = (mean (v.2.map (fun w => w.2 * w.2)) - mean (v.2.map (fun w => |w.2|)) ^ 2) /
          (v.1 * (paramsStub.L : ℚ) ^ 2) :=
  RunIsing_rows_are_means expStub rngStub 1 0 paramsStub (by decide) (by decide) (by decide)
    (by decide)

/-! ## Acceptance of moves that do not raise the energy -/

/-- C9: when the computed `dE` is at most `0`, `T > 0` and the draw `u` lies in `[0, 1)`,
`mcStep` accepts: the spin at `(x, y)` afterwards is `S1 = -S0`. The exponential enters
only through `exp z ≥ 1` for `z ≥ 0`. -/
theorem mcStep_accepts_downhill (exp : ℚ → ℚ) (hexp : ∀ z : ℚ, 0 ≤ z → 1 ≤ exp z)
    (lattice : array2d) (L : Int) (J h T : ℚ) (x y : Int) (g : Rng) (S1 : Int) (dE : ℚ)
    (hd : flipDelta lattice L J h x y = some (S1, dE)) (hdE : dE ≤ 0) (hT : 0 < T)
    (hu : 0 ≤ g.Float64.1 ∧ g.Float64.1 < 1) :
    ∃ (S0 : Int) (lattice' : array2d),
      at2 lattice x y = some S0 ∧ S1 = -S0 ∧
      mcStep exp lattice L J h T x y g = some (lattice', g.Float64.2) ∧
      at2 lattice' x y = some S1 := by
  have h0 := flipDelta_at2 hd
  rcases set2_of_at2 h0 S1 with ⟨lattice', hset⟩
  refine ⟨-S1, lattice', h0, (neg_neg S1).symm, ?_, at2_set2 hset⟩
  have hz : 0 ≤ -dE / T := div_nonneg (by linarith) hT.le
  have hacc : g.Float64.1 < exp (-dE / T) := lt_of_lt_of_le hu.2 (hexp _ hz)
  unfold mcStep
  rw [hd]
  dsimp only
  rw [if_pos hacc, hset]

/-- C9 on a `2 × 2` lattice whose site `(0, 0)` has all neighbours opposed: `dE = -8`. -/
theorem mcStep_accepts_downhill_witness :
    ∃ (S0 : Int) (lattice' : array2d),
      at2 [[1, -1], [-1, -1]] 0 0 = some S0 ∧ (-1 : Int) = -S0 ∧
      mcStep expStub [[1, -1], [-1, -1]] 2 1 0 2 0 0 rngStub =
        some (lattice', rngStub.Float64.2) ∧
      at2 lattice' 0 0 = some (-1) :=
  mcStep_accepts_downhill expStub
    (fun z hz => by unfold expStub; rw [if_pos hz]; linarith)
    [[1, -1], [-1, -1]] 2 1 0 2 0 0 rngStub (-1) (-8)
    (by
      have h1 : Int.tmod 1 2 = 1 := by decide
      simp [flipDelta, at2, idx, pbc, h1]
      norm_num)
    (by norm_num) (by norm_num) (by simp [Rng.Float64, rngStub])

/-! ## Bond counting in `calcParameters` -/

/-- C10 (in exact arithmetic): for `L ≥ 3` and any `L × L` lattice, `calcParameters` counts
every bond once: the energy is `-J` times the sum of `S_a * S_b` over the unordered pairs of
distinct periodic nearest-neighbour sites (`bonds`), minus `h` times the sum of all spins;
the magnetisation is the signed sum of all spins. The lattice is only read: the function
returns the two totals and nothing else. -/
theorem calcParameters_counts_bonds (L : Int) (hL : 3 ≤ L) (lattice : array2d)
    (hsq : Square L lattice) (J h : ℚ) :
    calcParameters lattice L J h =
      some (-J * (∑ p ∈ bonds L.toNat, spinAt lattice p.1 * spinAt lattice p.2)
          - h * (∑ a ∈ sites L.toNat, spinAt lattice a),
        ∑ a ∈ sites L.toNat, spinAt lattice a) := by
  have hn : 3 ≤ L.toNat := by omega
  rw [calcParameters_sites L (by omega) lattice hsq J h,
    sum_bonds L.toNat hn (fun a b => spinAt lattice a * spinAt lattice b)
      (fun a b => mul_comm _ _), Finset.sum_add_distrib]

/-- C10 on a concrete `3 × 3` lattice with `J = 1` and `h = 1/2`. -/
theorem calcParameters_counts_bonds_witness :
    calcParameters [[1, -1, 1], [1, 1, -1], [-1, 1, 1]] 3 1 (1 / 2) =
      some (-1 * (∑ p ∈ bonds (3 : Int).toNat,
            spinAt [[1, -1, 1], [1, 1, -1], [-1, 1, 1]] p.1 *
              spinAt [[1, -1, 1], [1, 1, -1], [-1, 1, 1]] p.2)
          - 1 / 2 * (∑ a ∈ sites (3 : Int).toNat, spinAt [[1, -1, 1], [1, 1, -1], [-1, 1, 1]] a),
        ∑ a ∈ sites (3 : Int).toNat, spinAt [[1, -1, 1], [1, 1, -1], [-1, 1, 1]] a) :=
  calcParameters_counts_bonds 3 (by decide) [[1, -1, 1], [1, 1, -1], [-1, 1, 1]] (by decide)
    1 (1 / 2)

/-- C10 fails as stated in `float64` arithmetic. On a `3 × 3` lattice of spins with `J` the
`float64` value of `0.1` and `h = 0`, the rounded running sum ends at
`5404319552844595 / 2 ^ 53` (`0.6`), while `-J` times the sum over the bonds is `6 * J`
(`0.6000000000000001` once rounded). -/
theorem calcParametersF_bonds_inexact :
    calcParametersF [[1, -1, 1], [1, 1, -1], [-1, 1, 1]] 3 tenth64 0 =
      some (5404319552844595 / 9007199254740992, 3) ∧
    (5404319552844595 / 9007199254740992 : ℚ) ≠
      -tenth64 * (∑ p ∈ bonds (3 : Int).toNat,
          spinAt [[1, -1, 1], [1, 1, -1], [-1, 1, 1]] p.1 *
            spinAt [[1, -1, 1], [1, 1, -1], [-1, 1, 1]] p.2)
        - 0 * (∑ a ∈ sites (3 : Int).toNat, spinAt [[1, -1, 1], [1, 1, -1], [-1, 1, 1]] a) ∧
    round64 (-tenth64 * (∑ p ∈ bonds (3 : Int).toNat,
          spinAt [[1, -1, 1], [1, 1, -1], [-1, 1, 1]] p.1 *
            spinAt [[1, -1, 1], [1, 1, -1], [-1, 1, 1]] p.2)) ≠
      some (5404319552844595 / 9007199254740992) := by
  refine ⟨?_, ?_, ?_⟩ <;> decide!

/-! ## The exact domain of `pbc` -/

/-- C20: for `L > 0` and every integer `x`, the value of `pbc x L` lies in `[0, L)` exactly
when `x ≥ -L`; for `x < -L` it is `x + L`, which is negative. -/
theorem pbc_in_range_iff (L x : Int) (hL : 0 < L) :
    ∃ r, pbc x L = some r ∧ ((0 ≤ r ∧ r < L) ↔ -L ≤ x) ∧
      (x < -L → r = x + L ∧ r < 0) := by
  have hr := emod_range x L hL
  refine ⟨_, pbc_of_pos x L hL, ?_, ?_⟩
  · by_cases hx : x < 0
    · rw [if_pos hx]
      constructor
      · intro h; omega
      · intro h; omega
    · rw [if_neg hx]
      constructor
      · intro _; omega
      · intro _; exact hr
  · intro hx
    have hx0 : x < 0 := by omega
    rw [if_pos hx0]
    exact ⟨rfl, by omega⟩

/-- C20 at `L = 5`, `x = -7`: the result is `-2`. -/
theorem pbc_in_range_iff_witness :
    ∃ r, pbc (-7) 5 = some r ∧ ((0 ≤ r ∧ r < 5) ↔ -5 ≤ (-7 : Int)) ∧
      ((-7 : Int) < -5 → r = -7 + 5 ∧ r < 0) :=
  pbc_in_range_iff 5 (-7) (by decide)

/-! ## One Metropolis step: the write and the totals -/

/-- C11: on an `L × L` lattice, for an in-range site and `T ≠ 0`, `mcStep` draws one `u`
and returns the lattice with `(x, y)` set to `-S0` when `u < exp (-dE / T)`, the unchanged
lattice otherwise; every other site reads as before in both cases. -/
theorem mcStep_single_spin (exp : ℚ → ℚ) (L : Int) (hL : 0 < L) (lattice : array2d)
    (hsq : Square L lattice) (J h T : ℚ) (_hT : T ≠ 0) (x y : Int) (hx0 : 0 ≤ x) (hx : x < L)
    (hy0 : 0 ≤ y) (hy : y < L) (g : Rng) :
    ∃ (S0 : Int) (dE : ℚ) (lattice' : array2d),
      at2 lattice x y = some S0 ∧
      flipDelta lattice L J h x y = some (-S0, dE) ∧
      mcStep exp lattice L J h T x y g = some (lattice', g.Float64.2) ∧
      (g.Float64.1 < exp (-dE / T) → set2 lattice x y (-S0) = some lattice') ∧
      (¬ g.Float64.1 < exp (-dE / T) → lattice' = lattice) ∧
      ∀ x' y' : Int, ¬ (x' = x ∧ y' = y) → at2 lattice' x' y' = at2 lattice x' y' := by
  have hd := flipDelta_eq hsq hL J h hx0 hx hy0 hy
  have h0 := at2_spin hsq hx0 hx hy0 hy
  rcases set2_of_at2 h0 (-spin lattice x y) with ⟨l', hl'⟩
  by_cases hacc : g.Float64.1 < exp (-(((-spin lattice x y - spin lattice x y : Int) : ℚ) *
          (-h - J * ((spin lattice ((x - 1) % L) y + spin lattice ((x + 1) % L) y
            + spin lattice x ((y - 1) % L) + spin lattice x ((y + 1) % L) : Int) : ℚ))) / T)
  · refine ⟨_, _, l', h0, hd, ?_, fun _ => hl', fun hn => absurd hacc hn, ?_⟩
    · unfold mcStep
      rw [hd]
      dsimp only
      rw [if_pos hacc, hl']
    · intro x' y' hne
      exact at2_set2_ne hl' x' y' hne
  · refine ⟨_, _, lattice, h0, hd, ?_, fun ha => absurd ha hacc, fun _ => rfl, fun _ _ _ => rfl⟩
    unfold mcStep
    rw [hd]
    dsimp only
    rw [if_neg hacc]

/-- C11 on a `2 × 2` lattice at site `(0, 0)` with `T = 2`. -/
theorem mcStep_single_spin_witness :
    ∃ (S0 : Int) (dE : ℚ) (lattice' : array2d),
      at2 [[1, -1], [-1, -1]] 0 0 = some S0 ∧
      flipDelta [[1, -1], [-1, -1]] 2 1 0 0 0 = some (-S0, dE) ∧
      mcStep expStub [[1, -1], [-1, -1]] 2 1 0 2 0 0 rngStub =
        some (lattice', rngStub.Float64.2) ∧
      (rngStub.Float64.1 < expStub (-dE / 2) →
        set2 [[1, -1], [-1, -1]] 0 0 (-S0) = some lattice') ∧
      (¬ rngStub.Float64.1 < expStub (-dE / 2) → lattice' = [[1, -1], [-1, -1]]) ∧
      ∀ x' y' : Int, ¬ (x' = 0 ∧ y' = 0) →
        at2 lattice' x' y' = at2 [[1, -1], [-1, -1]] x' y' :=
  mcStep_single_spin expStub 2 (by decide) [[1, -1], [-1, -1]] (by decide) 1 0 2
    (by norm_num) 0 0 (by decide) (by decide) (by decide) (by decide) rngStub

/-- C15 (in exact arithmetic): for `L ≥ 2`, an `L × L` lattice of spins and an in-range
site, an accepted `mcStep` changes the energy `calcParameters` reports by exactly the `dE`
it computed and the magnetisation by `2 * S1 = -2 * S0`; a rejected one changes neither. -/
theorem mcStep_totals (exp : ℚ → ℚ) (L : Int) (hL : 2 ≤ L) (lattice : array2d)
    (hv : Valid L lattice) (J h T : ℚ) (x y : Int) (hx0 : 0 ≤ x) (hx : x < L)
    (hy0 : 0 ≤ y) (hy : y < L) (g : Rng) :
    ∃ (S0 S1 : Int) (dE : ℚ) (lattice' : array2d) (em em' : ℚ × ℚ),
      at2 lattice x y = some S0 ∧
      flipDelta lattice L J h x y = some (S1, dE) ∧
      mcStep exp lattice L J h T x y g = some (lattice', g.Float64.2) ∧
      calcParameters lattice L J h = some em ∧
      calcParameters lattice' L J h = some em' ∧
      (g.Float64.1 < exp (-dE / T) →
        em'.1 - em.1 = dE ∧ em'.2 - em.2 = 2 * (S1 : ℚ) ∧ 2 * (S1 : ℚ) = -2 * (S0 : ℚ)) ∧
      (¬ g.Float64.1 < exp (-dE / T) → em' = em) := by
  rcases flipDelta_energy_change L hL lattice hv.1 J h x y hx0 hx hy0 hy with
    ⟨S1, dE, l', em, em', hd, hset, hc, hc', hE, hM⟩
  have h0 := flipDelta_at2 hd
  by_cases hacc : g.Float64.1 < exp (-dE / T)
  · refine ⟨-S1, S1, dE, l', em, em', h0, hd, ?_, hc, hc',
      fun _ => ⟨hE, hM, by push_cast; ring⟩, fun hn => absurd hacc hn⟩
    unfold mcStep
    rw [hd]
    dsimp only
    rw [if_pos hacc, hset]
  · refine ⟨-S1, S1, dE, lattice, em, em, h0, hd, ?_, hc, hc,
      fun ha => absurd ha hacc, fun _ => rfl⟩
    unfold mcStep
    rw [hd]
    dsimp only
    rw [if_neg hacc]

/-- C15 on a `2 × 2` lattice at site `(0, 0)` with `T = 2`. -/
theorem mcStep_totals_witness :
    ∃ (S0 S1 : Int) (dE : ℚ) (lattice' : array2d) (em em' : ℚ × ℚ),
      at2 [[1, -1], [-1, -1]] 0 0 = some S0 ∧
      flipDelta [[1, -1], [-1, -1]] 2 1 0 0 0 = some (S1, dE) ∧
      mcStep expStub [[1, -1], [-1, -1]] 2 1 0 2 0 0 rngStub =
        some (lattice', rngStub.Float64.2) ∧
      calcParameters [[1, -1], [-1, -1]] 2 1 0 = some em ∧
      calcParameters lattice' 2 1 0 = some em' ∧
      (rngStub.Float64.1 < expStub (-dE / 2) →
        em'.1 - em.1 = dE ∧ em'.2 - em.2 = 2 * (S1 : ℚ) ∧ 2 * (S1 : ℚ) = -2 * (S0 : ℚ)) ∧
      (¬ rngStub.Float64.1 < expStub (-dE / 2) → em' = em) :=
  mcStep_totals expStub 2 (by decide) [[1, -1], [-1, -1]] (by decide) 1 0 2 0 0
    (by decide) (by decide) (by decide) (by decide) rngStub

/-- C15 fails as stated in `float64` arithmetic. On the `3 × 3` lattice of spins `+1` with
`J` the `float64` value of `0.1`, `h = 0` and `T = 2`, `mcStep` computes
`dE = 3602879701896397 / 2 ^ 52` (`0.8`) at site `(0, 0)` and accepts the flip; the energy
`calcParameters` reports goes from `-8106479329266895 / 2 ^ 52` to
`-9007199254740991 / 2 ^ 53`, a change of `0.8000000000000006`, exact or rounded. The
magnetisation goes from `9` to `7`. -/
theorem mcStepF_totals_inexact :
    flipDeltaF (initLattice 3) 3 tenth64 0 0 0 =
      some (-1, 3602879701896397 / 4503599627370496) ∧
    (mcStepF expStub (initLattice 3) 3 tenth64 0 2 0 0 rngStub).map (fun r => r.1) =
      some [[-1, 1, 1], [1, 1, 1], [1, 1, 1]] ∧
    calcParametersF (initLattice 3) 3 tenth64 0 =
      some (-8106479329266895 / 4503599627370496, 9) ∧
    calcParametersF [[-1, 1, 1], [1, 1, 1], [1, 1, 1]] 3 tenth64 0 =
      some (-9007199254740991 / 9007199254740992, 7) ∧
    (-9007199254740991 / 9007199254740992 : ℚ) - (-8106479329266895 / 4503599627370496) ≠
      3602879701896397 / 4503599627370496 ∧
    fsub (-9007199254740991 / 9007199254740992) (-8106479329266895 / 4503599627370496) ≠
      some (3602879701896397 / 4503599627370496) := by
  refine ⟨?_, ?_, ?_, ?_, ?_, ?_⟩ <;> decide!

/-! ## Index safety -/

theorem at2_some_iff {L : Int} {lattice : array2d} (hsq : Square L lattice) (i j : Int) :
    (∃ v, at2 lattice i j = some v) ↔ (0 ≤ i ∧ i < L ∧ 0 ≤ j ∧ j < L) := by
  constructor
  · rintro ⟨v, hv⟩
    unfold at2 at hv
    cases hr : idx lattice i with
    | none => rw [hr] at hv; exact absurd hv (by simp)
    | some row =>
      rw [hr] at hv
      rcases idx_eq_some hr with ⟨hi0, hi1, _⟩
      rcases idx_eq_some hv with ⟨hj0, hj1, _⟩
      rw [hsq.1] at hi1
      rw [hsq.2 row (idx_mem hr)] at hj1
      omega
  · rintro ⟨hi0, hi, hj0, hj⟩
    exact at2_of_square hsq hi0 hi hj0 hj

theorem mcStep_of_square (exp : ℚ → ℚ) {L : Int} {lattice : array2d} (hsq : Square L lattice)
    (hL : 0 < L) (J h T : ℚ) {x y : Int} (hx0 : 0 ≤ x) (hx : x < L) (hy0 : 0 ≤ y) (hy : y < L)
    (g : Rng) :
    ∃ lattice', mcStep exp lattice L J h T x y g = some (lattice', g.Float64.2) ∧
      Square L lattice' := by
  unfold mcStep
  rw [flipDelta_eq hsq hL J h hx0 hx hy0 hy]
  dsimp only
  split
  · rcases set2_of_at2 (at2_spin hsq hx0 hx hy0 hy) (-spin lattice x y) with ⟨l', hl'⟩
    rw [hl']
    exact ⟨l', rfl, set2_square hl' hsq⟩
  · exact ⟨lattice, rfl, hsq⟩

theorem RunIsing_ne_none (exp : ℚ → ℚ) (g : Rng) (J h : ℚ) (params : Params) :
    RunIsing exp g J h params ≠ none := by
  by_cases hbad : params.L ≤ 0 ∨ params.Tcount ≤ 1 ∨ params.MSteps ≤ 0 ∨ params.Copies ≤ 0
  · rcases RunIsing_of_invalid exp g J h params hbad with ⟨msg, hmsg⟩
    rw [hmsg]; simp
  · rcases RunIsing_rows_of_valid exp g J h params (by omega) (by omega) (by omega)
      (by omega) with ⟨rows, hrun, _⟩
    rw [hrun]; simp

/-- C16: on an `L × L` lattice with `L > 0` a read `lattice[i][j]` succeeds exactly when
both indices lie in `[0, L)`. For an in-range site the wrapped neighbour coordinates lie in
`[0, L)`, so the five reads of `mcStep` and the three reads per site of `calcParameters`
succeed: neither function panics, and `RunIsing` never does. -/
theorem index_safety (L : Int) (hL : 0 < L) (lattice : array2d) (hsq : Square L lattice) :
    (∀ i j : Int, (∃ v, at2 lattice i j = some v) ↔ (0 ≤ i ∧ i < L ∧ 0 ≤ j ∧ j < L)) ∧
    (∀ x : Int, 0 ≤ x → x < L →
      ∃ xr xl, pbc (x + 1) L = some xr ∧ pbc (x - 1) L = some xl ∧
        0 ≤ xr ∧ xr < L ∧ 0 ≤ xl ∧ xl < L) ∧
    (∀ (J h : ℚ) (x y : Int), 0 ≤ x → x < L → 0 ≤ y → y < L →
      (∃ r, flipDelta lattice L J h x y = some r) ∧
      ∀ acc, ∃ r, calcSite lattice L J h x y acc = some r) ∧
    (∀ (exp : ℚ → ℚ) (J h T : ℚ) (x y : Int) (g : Rng), 0 ≤ x → x < L → 0 ≤ y → y < L →
      ∃ r, mcStep exp lattice L J h T x y g = some r) ∧
    (∀ J h : ℚ, ∃ r, calcParameters lattice L J h = some r) ∧
    (∀ (exp : ℚ → ℚ) (g : Rng) (J h : ℚ) (params : Params),
      RunIsing exp g J h params ≠ none) := by
  refine ⟨at2_some_iff hsq, ?_, ?_, ?_, ?_, RunIsing_ne_none⟩
  · intro x hx0 hx
    have h1 := emod_range (x + 1) L hL
    have h2 := emod_range (x - 1) L hL
    exact ⟨_, _, pbc_near (x + 1) L hL (by omega) (by omega),
      pbc_near (x - 1) L hL (by omega) (by omega), h1.1, h1.2, h2.1, h2.2⟩
  · intro J h x y hx0 hx hy0 hy
    exact ⟨⟨_, flipDelta_eq hsq hL J h hx0 hx hy0 hy⟩,
      fun acc => ⟨_, calcSite_eq hsq hL J h hx0 hx hy0 hy acc⟩⟩
  · intro exp J h T x y g hx0 hx hy0 hy
    rcases mcStep_of_square exp hsq hL J h T hx0 hx hy0 hy g with ⟨l', hl', _⟩
    exact ⟨_, hl'⟩
  · intro J h
    exact ⟨_, calcParameters_eq hsq hL J h⟩

/-- C16 on a concrete `2 × 2` lattice. -/
theorem index_safety_witness :
    (∀ i j : Int, (∃ v, at2 [[1, -1], [-1, -1]] i j = some v) ↔
      (0 ≤ i ∧ i < 2 ∧ 0 ≤ j ∧ j < 2)) ∧
    (∀ x : Int, 0 ≤ x → x < 2 →
      ∃ xr xl, pbc (x + 1) 2 = some xr ∧ pbc (x - 1) 2 = some xl ∧
        0 ≤ xr ∧ xr < 2 ∧ 0 ≤ xl ∧ xl < 2) ∧
    (∀ (J h : ℚ) (x y : Int), 0 ≤ x → x < 2 → 0 ≤ y → y < 2 →
      (∃ r, flipDelta [[1, -1], [-1, -1]] 2 J h x y = some r) ∧
      ∀ acc, ∃ r, calcSite [[1, -1], [-1, -1]] 2 J h x y acc = some r) ∧
    (∀ (exp : ℚ → ℚ) (J h T : ℚ) (x y : Int) (g : Rng), 0 ≤ x → x < 2 → 0 ≤ y → y < 2 →
      ∃ r, mcStep exp [[1, -1], [-1, -1]] 2 J h T x y g = some r) ∧
    (∀ J h : ℚ, ∃ r, calcParameters [[1, -1], [-1, -1]] 2 J h = some r) ∧
    (∀ (exp : ℚ → ℚ) (g : Rng) (J h : ℚ) (params : Params),
      RunIsing exp g J h params ≠ none) :=
  index_safety 2 (by decide) [[1, -1], [-1, -1]] (by decide)

/-! ## The spin domain -/

theorem mcStep_some_valid {exp : ℚ → ℚ} {L : Int} {lattice lattice' : array2d} {J h T : ℚ}
    {x y : Int} {g g' : Rng} (hv : Valid L lattice)
    (hm : mcStep exp lattice L J h T x y g = some (lattice', g')) : Valid L lattice' := by
  unfold mcStep at hm
  cases hd : flipDelta lattice L J h x y with
  | none => rw [hd] at hm; exact absurd hm (by simp)
  | some r =>
    obtain ⟨S1, dE⟩ := r
    rw [hd] at hm
    dsimp only at hm
    have h0 := flipDelta_at2 hd
    have hS1 : S1 = 1 ∨ S1 = -1 := by
      rcases at2_mem h0 with ⟨r, hr, hmem⟩
      rcases hv.2 r hr _ hmem with h1 | h1
      · right; omega
      · left; omega
    split at hm
    · cases hs : set2 lattice x y S1 with
      | none => rw [hs] at hm; exact absurd hm (by simp)
      | some l' =>
        rw [hs] at hm
        have : l' = lattice' := (Prod.mk.inj (Option.some.inj hm)).1
        subst this
        exact ⟨set2_square hs hv.1, set2_spins hs hv.2 hS1⟩
    · have : lattice = lattice' := (Prod.mk.inj (Option.some.inj hm)).1
      subst this
      exact hv

theorem loopFrom_some_inv {σ : Type} (P : σ → Prop) (body : Int → σ → Option σ)
    (hstep : ∀ j t t', P t → body j t = some t' → P t') :
    ∀ (k : Nat) (i : Int) (s s' : σ), P s → loopFrom body k i s = some s' → P s' := by
  intro k
  induction k with
  | zero =>
    intro i s s' hP h
    have : s = s' := Option.some.inj h
    subst this
    exact hP
  | succ k ih =>
    intro i s s' hP h
    unfold loopFrom at h
    cases hb : body i s with
    | none => rw [hb] at h; exact absurd h (by simp)
    | some t =>
      rw [hb] at h
      exact ih (i + 1) t s' (hstep i s t hP hb) h

theorem attempt_some_valid {exp : ℚ → ℚ} {L : Int} {J h T : ℚ} {s s' : array2d × Rng}
    (hv : Valid L s.1) (ha : attempt exp L J h T s = some s') : Valid L s'.1 := by
  unfold attempt at ha
  cases h1 : s.2.Intn L with
  | none => rw [h1] at ha; exact absurd ha (by simp)
  | some r1 =>
    obtain ⟨x, g1⟩ := r1
    rw [h1] at ha
    dsimp only at ha
    cases h2 : g1.Intn L with
    | none => rw [h2] at ha; exact absurd ha (by simp)
    | some r2 =>
      obtain ⟨y, g2⟩ := r2
      rw [h2] at ha
      dsimp only at ha
      exact mcStep_some_valid hv ha

theorem nextStep_some_valid {exp : ℚ → ℚ} {L : Int} {J h T : ℚ} {st st' : array2d × Rng}
    (hv : Valid L st.1) (hn : nextStep exp L J h T st = some st') : Valid L st'.1 := by
  unfold nextStep forLoop at hn
  exact loopFrom_some_inv (fun s => Valid L s.1) _
    (fun _ t t' ht hb => attempt_some_valid ht hb) _ _ _ _ hv hn

theorem reachable_valid {exp : ℚ → ℚ} {L : Int} {J h : ℚ} {lattice : array2d}
    (hr : Reachable exp L J h lattice) : Valid L lattice := by
  induction hr with
  | start => exact initLattice_valid L
  | flip lattice lattice' T x y g g' _ hm ih => exact mcStep_some_valid ih hm
  | sweep lattice T g st' _ hn ih => exact nextStep_some_valid ih hn

theorem nextStep_reachable (exp : ℚ → ℚ) {L : Int} (hL : 0 < L) (J h T : ℚ)
    (st : array2d × Rng) (hr : Reachable exp L J h st.1) :
    ∃ st', nextStep exp L J h T st = some st' ∧ Reachable exp L J h st'.1 := by
  rcases nextStep_valid exp hL J h T st (reachable_valid hr) with ⟨st', hst', _⟩
  exact ⟨st', hst', Reachable.sweep st.1 T st.2 st' hr hst'⟩

theorem thermalize_reachable (exp : ℚ → ℚ) {L : Int} (hL : 0 < L) (J h T : ℚ) (aSteps : Int)
    (st : array2d × Rng) (hr : Reachable exp L J h st.1) :
    ∃ st', thermalize exp L J h T aSteps st = some st' ∧ Reachable exp L J h st'.1 := by
  unfold thermalize
  by_cases ha : 0 ≤ aSteps
  · exact forLoop_inv (fun _ s => Reachable exp L J h s.1) _ aSteps st ha hr
      (fun j t _ _ ht => nextStep_reachable exp hL J h T t ht)
  · rw [forLoop_nonpos _ _ _ (by omega)]
    exact ⟨st, rfl, hr⟩

theorem measure_reachable {α : Type} (rec : α → ℚ → ℚ → α) (exp : ℚ → ℚ) {L : Int}
    (hL : 0 < L) (J h T : ℚ) (mSteps : Int) (st : (array2d × Rng) × α)
    (hr : Reachable exp L J h st.1.1) :
    ∃ st', measure rec exp L J h T mSteps st = some st' ∧ Reachable exp L J h st'.1.1 := by
  unfold measure
  by_cases hm : 0 ≤ mSteps
  · apply forLoop_inv (fun _ s => Reachable exp L J h s.1.1) _ mSteps st hm hr
    intro j t _ _ ht
    rcases nextStep_reachable exp hL J h T t.1 ht with ⟨s1, hs1, hr1⟩
    have hv1 := reachable_valid hr1
    obtain ⟨em, hem⟩ : ∃ em, calcParameters s1.1 L J h = some em :=
      ⟨_, calcParameters_eq hv1.1 hL J h⟩
    refine ⟨(s1, rec t.2 em.1 em.2), ?_, hr1⟩
    simp only [measureStep, hs1, hem]
  · rw [forLoop_nonpos _ _ _ (by omega)]
    exact ⟨st, rfl, hr⟩

theorem copyLoop_reachable {α : Type} (rec : α → ℚ → ℚ → α) (exp : ℚ → ℚ) {L : Int}
    (hL : 0 < L) (J h T : ℚ) (aSteps mSteps copies : Int) (st : (List array2d × Rng) × α)
    (hr : ReachableAll exp L J h copies st.1.1) :
    ∃ st', copyLoop rec exp L J h T aSteps mSteps copies st = some st' ∧
      ReachableAll exp L J h copies st'.1.1 := by
  unfold copyLoop
  by_cases hc : 0 ≤ copies
  · apply forLoop_inv (fun _ s => ReachableAll exp L J h copies s.1.1) _ copies st hc hr
    intro j s hj0 hj hs
    have hlt : j.toNat < s.1.1.length := by rw [hs.1]; omega
    have hidx := idx_of_lt s.1.1 j hj0 hlt
    have hrj : Reachable exp L J h (s.1.1.get ⟨j.toNat, hlt⟩) :=
      hs.2 _ (List.get_mem s.1.1 _ hlt)
    rcases thermalize_reachable exp hL J h T aSteps (s.1.1.get ⟨j.toNat, hlt⟩, s.1.2) hrj
      with ⟨s1, hs1, hr1⟩
    rcases measure_reachable rec exp hL J h T mSteps (s1, s.2) hr1 with ⟨s2, hs2, hr2⟩
    refine ⟨((s.1.1.set j.toNat s2.1.1, s2.1.2), s2.2), ?_, ?_, ?_⟩
    · simp only [copyStep, hidx, hs1, hs2, upd_of_lt s.1.1 j s2.1.1 hj0 hlt]
    · rw [List.length_set]; exact hs.1
    · intro l hl
      rcases List.mem_or_eq_of_mem_set hl with h1 | h1
      · exact hs.2 l h1
      · rw [h1]; exact hr2
  · rw [forLoop_nonpos _ _ _ (by omega)]
    exact ⟨st, rfl, hr⟩

theorem scheduleLoop_reachable {α ρ : Type} (init : α) (rec : α → ℚ → ℚ → α)
    (fin : ℚ → α → ρ) (exp : ℚ → ℚ) (J h : ℚ) (params : Params) (hL : 0 < params.L)
    (st : (List array2d × Rng) × List ρ)
    (hr : ReachableAll exp params.L J h params.Copies st.1.1) :
    ∃ st', scheduleLoop init rec fin exp J h params st = some st' ∧
      ReachableAll exp params.L J h params.Copies st'.1.1 := by
  unfold scheduleLoop
  by_cases ht : 0 ≤ params.Tcount
  · apply forLoop_inv (fun _ s => ReachableAll exp params.L J h params.Copies s.1.1) _
      params.Tcount st ht hr
    intro j s _ _ hs
    rcases copyLoop_reachable rec exp hL J h (tempAt params.T1 params.T2 params.Tcount j)
      params.ASteps params.MSteps params.Copies (s.1, init) hs with ⟨s1, hs1, hr1⟩
    refine ⟨(s1.1, s.2 ++ [fin (tempAt params.T1 params.T2 params.Tcount j) s1.2]), ?_, hr1⟩
    simp only [scheduleStep, hs1]
  · rw [forLoop_nonpos _ _ _ (by omega)]
    exact ⟨st, rfl, hr⟩

theorem initLattices_reachable (exp : ℚ → ℚ) (L : Int) (J h : ℚ) (copies : Int) :
    ReachableAll exp L J h copies (initLattices L copies) := by
  refine ⟨by simp [initLattices], ?_⟩
  intro l hl
  rw [List.eq_of_mem_replicate hl]
  exact Reachable.start

/-- C12: every lattice of a run starts as `L` rows of `L` spins `+1`; any number of
successful `mcStep` and `nextStep` calls, for any `J`, `h`, `T` and generator, leaves an
`L × L` lattice whose entries are all `+1` or `-1`; and for valid parameters the lattices
`RunIsing` ends with arise in this way. -/
theorem spin_domain_invariant (exp : ℚ → ℚ) (L : Int) (J h : ℚ) :
    (∀ copies : Int, ∀ l ∈ initLattices L copies,
      l = List.replicate L.toNat (List.replicate L.toNat 1)) ∧
    (∀ x y : Int, 0 ≤ x → x < L → 0 ≤ y → y < L → at2 (initLattice L) x y = some 1) ∧
    (∀ lattice : array2d, Reachable exp L J h lattice →
      lattice.length = L.toNat ∧ (∀ r ∈ lattice, r.length = L.toNat) ∧
      ∀ r ∈ lattice, ∀ v ∈ r, v = 1 ∨ v = -1) ∧
    (∀ (g : Rng) (params : Params), params.L = L → 0 < params.L → 1 < params.Tcount →
      0 < params.MSteps → 0 < params.Copies →
      ∃ st rows, tempLoop exp J h params ((initLattices params.L params.Copies, g), []) =
          some st ∧
        RunIsing exp g J h params = some (rows, none) ∧
        st.1.1.length = params.Copies.toNat ∧
        ∀ l ∈ st.1.1, Reachable exp L J h l) := by
  refine ⟨?_, ?_, ?_, ?_⟩
  · intro copies l hl
    unfold initLattices at hl
    rw [List.eq_of_mem_replicate hl]
    rfl
  · intro x y hx0 hx hy0 hy
    rw [at2_spin (initLattice_valid L).1 hx0 hx hy0 hy, spin_initLattice L hx0 hx hy0 hy]
  · intro lattice hr
    have hv := reachable_valid hr
    exact ⟨hv.1.1, hv.1.2, hv.2⟩
  · intro g params hpL hL hT hM hC
    subst hpL
    rcases scheduleLoop_reachable (⟨0, 0, 0, 0⟩ : Sums)
      (addSample params.MSteps params.Copies)
      (fun T a => finishRow T (params.L * params.L) a) exp J h params hL
      ((initLattices params.L params.Copies, g), [])
      (initLattices_reachable exp params.L J h params.Copies) with ⟨st, hst, hr⟩
    refine ⟨st, st.2, hst, ?_, hr.1, hr.2⟩
    unfold RunIsing
    rw [if_neg (not_le.mpr hL), if_neg (not_le.mpr hT), if_neg (not_le.mpr hM),
      if_neg (not_le.mpr hC)]
    unfold tempLoop
    rw [hst]

/-- C12 for `L = 2`: the initial lattice, the reachable lattices and a concrete run. -/
theorem spin_domain_invariant_witness :
    initLattice 2 = [[1, 1], [1, 1]] ∧ Reachable expStub 2 1 0 (initLattice 2) ∧
    (initLattice 2).length = (2 : Int).toNat ∧
    (∀ r ∈ initLattice 2, r.length = (2 : Int).toNat) ∧
    (∀ r ∈ initLattice 2, ∀ v ∈ r, v = 1 ∨ v = -1) ∧
    ∃ st rows, tempLoop expStub 1 0 paramsStub
        ((initLattices paramsStub.L paramsStub.Copies, rngStub), []) = some st ∧
      RunIsing expStub rngStub 1 0 paramsStub = some (rows, none) ∧
      st.1.1.length = paramsStub.Copies.toNat ∧
      ∀ l ∈ st.1.1, Reachable expStub 2 1 0 l :=
  ⟨rfl, Reachable.start,
    ((spin_domain_invariant expStub 2 1 0).2.2.1 (initLattice 2) Reachable.start).1,
    ((spin_domain_invariant expStub 2 1 0).2.2.1 (initLattice 2) Reachable.start).2.1,
    ((spin_domain_invariant expStub 2 1 0).2.2.1 (initLattice 2) Reachable.start).2.2,
    (spin_domain_invariant expStub 2 1 0).2.2.2 rngStub paramsStub rfl (by decide)
      (by decide) (by decide) (by decide)⟩

/-! ## The sweep as a sequence of attempts -/

theorem attempt_eq (exp : ℚ → ℚ) (L : Int) (hL : 0 < L) (J h T : ℚ) (s : array2d × Rng) :
    attempt exp L J h T s =
      mcStep exp s.1 L J h T ((s.2.ints s.2.ni : Int) % L)
        ((s.2.ints (s.2.ni + 1) : Int) % L) { s.2 with ni := s.2.ni + 2 } := by
  unfold attempt
  rw [Intn_of_pos _ L hL]
  dsimp only
  rw [Intn_of_pos _ L hL]

theorem loopFrom_attempts (exp : ℚ → ℚ) (L : Int) (hL : 0 < L) (J h T : ℚ) :
    ∀ (k : Nat) (i : Int) (s : array2d × Rng),
      loopFrom (fun _ s => attempt exp L J h T s) k i s = attempts exp L J h T k s := by
  intro k
  induction k with
  | zero => intro i s; rfl
  | succ k ih =>
    intro i s
    unfold loopFrom attempts
    rw [attempt_eq exp L hL]
    cases mcStep exp s.1 L J h T ((s.2.ints s.2.ni : Int) % L)
        ((s.2.ints (s.2.ni + 1) : Int) % L) { s.2 with ni := s.2.ni + 2 } with
    | none => rfl
    | some s' => exact ih (i + 1) s'

theorem toNat_mul_self (L : Int) (hL : 0 < L) : (L * L).toNat = L.toNat ^ 2 := by
  apply Int.ofNat_inj.mp
  push_cast
  rw [Int.toNat_of_nonneg hL.le, Int.toNat_of_nonneg (mul_nonneg hL.le hL.le)]
  ring

theorem mcStep_frame {exp : ℚ → ℚ} {L : Int} {lattice lattice' : array2d} {J h T : ℚ}
    {x y : Int} {g g' : Rng} (hm : mcStep exp lattice L J h T x y g = some (lattice', g'))
    (x' y' : Int) (hne : ¬ (x' = x ∧ y' = y)) : at2 lattice' x' y' = at2 lattice x' y' := by
  unfold mcStep at hm
  cases hd : flipDelta lattice L J h x y with
  | none => rw [hd] at hm; exact absurd hm (by simp)
  | some r =>
    obtain ⟨S1, dE⟩ := r
    rw [hd] at hm
    dsimp only at hm
    split at hm
    · cases hs : set2 lattice x y S1 with
      | none => rw [hs] at hm; exact absurd hm (by simp)
      | some l' =>
        rw [hs] at hm
        have : l' = lattice' := (Prod.mk.inj (Option.some.inj hm)).1
        subst this
        exact at2_set2_ne hs x' y' hne
    · have : lattice = lattice' := (Prod.mk.inj (Option.some.inj hm)).1
      subst this
      rfl

theorem attempt_counters (exp : ℚ → ℚ) {L : Int} (hL : 0 < L) (J h T : ℚ)
    (s : array2d × Rng) (hsq : Square L s.1) :
    ∃ s', attempt exp L J h T s = some s' ∧ Square L s'.1 ∧ Advanced s.2 s'.2 2 1 ∧
      ∀ x' y' : Int, ¬ (x' = (s.2.ints s.2.ni : Int) % L ∧
          y' = (s.2.ints (s.2.ni + 1) : Int) % L) →
        at2 s'.1 x' y' = at2 s.1 x' y' := by
  have h1 := emod_range (s.2.ints s.2.ni : Int) L hL
  have h2 := emod_range (s.2.ints (s.2.ni + 1) : Int) L hL
  rcases mcStep_of_square exp hsq hL J h T h1.1 h1.2 h2.1 h2.2 { s.2 with ni := s.2.ni + 2 }
    with ⟨l', hl', hsq'⟩
  refine ⟨(l', ({ s.2 with ni := s.2.ni + 2 } : Rng).Float64.2),
    by rw [attempt_eq exp L hL, hl'], hsq', ⟨rfl, rfl, rfl, rfl⟩, ?_⟩
  intro x' y' hne
  exact mcStep_frame hl' x' y' hne

theorem Advanced.refl (g : Rng) : Advanced g g 0 0 := ⟨rfl, rfl, rfl, rfl⟩

theorem Advanced.trans {g g' g'' : Rng} {di df di' df' : Nat} (h1 : Advanced g g' di df)
    (h2 : Advanced g' g'' di' df') : Advanced g g'' (di + di') (df + df') := by
  rcases h1 with ⟨a1, a2, a3, a4⟩
  rcases h2 with ⟨b1, b2, b3, b4⟩
  exact ⟨b1.trans a1, b2.trans a2, by rw [b3, a3]; ring, by rw [b4, a4]; ring⟩

theorem Advanced.cast {g g' : Rng} {di df di' df' : Nat} (h : Advanced g g' di df)
    (h1 : di = di') (h2 : df = df') : Advanced g g' di' df' := by
  subst h1 h2; exact h

theorem nextStep_counters (exp : ℚ → ℚ) {L : Int} (hL : 0 < L) (J h T : ℚ)
    (st : array2d × Rng) (hsq : Square L st.1) :
    ∃ st', nextStep exp L J h T st = some st' ∧ Square L st'.1 ∧
      Advanced st.2 st'.2 (2 * L.toNat ^ 2) (L.toNat ^ 2) := by
  unfold nextStep
  rcases forLoop_inv (fun j s => Square L s.1 ∧ Advanced st.2 s.2 (2 * j.toNat) j.toNat)
    (fun _ s => attempt exp L J h T s) (L * L) st (by positivity)
    ⟨hsq, Advanced.refl st.2⟩
    (by
      intro j t hj0 _ ht
      rcases attempt_counters exp hL J h T t ht.1 with ⟨t', ht', hsq', hadv, _⟩
      refine ⟨t', ht', hsq', (ht.2.trans hadv).cast ?_ ?_⟩
      · omega
      · omega) with ⟨st', hst', hsq', hadv⟩
  rw [toNat_mul_self L hL] at hadv
  exact ⟨st', hst', hsq', hadv⟩

/-- C13: for `L > 0`, `nextStep` is exactly `L ^ 2` update attempts, each an `mcStep` at the
site given by the next two coordinate draws, both in `[0, L)`; it takes `2 * L ^ 2`
coordinate draws and `L ^ 2` acceptance draws. Sites are drawn with replacement: on a
generator whose coordinate draws are all equal, every attempt is at the same site and no
other site changes. -/
theorem nextStep_sweep (exp : ℚ → ℚ) (L : Int) (hL : 0 < L) (J h T : ℚ)
    (st : array2d × Rng) (hsq : Square L st.1) :
    nextStep exp L J h T st = attempts exp L J h T (L.toNat ^ 2) st ∧
    (∀ n : Nat, 0 ≤ (st.2.ints n : Int) % L ∧ (st.2.ints n : Int) % L < L) ∧
    (∃ st', nextStep exp L J h T st = some st' ∧ Square L st'.1 ∧
      st'.2.ints = st.2.ints ∧ st'.2.floats = st.2.floats ∧
      st'.2.ni = st.2.ni + 2 * L.toNat ^ 2 ∧ st'.2.nf = st.2.nf + L.toNat ^ 2) ∧
    (∀ c : Nat, (∀ n, st.2.ints n = c) →
      ∃ st', nextStep exp L J h T st = some st' ∧
        ∀ x' y' : Int, ¬ (x' = (c : Int) % L ∧ y' = (c : Int) % L) →
          at2 st'.1 x' y' = at2 st.1 x' y') := by
  refine ⟨?_, fun n => emod_range _ L hL, ?_, ?_⟩
  · unfold nextStep forLoop
    rw [loopFrom_attempts exp L hL, toNat_mul_self L hL]
  · rcases nextStep_counters exp hL J h T st hsq with ⟨st', hst', hsq', h1, h2, h3, h4⟩
    exact ⟨st', hst', hsq', h1, h2, h3, h4⟩
  · intro c hc
    unfold nextStep
    rcases forLoop_inv (fun _ s => Square L s.1 ∧ s.2.ints = st.2.ints ∧
        ∀ x' y' : Int, ¬ (x' = (c : Int) % L ∧ y' = (c : Int) % L) →
          at2 s.1 x' y' = at2 st.1 x' y')
      (fun _ s => attempt exp L J h T s) (L * L) st (by positivity)
      ⟨hsq, rfl, fun _ _ _ => rfl⟩
      (by
        intro j t _ _ ht
        rcases attempt_counters exp hL J h T t ht.1 with ⟨t', ht', hsq', hadv, hfr⟩
        refine ⟨t', ht', hsq', hadv.1.trans ht.2.1, ?_⟩
        intro x' y' hne
        rw [← ht.2.2 x' y' hne]
        apply hfr
        rw [ht.2.1, hc, hc]
        exact hne) with ⟨st', hst', _, _, hfr⟩
    exact ⟨st', hst', hfr⟩

/-- C13 on a `2 × 2` lattice with the concrete generator. -/
theorem nextStep_sweep_witness :
    nextStep expStub 2 1 0 2 ([[1, -1], [-1, -1]], rngStub) =
      attempts expStub 2 1 0 2 ((2 : Int).toNat ^ 2) ([[1, -1], [-1, -1]], rngStub) ∧
    (∀ n : Nat, 0 ≤ (rngStub.ints n : Int) % 2 ∧ (rngStub.ints n : Int) % 2 < 2) ∧
    (∃ st', nextStep expStub 2 1 0 2 ([[1, -1], [-1, -1]], rngStub) = some st' ∧
      Square 2 st'.1 ∧ st'.2.ints = rngStub.ints ∧ st'.2.floats = rngStub.floats ∧
      st'.2.ni = rngStub.ni + 2 * (2 : Int).toNat ^ 2 ∧
      st'.2.nf = rngStub.nf + (2 : Int).toNat ^ 2) ∧
    (∀ c : Nat, (∀ n, rngStub.ints n = c) →
      ∃ st', nextStep expStub 2 1 0 2 ([[1, -1], [-1, -1]], rngStub) = some st' ∧
        ∀ x' y' : Int, ¬ (x' = (c : Int) % 2 ∧ y' = (c : Int) % 2) →
          at2 st'.1 x' y' = at2 [[1, -1], [-1, -1]] x' y') :=
  nextStep_sweep expStub 2 (by decide) 1 0 2 ([[1, -1], [-1, -1]], rngStub) (by decide)

/-! ## Counting sweeps and measurements -/

theorem nextStep_run (exp : ℚ → ℚ) {L : Int} (hL : 0 < L) (J h T : ℚ)
    (st : array2d × Rng) (hv : Valid L st.1) :
    ∃ st', nextStep exp L J h T st = some st' ∧ Valid L st'.1 ∧
      Advanced st.2 st'.2 (2 * L.toNat ^ 2) (L.toNat ^ 2) := by
  rcases nextStep_counters exp hL J h T st hv.1 with ⟨st', hst', _, hadv⟩
  exact ⟨st', hst', nextStep_some_valid hv hst', hadv⟩

theorem loop_counters {σ : Type} (rng : σ → Rng) (Inv : σ → Prop) (body : Int → σ → Option σ)
    (di df : Nat) (n : Int)
    (hstep : ∀ j s, 0 ≤ j → j < n → Inv s →
      ∃ s', body j s = some s' ∧ Inv s' ∧ Advanced (rng s) (rng s') di df)
    (s : σ) (hs : Inv s) :
    ∃ s', forLoop n body s = some s' ∧ Inv s' ∧
      Advanced (rng s) (rng s') (n.toNat * di) (n.toNat * df) := by
  unfold forLoop
  rcases loopFrom_inv
    (fun j t => Inv t ∧ Advanced (rng s) (rng t) (j.toNat * di) (j.toNat * df)) body
    n.toNat 0 s ⟨hs, (Advanced.refl (rng s)).cast (by simp) (by simp)⟩
    (by
      intro j t hj0 hj ht
      rcases hstep j t hj0 (by omega) ht.1 with ⟨t', ht', hinv, hadv⟩
      refine ⟨t', ht', hinv, (ht.2.trans hadv).cast ?_ ?_⟩
      · have : (j + 1).toNat = j.toNat + 1 := by omega
        rw [this]; ring
      · have : (j + 1).toNat = j.toNat + 1 := by omega
        rw [this]; ring) with ⟨s', hs', hinv, hadv⟩
  have hk : (0 + (n.toNat : Int)).toNat = n.toNat := by omega
  rw [hk] at hadv
  exact ⟨s', hs', hinv, hadv⟩

theorem thermalize_counters (exp : ℚ → ℚ) {L : Int} (hL : 0 < L) (J h T : ℚ) (aSteps : Int)
    (st : array2d × Rng) (hv : Valid L st.1) :
    ∃ st', thermalize exp L J h T aSteps st = some st' ∧ Valid L st'.1 ∧
      Advanced st.2 st'.2 (aSteps.toNat * (2 * L.toNat ^ 2)) (aSteps.toNat * L.toNat ^ 2) := by
  unfold thermalize
  exact loop_counters (fun s : array2d × Rng => s.2) (fun s => Valid L s.1) _ _ _ aSteps
    (fun j s _ _ hs => nextStep_run exp hL J h T s hs) st hv

theorem measureStep_eq {α : Type} (rec : α → ℚ → ℚ → α) (exp : ℚ → ℚ) {L : Int}
    (hL : 0 < L) (J h T : ℚ) (s : (array2d × Rng) × α) (hv : Valid L s.1.1) :
    ∃ s1 em, nextStep exp L J h T s.1 = some s1 ∧ calcParameters s1.1 L J h = some em ∧
      measureStep rec exp L J h T s = some (s1, rec s.2 em.1 em.2) ∧ Valid L s1.1 ∧
      Advanced s.1.2 s1.2 (2 * L.toNat ^ 2) (L.toNat ^ 2) := by
  rcases nextStep_run exp hL J h T s.1 hv with ⟨s1, hs1, hv1, hadv⟩
  obtain ⟨em, hem⟩ : ∃ em, calcParameters s1.1 L J h = some em :=
    ⟨_, calcParameters_eq hv1.1 hL J h⟩
  refine ⟨s1, em, hs1, hem, ?_, hv1, hadv⟩
  simp only [measureStep, hs1, hem]

theorem measure_counters {α : Type} (rec : α → ℚ → ℚ → α) (exp : ℚ → ℚ) {L : Int}
    (hL : 0 < L) (J h T : ℚ) (mSteps : Int) (st : (array2d × Rng) × α)
    (hv : Valid L st.1.1) :
    ∃ st', measure rec exp L J h T mSteps st = some st' ∧ Valid L st'.1.1 ∧
      Advanced st.1.2 st'.1.2 (mSteps.toNat * (2 * L.toNat ^ 2))
        (mSteps.toNat * L.toNat ^ 2) := by
  unfold measure
  apply loop_counters (fun s : (array2d × Rng) × α => s.1.2) (fun s => Valid L s.1.1) _ _ _
    mSteps _ st hv
  intro j s _ _ hs
  rcases measureStep_eq rec exp hL J h T s hs with ⟨s1, em, _, _, hms, hv1, hadv⟩
  exact ⟨_, hms, hv1, hadv⟩

theorem copyStep_eq {α : Type} (rec : α → ℚ → ℚ → α) (exp : ℚ → ℚ) {L : Int} (hL : 0 < L)
    (J h T : ℚ) (aSteps mSteps copies : Int) (copyIdx : Int) (hc0 : 0 ≤ copyIdx)
    (hc : copyIdx < copies) (s : (List array2d × Rng) × α) (hv : ValidAll L copies s.1.1) :
    ∃ (lattice : array2d) (s1 s2 : array2d × Rng) (ms : List (ℚ × ℚ)),
      idx s.1.1 copyIdx = some lattice ∧
      thermalize exp L J h T aSteps (lattice, s.1.2) = some s1 ∧
      Advanced s.1.2 s1.2 (aSteps.toNat * (2 * L.toNat ^ 2)) (aSteps.toNat * L.toNat ^ 2) ∧
      measure rec exp L J h T mSteps (s1, s.2) = some (s2, foldSamples rec s.2 ms) ∧
      ms.length = mSteps.toNat ∧
      Advanced s1.2 s2.2 (mSteps.toNat * (2 * L.toNat ^ 2)) (mSteps.toNat * L.toNat ^ 2) ∧
      copyStep rec exp L J h T aSteps mSteps copyIdx s =
        some ((s.1.1.set copyIdx.toNat s2.1, s2.2), foldSamples rec s.2 ms) ∧
      ValidAll L copies (s.1.1.set copyIdx.toNat s2.1) := by
  have hlt : copyIdx.toNat < s.1.1.length := by rw [hv.1]; omega
  have hidx := idx_of_lt s.1.1 copyIdx hc0 hlt
  have hval : Valid L (s.1.1.get ⟨copyIdx.toNat, hlt⟩) := hv.2 _ (List.get_mem s.1.1 _ hlt)
  rcases thermalize_counters exp hL J h T aSteps (s.1.1.get ⟨copyIdx.toNat, hlt⟩, s.1.2) hval
    with ⟨s1, hs1, hv1, hadv1⟩
  rcases measure_trace exp hL J h T mSteps s1 hv1 with ⟨s2, ms, hv2, hlen, _, hmeas⟩
  rcases measure_counters rec exp hL J h T mSteps (s1, s.2) hv1 with ⟨s2', hs2', _, hadv2⟩
  have heq : s2' = (s2, foldSamples rec s.2 ms) := by
    have := hmeas α rec s.2
    rw [hs2'] at this
    exact Option.some.inj this
  rw [heq] at hadv2
  refine ⟨_, s1, s2, ms, hidx, hs1, hadv1, hmeas α rec s.2, hlen, hadv2, ?_, ?_, ?_⟩
  · simp only [copyStep, hidx, hs1, hmeas α rec s.2, upd_of_lt s.1.1 copyIdx s2.1 hc0 hlt]
  · rw [List.length_set]; exact hv.1
  · intro l hl
    rcases List.mem_or_eq_of_mem_set hl with h1 | h1
    · exact hv.2 l h1
    · rw [h1]; exact hv2

theorem copyLoop_counters {α : Type} (rec : α → ℚ → ℚ → α) (exp : ℚ → ℚ) {L : Int}
    (hL : 0 < L) (J h T : ℚ) (aSteps mSteps copies : Int) (st : (List array2d × Rng) × α)
    (hv : ValidAll L copies st.1.1) :
    ∃ st', copyLoop rec exp L J h T aSteps mSteps copies st = some st' ∧
      ValidAll L copies st'.1.1 ∧
      Advanced st.1.2 st'.1.2
        (copies.toNat * ((aSteps.toNat + mSteps.toNat) * (2 * L.toNat ^ 2)))
        (copies.toNat * ((aSteps.toNat + mSteps.toNat) * L.toNat ^ 2)) := by
  unfold copyLoop
  apply loop_counters (fun s : (List array2d × Rng) × α => s.1.2)
    (fun s => ValidAll L copies s.1.1) _ _ _ copies _ st hv
  intro j s hj0 hj hs
  rcases copyStep_eq rec exp hL J h T aSteps mSteps copies j hj0 hj s hs with
    ⟨_, s1, s2, ms, _, _, hadv1, _, _, hadv2, hstep, hvalid⟩
  exact ⟨_, hstep, hvalid, (hadv1.trans hadv2).cast (by ring) (by ring)⟩

theorem scheduleLoop_counters {α ρ : Type} (init : α) (rec : α → ℚ → ℚ → α)
    (fin : ℚ → α → ρ) (exp : ℚ → ℚ) (J h : ℚ) (params : Params) (hL : 0 < params.L)
    (st : (List array2d × Rng) × List ρ) (hv : ValidAll params.L params.Copies st.1.1) :
    ∃ st', scheduleLoop init rec fin exp J h params st = some st' ∧
      ValidAll params.L params.Copies st'.1.1 ∧
      Advanced st.1.2 st'.1.2
        (params.Tcount.toNat * (params.Copies.toNat *
          ((params.ASteps.toNat + params.MSteps.toNat) * (2 * params.L.toNat ^ 2))))
        (params.Tcount.toNat * (params.Copies.toNat *
          ((params.ASteps.toNat + params.MSteps.toNat) * params.L.toNat ^ 2))) := by
  unfold scheduleLoop
  apply loop_counters (fun s : (List array2d × Rng) × List ρ => s.1.2)
    (fun s => ValidAll params.L params.Copies s.1.1) _ _ _ params.Tcount _ st hv
  intro j s _ _ hs
  rcases copyLoop_counters rec exp hL J h (tempAt params.T1 params.T2 params.Tcount j)
    params.ASteps params.MSteps params.Copies (s.1, init) hs with ⟨s1, hs1, hv1, hadv⟩
  refine ⟨(s1.1, s.2 ++ [fin (tempAt params.T1 params.T2 params.Tcount j) s1.2]), ?_, hv1,
    hadv⟩
  simp only [scheduleStep, hs1]

theorem sum_map_const {β : Type} (f : β → Nat) (k : Nat) (l : List β)
    (hl : ∀ v ∈ l, f v = k) : (l.map f).sum = l.length * k := by
  induction l with
  | nil => simp
  | cons v l ih =>
    rw [List.map_cons, List.sum_cons, hl v (List.mem_cons_self _ _),
      ih (fun w hw => hl w (List.mem_cons_of_mem _ hw)), List.length_cons]
    ring

/-- C14: for valid parameters with `ASteps ≥ 0`, each copy step runs `ASteps` sweeps without
measurement and then `MSteps` sweeps each followed by one `calcParameters` call (a sweep
takes `L ^ 2` acceptance draws, so the generator counts them); the whole run terminates
after `Tcount * Copies * (ASteps + MSteps)` sweeps and `Tcount * Copies * MSteps`
measurements. -/
theorem RunIsing_sweep_counts (exp : ℚ → ℚ) (g : Rng) (J h : ℚ) (params : Params)
    (hL : 0 < params.L) (hT : 1 < params.Tcount) (hA : 0 ≤ params.ASteps)
    (hM : 0 < params.MSteps) (hC : 0 < params.Copies) :
    (∀ (T : ℚ) (copyIdx : Int) (s : (List array2d × Rng) × Sums),
      0 ≤ copyIdx → copyIdx < params.Copies → ValidAll params.L params.Copies s.1.1 →
      ∃ (lattice : array2d) (s1 s2 : array2d × Rng) (ms : List (ℚ × ℚ)),
        idx s.1.1 copyIdx = some lattice ∧
        thermalize exp params.L J h T params.ASteps (lattice, s.1.2) = some s1 ∧
        (s1.2.nf : Int) = s.1.2.nf + params.ASteps * (params.L * params.L) ∧
        measure (addSample params.MSteps params.Copies) exp params.L J h T params.MSteps
            (s1, s.2) =
          some (s2, foldSamples (addSample params.MSteps params.Copies) s.2 ms) ∧
        (ms.length : Int) = params.MSteps ∧
        (s2.2.nf : Int) = s1.2.nf + params.MSteps * (params.L * params.L) ∧
        copyStep (addSample params.MSteps params.Copies) exp params.L J h T params.ASteps
            params.MSteps copyIdx s =
          some ((s.1.1.set copyIdx.toNat s2.1, s2.2),
            foldSamples (addSample params.MSteps params.Copies) s.2 ms)) ∧
    (∀ (T : ℚ) (s : (array2d × Rng) × Sums), Valid params.L s.1.1 →
      ∃ s1 em, nextStep exp params.L J h T s.1 = some s1 ∧
        calcParameters s1.1 params.L J h = some em ∧
        measureStep (addSample params.MSteps params.Copies) exp params.L J h T s =
          some (s1, addSample params.MSteps params.Copies s.2 em.1 em.2)) ∧
    (∃ (st : (List array2d × Rng) × List ResultRow) (rows : List ResultRow)
        (tr : List (ℚ × List (ℚ × ℚ))),
      tempLoop exp J h params ((initLattices params.L params.Copies, g), []) = some st ∧
      RunIsing exp g J h params = some (rows, none) ∧
      snapshots exp g J h params = some tr ∧
      (st.1.2.nf : Int) = g.nf +
        params.Tcount * params.Copies * (params.ASteps + params.MSteps) *
          (params.L * params.L) ∧
      (((tr.map (fun v => v.2.length)).sum : Nat) : Int) =
        params.Tcount * params.Copies * params.MSteps) := by
  have hn : ((params.L.toNat : Nat) : Int) = params.L := Int.toNat_of_nonneg hL.le
  have ha : ((params.ASteps.toNat : Nat) : Int) = params.ASteps := Int.toNat_of_nonneg hA
  have hm : ((params.MSteps.toNat : Nat) : Int) = params.MSteps :=
    Int.toNat_of_nonneg hM.le
  have hc : ((params.Copies.toNat : Nat) : Int) = params.Copies :=
    Int.toNat_of_nonneg hC.le
  have ht : ((params.Tcount.toNat : Nat) : Int) = params.Tcount :=
    Int.toNat_of_nonneg (by omega)
  refine ⟨?_, ?_, ?_⟩
  · intro T copyIdx s hc0 hc1 hv
    rcases copyStep_eq (addSample params.MSteps params.Copies) exp hL J h T params.ASteps
      params.MSteps params.Copies copyIdx hc0 hc1 s hv with
      ⟨lattice, s1, s2, ms, hidx, hth, hadv1, hme, hlen, hadv2, hstep, _⟩
    refine ⟨lattice, s1, s2, ms, hidx, hth, ?_, hme, ?_, ?_, hstep⟩
    · rw [hadv1.2.2.2]; push_cast; rw [ha, hn]; ring
    · rw [hlen, hm]
    · rw [hadv2.2.2.2]; push_cast; rw [hm, hn]; ring
  · intro T s hv
    rcases measureStep_eq (addSample params.MSteps params.Copies) exp hL J h T s hv with
      ⟨s1, em, h1, h2, h3, _, _⟩
    exact ⟨s1, em, h1, h2, h3⟩
  · rcases run_trace exp g J h params hL hT hM hC with ⟨tr, hlen, hP, hsnap, hrun⟩
    rcases scheduleLoop_counters (⟨0, 0, 0, 0⟩ : Sums)
      (addSample params.MSteps params.Copies)
      (fun T a => finishRow T (params.L * params.L) a) exp J h params hL
      ((initLattices params.L params.Copies, g), []) (initLattices_valid _ _) with
      ⟨st, hst, _, hadv⟩
    refine ⟨st, _, tr, hst, hrun, hsnap, ?_, ?_⟩
    · rw [hadv.2.2.2]; push_cast; rw [ht, hc, ha, hm, hn]; ring
    · rw [sum_map_const (fun v : ℚ × List (ℚ × ℚ) => v.2.length)
        (params.Copies.toNat * params.MSteps.toNat) tr
        (fun v hv => by
          rcases List.get?_of_mem hv with ⟨n, hn'⟩
          exact (hP n v hn').2.1), hlen]
      push_cast
      rw [ht, hc, hm]
      ring

/-- C14 on a concrete run: a `2 × 2` lattice, two copies, one thermalisation sweep and two
measurement sweeps at each of three temperatures. -/
theorem RunIsing_sweep_counts_witness :
    ∃ (st : (List array2d × Rng) × List ResultRow) (rows : List ResultRow)
        (tr : List (ℚ × List (ℚ × ℚ))),
      tempLoop expStub 1 0 paramsStub
          ((initLattices paramsStub.L paramsStub.Copies, rngStub), []) = some st ∧
      RunIsing expStub rngStub 1 0 paramsStub = some (rows, none) ∧
      snapshots expStub rngStub 1 0 paramsStub = some tr ∧
      (st.1.2.nf : Int) = rngStub.nf +
        paramsStub.Tcount * paramsStub.Copies * (paramsStub.ASteps + paramsStub.MSteps) *
          (paramsStub.L * paramsStub.L) ∧
      (((tr.map (fun v => v.2.length)).sum : Nat) : Int) =
        paramsStub.Tcount * paramsStub.Copies * paramsStub.MSteps :=
  (RunIsing_sweep_counts expStub rngStub 1 0 paramsStub (by decide) (by decide) (by decide)
    (by decide) (by decide)).2.2

/-! ## Signs and bounds of the rows -/

theorem sum_sq_shift {β : Type} (f : β → ℚ) (μ : ℚ) (l : List β) :
    (l.map (fun w => (f w - μ) * (f w - μ))).sum =
      (l.map (fun w => f w * f w)).sum - 2 * μ * (l.map f).sum + (l.length : ℚ) * (μ * μ) := by
  induction l with
  | nil => simp
  | cons w l ih =>
    simp only [List.map_cons, List.sum_cons, List.length_cons, ih]
    push_cast
    ring

theorem mean_sq_le {β : Type} (f : β → ℚ) (l : List β) :
    mean (l.map f) ^ 2 ≤ mean (l.map (fun w => f w * f w)) := by
  unfold mean
  simp only [List.length_map]
  by_cases hn : (l.length : ℚ) = 0
  · rw [hn]; simp
  · have hpos : (0 : ℚ) < (l.length : ℚ) :=
      lt_of_le_of_ne (Nat.cast_nonneg _) (Ne.symm hn)
    have hnn : 0 ≤ (l.map (fun w => (f w - (l.map f).sum / (l.length : ℚ)) *
        (f w - (l.map f).sum / (l.length : ℚ)))).sum := by
      apply List.sum_nonneg
      intro x hx
      rcases List.mem_map.mp hx with ⟨w, _, hw⟩
      rw [← hw]
      exact mul_self_nonneg _
    rw [sum_sq_shift] at hnn
    have key : (l.map (fun w => f w * f w)).sum / (l.length : ℚ) -
        ((l.map f).sum / (l.length : ℚ)) ^ 2 =
        ((l.map (fun w => f w * f w)).sum -
          2 * ((l.map f).sum / (l.length : ℚ)) * (l.map f).sum +
          (l.length : ℚ) * ((l.map f).sum / (l.length : ℚ) * ((l.map f).sum / (l.length : ℚ))))
          / (l.length : ℚ) := by
      field_simp
      ring
    have h2 := div_nonneg hnn hpos.le
    rw [← key] at h2
    linarith

theorem rowOf_fields (params : Params) (hM : 0 < params.MSteps) (hC : 0 < params.Copies)
    (v : ℚ × List (ℚ × ℚ))
    (hlen : v.2.length = params.Copies.toNat * params.MSteps.toNat) :
    (rowOf params v).T = v.1 ∧
    (rowOf params v).U = mean (v.2.map (fun w => w.1)) / ((params.L * params.L : Int) : ℚ) ∧
    (rowOf params v).C =
      (mean (v.2.map (fun w => w.1 * w.1)) - mean (v.2.map (fun w => w.1)) *
        mean (v.2.map (fun w => w.1))) / (v.1 * v.1 * ((params.L * params.L : Int) : ℚ)) ∧
    (rowOf params v).M = mean (v.2.map (fun w => |w.2|)) / ((params.L * params.L : Int) : ℚ) ∧
    (rowOf params v).X =
      (mean (v.2.map (fun w => w.2 * w.2)) - mean (v.2.map (fun w => |w.2|)) *
        mean (v.2.map (fun w => |w.2|))) / (v.1 * ((params.L * params.L : Int) : ℚ)) := by
  have hl : ∀ f : ℚ × ℚ → ℚ, (v.2.map f).length =
      params.Copies.toNat * params.MSteps.toNat := by
    intro f; rw [List.length_map, hlen]
  have hfold := foldSamples_addSample params.MSteps params.Copies v.2 ⟨0, 0, 0, 0⟩
  simp only [zero_add, div_div_eq_mean params.MSteps params.Copies hM hC _ (hl _)] at hfold
  refine ⟨rfl, ?_, ?_, ?_, ?_⟩ <;> simp only [rowOf, finishRow, hfold]

theorem mem_trace_row {params : Params} {tr : List (ℚ × List (ℚ × ℚ))} {row : ResultRow}
    (hrow : row ∈ tr.map (rowOf params)) :
    ∃ (n : Nat) (v : ℚ × List (ℚ × ℚ)), tr.get? n = some v ∧ row = rowOf params v := by
  rcases List.mem_map.mp hrow with ⟨v, hv, hvr⟩
  rcases List.get?_of_mem hv with ⟨n, hn⟩
  exact ⟨n, v, hn, hvr.symm⟩

/-- C17: for valid parameters every row whose temperature is positive has `C ≥ 0` and
`X ≥ 0`, and every row whose temperature is not zero has `C ≥ 0`: the numerators are the
variances of the sampled energies and of the sampled `|moment|`. -/
theorem RunIsing_variances_nonneg (exp : ℚ → ℚ) (g : Rng) (J h : ℚ) (params : Params)
    (hL : 0 < params.L) (hT : 1 < params.Tcount) (hM : 0 < params.MSteps)
    (hC : 0 < params.Copies) :
    ∃ rows : List ResultRow, RunIsing exp g J h params = some (rows, none) ∧
      ∀ row ∈ rows, (0 < row.T → 0 ≤ row.C ∧ 0 ≤ row.X) ∧ (row.T ≠ 0 → 0 ≤ row.C) := by
  rcases run_trace exp g J h params hL hT hM hC with ⟨tr, _, hP, _, hrun⟩
  refine ⟨_, hrun, ?_⟩
  intro row hrow
  rcases mem_trace_row hrow with ⟨n, v, hv, hr⟩
  rcases rowOf_fields params hM hC v (hP n v hv).2.1 with ⟨hT', _, hCf, _, hXf⟩
  have hN : (0 : ℚ) < ((params.L * params.L : Int) : ℚ) := by
    have : (0 : Int) < params.L * params.L := mul_pos hL hL
    exact_mod_cast this
  have hvarE : 0 ≤ mean (v.2.map (fun w => w.1 * w.1)) -
      mean (v.2.map (fun w => w.1)) * mean (v.2.map (fun w => w.1)) := by
    have := mean_sq_le (fun w : ℚ × ℚ => w.1) v.2
    rw [pow_two] at this
    linarith
  have hvarM : 0 ≤ mean (v.2.map (fun w => w.2 * w.2)) -
      mean (v.2.map (fun w => |w.2|)) * mean (v.2.map (fun w => |w.2|)) := by
    have := mean_sq_le (fun w : ℚ × ℚ => |w.2|) v.2
    rw [pow_two] at this
    simp only [abs_mul_abs_self] at this
    linarith
  have hCnn : 0 ≤ row.C := by
    rw [hr, hCf]
    exact div_nonneg hvarE (mul_nonneg (mul_self_nonneg _) hN.le)
  refine ⟨fun hpos => ⟨hCnn, ?_⟩, fun _ => hCnn⟩
  rw [hr, hT'] at hpos
  rw [hr, hXf]
  exact div_nonneg hvarM (mul_nonneg hpos.le hN.le)

/-- C17 on a concrete run. -/
theorem RunIsing_variances_nonneg_witness :
    ∃ rows : List ResultRow, RunIsing expStub rngStub 1 0 paramsStub = some (rows, none) ∧
      ∀ row ∈ rows, (0 < row.T → 0 ≤ row.C ∧ 0 ≤ row.X) ∧ (row.T ≠ 0 → 0 ≤ row.C) :=
  RunIsing_variances_nonneg expStub rngStub 1 0 paramsStub (by decide) (by decide)
    (by decide) (by decide)

theorem calcParameters_bounds {L : Int} (hL : 0 < L) {lattice : array2d}
    (hv : Valid L lattice) (J h : ℚ) {w : ℚ × ℚ} (hw : calcParameters lattice L J h = some w) :
    |w.1| ≤ (2 * |J| + |h|) * ((L * L : Int) : ℚ) ∧ |w.2| ≤ ((L * L : Int) : ℚ) := by
  rw [calcParameters_eq hv.1 hL] at hw
  have hw' := (Option.some.inj hw).symm
  have hcast : ((L.toNat : Nat) : ℚ) = (L : ℚ) := by
    have : ((L.toNat : Nat) : Int) = L := Int.toNat_of_nonneg hL.le
    exact_mod_cast this
  have hspin : ∀ x y : Int, 0 ≤ x → x < L → 0 ≤ y → y < L →
      |(spin lattice x y : ℚ)| = 1 := by
    intro x y hx0 hx hy0 hy
    rcases spin_of_valid hv hx0 hx hy0 hy with h1 | h1 <;> rw [h1] <;> simp
  have hterm : ∀ x ∈ Finset.range L.toNat, ∀ y ∈ Finset.range L.toNat,
      |(siteTerm lattice L J h (x : Int) (y : Int)).1| ≤ 2 * |J| + |h| ∧
      |(siteTerm lattice L J h (x : Int) (y : Int)).2| ≤ 1 := by
    intro x hx y hy
    have hx' : (x : Int) < L := by have := Finset.mem_range.mp hx; omega
    have hy' : (y : Int) < L := by have := Finset.mem_range.mp hy; omega
    have hxr := emod_range ((x : Int) + 1) L hL
    have hyb := emod_range ((y : Int) + 1) L hL
    have s0 := hspin x y (Int.natCast_nonneg x) hx' (Int.natCast_nonneg y) hy'
    have s1 := hspin _ y hxr.1 hxr.2 (Int.natCast_nonneg y) hy'
    have s2 := hspin x _ (Int.natCast_nonneg x) hx' hyb.1 hyb.2
    unfold siteTerm
    constructor
    · calc |(-J * (spin lattice x y : ℚ) * (spin lattice ((x + 1) % L) y : ℚ)
            + -J * (spin lattice x y : ℚ) * (spin lattice x ((y + 1) % L) : ℚ)
            + -h * (spin lattice x y : ℚ))|
          ≤ |(-J * (spin lattice x y : ℚ) * (spin lattice ((x + 1) % L) y : ℚ))|
            + |(-J * (spin lattice x y : ℚ) * (spin lattice x ((y + 1) % L) : ℚ))|
            + |(-h * (spin lattice x y : ℚ))| := abs_add_three _ _ _
        _ = 2 * |J| + |h| := by
          simp only [abs_mul, abs_neg, s0, s1, s2]
          ring
    · exact s0.le
  have hsum1 : |(∑ x ∈ Finset.range L.toNat, ∑ y ∈ Finset.range L.toNat,
      siteTerm lattice L J h (x : Int) (y : Int)).1| ≤
      ∑ x ∈ Finset.range L.toNat, ∑ y ∈ Finset.range L.toNat, (2 * |J| + |h|) := by
    rw [Prod.fst_sum]
    refine le_trans (Finset.abs_sum_le_sum_abs _ _) (Finset.sum_le_sum ?_)
    intro x hx
    rw [Prod.fst_sum]
    refine le_trans (Finset.abs_sum_le_sum_abs _ _) (Finset.sum_le_sum ?_)
    intro y hy
    exact (hterm x hx y hy).1
  have hsum2 : |(∑ x ∈ Finset.range L.toNat, ∑ y ∈ Finset.range L.toNat,
      siteTerm lattice L J h (x : Int) (y : Int)).2| ≤
      ∑ x ∈ Finset.range L.toNat, ∑ y ∈ Finset.range L.toNat, (1 : ℚ) := by
    rw [Prod.snd_sum]
    refine le_trans (Finset.abs_sum_le_sum_abs _ _) (Finset.sum_le_sum ?_)
    intro x hx
    rw [Prod.snd_sum]
    refine le_trans (Finset.abs_sum_le_sum_abs _ _) (Finset.sum_le_sum ?_)
    intro y hy
    exact (hterm x hx y hy).2
  simp only [Finset.sum_const, Finset.card_range, nsmul_eq_mul, hcast] at hsum1 hsum2
  rw [hw']
  constructor
  · refine le_trans hsum1 (le_of_eq ?_)
    push_cast; ring
  · refine le_trans hsum2 (le_of_eq ?_)
    push_cast; ring

theorem sum_le_length_mul (B : ℚ) (l : List ℚ) (hl : ∀ x ∈ l, x ≤ B) :
    l.sum ≤ (l.length : ℚ) * B := by
  induction l with
  | nil => simp
  | cons x l ih =>
    have h1 := hl x (List.mem_cons_self _ _)
    have h2 := ih (fun y hy => hl y (List.mem_cons_of_mem _ hy))
    rw [List.sum_cons, List.length_cons]
    push_cast
    linarith

theorem mean_le (B : ℚ) (hB : 0 ≤ B) (l : List ℚ) (hl : ∀ x ∈ l, x ≤ B) : mean l ≤ B := by
  unfold mean
  by_cases hn : (l.length : ℚ) = 0
  · rw [hn]; simpa using hB
  · have hpos : (0 : ℚ) < (l.length : ℚ) :=
      lt_of_le_of_ne (Nat.cast_nonneg _) (Ne.symm hn)
    rw [div_le_iff₀ hpos, mul_comm]
    exact sum_le_length_mul B l hl

theorem mean_nonneg (l : List ℚ) (hl : ∀ x ∈ l, 0 ≤ x) : 0 ≤ mean l := by
  unfold mean
  exact div_nonneg (List.sum_nonneg hl) (Nat.cast_nonneg _)

theorem mean_map_neg {β : Type} (f : β → ℚ) (l : List β) :
    mean (l.map (fun w => -f w)) = -mean (l.map f) := by
  unfold mean
  have : (l.map (fun w => -f w)).sum = -(l.map f).sum := by
    induction l with
    | nil => simp
    | cons w l ih => simp only [List.map_cons, List.sum_cons, ih]; ring
  rw [this, List.length_map, List.length_map, neg_div]

/-- C18: for valid parameters every row has `0 ≤ M ≤ 1` and
`-(2 * |J| + |h|) ≤ U ≤ 2 * |J| + |h|`: every measured lattice of spins has
`|moment| ≤ L ^ 2` and `|energy| ≤ (2 * |J| + |h|) * L ^ 2`. -/
theorem RunIsing_bounds (exp : ℚ → ℚ) (g : Rng) (J h : ℚ) (params : Params)
    (hL : 0 < params.L) (hT : 1 < params.Tcount) (hM : 0 < params.MSteps)
    (hC : 0 < params.Copies) :
    ∃ (rows : List ResultRow) (tr : List (ℚ × List (ℚ × ℚ))),
      RunIsing exp g J h params = some (rows, none) ∧
      snapshots exp g J h params = some tr ∧
      (∀ v ∈ tr, ∀ w ∈ v.2, |w.2| ≤ (params.L : ℚ) ^ 2 ∧
        |w.1| ≤ (2 * |J| + |h|) * (params.L : ℚ) ^ 2) ∧
      ∀ row ∈ rows, 0 ≤ row.M ∧ row.M ≤ 1 ∧
        -(2 * |J| + |h|) ≤ row.U ∧ row.U ≤ 2 * |J| + |h| := by
  rcases run_trace exp g J h params hL hT hM hC with ⟨tr, _, hP, hsnap, hrun⟩
  have hN : (0 : ℚ) < ((params.L * params.L : Int) : ℚ) := by
    have : (0 : Int) < params.L * params.L := mul_pos hL hL
    exact_mod_cast this
  have hN2 : ((params.L * params.L : Int) : ℚ) = (params.L : ℚ) ^ 2 := by push_cast; ring
  have hB : 0 ≤ 2 * |J| + |h| := by positivity
  have hbound : ∀ (n : Nat) (v : ℚ × List (ℚ × ℚ)), tr.get? n = some v → ∀ w ∈ v.2,
      |w.1| ≤ (2 * |J| + |h|) * ((params.L * params.L : Int) : ℚ) ∧
      |w.2| ≤ ((params.L * params.L : Int) : ℚ) := by
    intro n v hv w hw
    rcases (hP n v hv).2.2 w hw with ⟨lattice, hval, hcalc⟩
    exact calcParameters_bounds hL hval J h hcalc
  refine ⟨_, tr, hrun, hsnap, ?_, ?_⟩
  · intro v hv w hw
    rcases List.get?_of_mem hv with ⟨n, hn⟩
    have := hbound n v hn w hw
    rw [hN2] at this
    exact ⟨this.2, this.1⟩
  · intro row hrow
    rcases mem_trace_row hrow with ⟨n, v, hv, hr⟩
    rcases rowOf_fields params hM hC v (hP n v hv).2.1 with ⟨_, hU, _, hMf, _⟩
    have hb := hbound n v hv
    have hM0 : 0 ≤ mean (v.2.map (fun w => |w.2|)) := by
      apply mean_nonneg
      intro x hx
      rcases List.mem_map.mp hx with ⟨w, _, hw⟩
      rw [← hw]; exact abs_nonneg _
    have hM1 : mean (v.2.map (fun w => |w.2|)) ≤ ((params.L * params.L : Int) : ℚ) := by
      apply mean_le _ hN.le
      intro x hx
      rcases List.mem_map.mp hx with ⟨w, hw1, hw⟩
      rw [← hw]; exact (hb w hw1).2
    have hU1 : mean (v.2.map (fun w => w.1)) ≤
        (2 * |J| + |h|) * ((params.L * params.L : Int) : ℚ) := by
      apply mean_le _ (mul_nonneg hB hN.le)
      intro x hx
      rcases List.mem_map.mp hx with ⟨w, hw1, hw⟩
      rw [← hw]; exact le_trans (le_abs_self _) (hb w hw1).1
    have hU0 : -mean (v.2.map (fun w => w.1)) ≤
        (2 * |J| + |h|) * ((params.L * params.L : Int) : ℚ) := by
      rw [← mean_map_neg]
      apply mean_le _ (mul_nonneg hB hN.le)
      intro x hx
      rcases List.mem_map.mp hx with ⟨w, hw1, hw⟩
      rw [← hw]; exact le_trans (neg_le_abs _) (hb w hw1).1
    rw [hr, hU, hMf]
    refine ⟨div_nonneg hM0 hN.le, ?_, ?_, ?_⟩
    · rw [div_le_one hN]; exact hM1
    · rw [le_div_iff₀ hN]; linarith
    · rw [div_le_iff₀ hN]; exact hU1

/-- C18 on a concrete run. -/
theorem RunIsing_bounds_witness :
    ∃ (rows : List ResultRow) (tr : List (ℚ × List (ℚ × ℚ))),
      RunIsing expStub rngStub 1 0 paramsStub = some (rows, none) ∧
      snapshots expStub rngStub 1 0 paramsStub = some tr ∧
      (∀ v ∈ tr, ∀ w ∈ v.2, |w.2| ≤ (paramsStub.L : ℚ) ^ 2 ∧
        |w.1| ≤ (2 * |(1 : ℚ)| + |(0 : ℚ)|) * (paramsStub.L : ℚ) ^ 2) ∧
      ∀ row ∈ rows, 0 ≤ row.M ∧ row.M ≤ 1 ∧
        -(2 * |(1 : ℚ)| + |(0 : ℚ)|) ≤ row.U ∧ row.U ≤ 2 * |(1 : ℚ)| + |(0 : ℚ)| :=
  RunIsing_bounds expStub rngStub 1 0 paramsStub (by decide) (by decide) (by decide)
    (by decide)

/-! ## Relabelling at zero field -/

theorem at2_stagger (lattice : array2d) (x y : Int) (hx0 : 0 ≤ x) (hy0 : 0 ≤ y) :
    at2 (stagger lattice) x y =
      (at2 lattice x y).map (fun v => (-1 : Int) ^ (x.toNat + y.toNat) * v) := by
  unfold at2 idx stagger
  rw [if_neg (not_lt.mpr hx0), if_neg (not_lt.mpr hx0), List.get?_eq_getElem?,
    List.get?_eq_getElem?, List.getElem?_mapIdx]
  cases lattice[x.toNat]? with
  | none => rfl
  | some row =>
    simp only [Option.map_some', if_neg (not_lt.mpr hy0), List.get?_eq_getElem?,
      List.getElem?_mapIdx]

theorem at2_negate (lattice : array2d) (x y : Int) :
    at2 (negate lattice) x y = (at2 lattice x y).map (fun v => -v) := by
  unfold at2 idx negate
  by_cases hx : x < 0
  · simp only [if_pos hx, Option.map_none']
  · rw [if_neg hx, if_neg hx, List.get?_eq_getElem?, List.get?_eq_getElem?,
      List.getElem?_map]
    cases lattice[x.toNat]? with
    | none => rfl
    | some row =>
      by_cases hy : y < 0
      · simp only [Option.map_some', if_pos hy, Option.map_none']
      · simp only [Option.map_some', if_neg hy, List.get?_eq_getElem?, List.getElem?_map]

theorem stagger_square {L : Int} {lattice : array2d} (hsq : Square L lattice) :
    Square L (stagger lattice) := by
  unfold stagger
  refine ⟨by rw [List.length_mapIdx]; exact hsq.1, ?_⟩
  intro r hr
  rcases List.get?_of_mem hr with ⟨n, hn⟩
  rw [List.get?_eq_getElem?, List.getElem?_mapIdx] at hn
  cases hrow : lattice[n]? with
  | none => rw [hrow] at hn; exact absurd hn (by simp)
  | some row =>
    rw [hrow] at hn
    have : r = row.mapIdx (fun y v => (-1 : Int) ^ (n + y) * v) :=
      (Option.some.inj hn).symm
    rw [this, List.length_mapIdx]
    exact hsq.2 row (List.getElem?_mem hrow)

theorem negate_square {L : Int} {lattice : array2d} (hsq : Square L lattice) :
    Square L (negate lattice) := by
  unfold negate
  refine ⟨by rw [List.length_map]; exact hsq.1, ?_⟩
  intro r hr
  rcases List.mem_map.mp hr with ⟨row, hrow, hrr⟩
  rw [← hrr, List.length_map]
  exact hsq.2 row hrow

theorem spinAt_stagger (lattice : array2d) (a : Nat × Nat) :
    spinAt (stagger lattice) a = (-1 : ℚ) ^ (a.1 + a.2) * spinAt lattice a := by
  unfold spinAt spin
  rw [at2_stagger lattice _ _ (Int.natCast_nonneg _) (Int.natCast_nonneg _)]
  cases at2 lattice (a.1 : Int) (a.2 : Int) with
  | none => simp
  | some v => simp

theorem spinAt_negate (lattice : array2d) (a : Nat × Nat) :
    spinAt (negate lattice) a = -spinAt lattice a := by
  unfold spinAt spin
  rw [at2_negate]
  cases at2 lattice (a.1 : Int) (a.2 : Int) with
  | none => simp
  | some v => simp

theorem neg_one_pow_neighbour (n : Nat) (hn : n % 2 = 0) (x : Nat) (hx : x < n) (k : Nat) :
    (-1 : ℚ) ^ (x + k) * (-1 : ℚ) ^ ((x + 1) % n + k) = -1 := by
  rw [← pow_add]
  apply Odd.neg_one_pow
  rw [succ_mod_eq n x hx]
  split_ifs with h
  · exact ⟨x + k, by omega⟩
  · have hx1 : x + 1 = n := by omega
    rw [Nat.odd_iff]
    omega

/-- C19: at zero field, for even `L > 0` the energy of a lattice with coupling `J` equals
the energy of its staggered lattice (spin at `(x, y)` times `(-1) ^ (x + y)`) with coupling
`-J`; for every `L > 0`, negating every spin leaves the zero-field energy unchanged and
negates the magnetisation. -/
theorem energy_relabelling (L : Int) (hL : 0 < L) (lattice : array2d)
    (hsq : Square L lattice) (J : ℚ) :
    (∀ x y : Int, 0 ≤ x → x < L → 0 ≤ y → y < L →
      at2 (stagger lattice) x y = some ((-1) ^ (x.toNat + y.toNat) * spin lattice x y) ∧
      at2 (negate lattice) x y = some (-spin lattice x y)) ∧
    (L % 2 = 0 →
      ∃ em em', calcParameters lattice L J 0 = some em ∧
        calcParameters (stagger lattice) L (-J) 0 = some em' ∧ em'.1 = em.1) ∧
    (∃ em em', calcParameters lattice L J 0 = some em ∧
      calcParameters (negate lattice) L J 0 = some em' ∧ em'.1 = em.1 ∧ em'.2 = -em.2) := by
  have hmem : ∀ a ∈ sites L.toNat, a.1 < L.toNat ∧ a.2 < L.toNat := by
    intro a ha
    unfold sites at ha
    rw [Finset.mem_product, Finset.mem_range, Finset.mem_range] at ha
    exact ha
  refine ⟨?_, ?_, ?_⟩
  · intro x y hx0 hx hy0 hy
    rw [at2_stagger lattice x y hx0 hy0, at2_negate, at2_spin hsq hx0 hx hy0 hy]
    exact ⟨rfl, rfl⟩
  · intro heven
    have hn : L.toNat % 2 = 0 := by omega
    refine ⟨_, _, calcParameters_sites L hL lattice hsq J 0,
      calcParameters_sites L hL (stagger lattice) (stagger_square hsq) (-J) 0, ?_⟩
    simp only [zero_mul, sub_zero]
    have hH : ∑ a ∈ sites L.toNat, spinAt (stagger lattice) a *
          spinAt (stagger lattice) ((a.1 + 1) % L.toNat, a.2) =
        -∑ a ∈ sites L.toNat, spinAt lattice a * spinAt lattice ((a.1 + 1) % L.toNat, a.2) := by
      rw [← Finset.sum_neg_distrib]
      apply Finset.sum_congr rfl
      intro a ha
      rw [spinAt_stagger, spinAt_stagger]
      have := neg_one_pow_neighbour L.toNat hn a.1 (hmem a ha).1 a.2
      simp only at this ⊢
      linear_combination (spinAt lattice a * spinAt lattice ((a.1 + 1) % L.toNat, a.2)) * this
    have hV : ∑ a ∈ sites L.toNat, spinAt (stagger lattice) a *
          spinAt (stagger lattice) (a.1, (a.2 + 1) % L.toNat) =
        -∑ a ∈ sites L.toNat, spinAt lattice a * spinAt lattice (a.1, (a.2 + 1) % L.toNat) := by
      rw [← Finset.sum_neg_distrib]
      apply Finset.sum_congr rfl
      intro a ha
      rw [spinAt_stagger, spinAt_stagger]
      have := neg_one_pow_neighbour L.toNat hn a.2 (hmem a ha).2 a.1
      simp only at this ⊢
      rw [add_comm a.2 a.1, add_comm ((a.2 + 1) % L.toNat) a.1] at this
      linear_combination (spinAt lattice a * spinAt lattice (a.1, (a.2 + 1) % L.toNat)) * this
    rw [hH, hV]
    ring
  · refine ⟨_, _, calcParameters_sites L hL lattice hsq J 0,
      calcParameters_sites L hL (negate lattice) (negate_square hsq) J 0, ?_, ?_⟩
    · simp only [zero_mul, sub_zero, spinAt_negate, neg_mul_neg]
    · simp only [spinAt_negate, Finset.sum_neg_distrib]

/-- C19 on a concrete `2 × 2` lattice with `J = 1`. -/
theorem energy_relabelling_witness :
    (∀ x y : Int, 0 ≤ x → x < 2 → 0 ≤ y → y < 2 →
      at2 (stagger [[1, -1], [-1, -1]]) x y =
        some ((-1) ^ (x.toNat + y.toNat) * spin [[1, -1], [-1, -1]] x y) ∧
      at2 (negate [[1, -1], [-1, -1]]) x y = some (-spin [[1, -1], [-1, -1]] x y)) ∧
    ((2 : Int) % 2 = 0 →
      ∃ em em', calcParameters [[1, -1], [-1, -1]] 2 1 0 = some em ∧
        calcParameters (stagger [[1, -1], [-1, -1]]) 2 (-1) 0 = some em' ∧ em'.1 = em.1) ∧
    (∃ em em', calcParameters [[1, -1], [-1, -1]] 2 1 0 = some em ∧
      calcParameters (negate [[1, -1], [-1, -1]]) 2 1 0 = some em' ∧ em'.1 = em.1 ∧
      em'.2 = -em.2) :=
  energy_relabelling 2 (by decide) [[1, -1], [-1, -1]] (by decide) 1

end Ising
